import Mathlib

/-!
Verification development for the LazyMaintenance Kodi addon
(plugin.program.lazymaintenance, src/addon.py and src/constants.py).

The filesystem is modelled shallowly: a path is a pathlib-style pure path
(absolute flag plus component list), a filesystem is a flat list of files
(path, byte content, modification time); directories are implicit in file
paths, and empty directories are not tracked.  Relative paths are rooted at
the Kodi home directory (special://home), matching the path constants of
constants.py after translatePath.  Python strings are Lean strings; the
string operations used by the source (slicing, startswith, endswith,
'/'-splitting done by pathlib, joining with '/') are embedded on the
character lists.  Environmental effects (user cancellation polled through
progress.iscanceled, per-file locked-file delete failures, per-move
shutil.move failures, VFS transfer success, zipfile.testzip results) are
oracles passed as explicit function arguments; a run of backup or restore
is a pure function of the initial filesystem and these oracles, returning
the final filesystem plus a trace of the externally visible events.
Pathlib does not resolve ".." or symbolic links, and neither does the
model: components are taken literally.
-/

namespace LazyMaintenance

/-- Model of a pathlib pure path: absolute flag plus component list.
Relative paths (abs = false) are rooted at the Kodi home directory. -/
structure PPath where
  abs : Bool
  parts : List String
deriving DecidableEq, Repr

/-- The character list contains no slash. -/
def noSlash : List Char → Bool
  | [] => true
  | c :: r => !(c == '/') && noSlash r

/-- Python slicing s[n:] on a string (by code points, as Python indexes). -/
def pyDrop (s : String) (n : Nat) : String := String.mk (s.data.drop n)

/-- Python s.startswith(p). -/
def pyStartsWith (s p : String) : Bool := p.data.isPrefixOf s.data

/-- Python s.endswith(p). -/
def pyEndsWith (s p : String) : Bool := p.data.isSuffixOf s.data

/-- Splitting a character list at slash characters, accumulator style. -/
def splitSlashAux : List Char → List Char → List String
  | [], acc => [String.mk acc.reverse]
  | c :: r, acc =>
    if c == '/' then String.mk acc.reverse :: splitSlashAux r []
    else splitSlashAux r (c :: acc)

/-- Splitting a string at slashes (keeping empty pieces, as str.split does). -/
def splitSlash (s : String) : List String := splitSlashAux s.data []

/-- Whether a path string is absolute, i.e. starts with a slash. -/
def isAbs (s : String) : Bool :=
  match s.data with
  | c :: _ => c == '/'
  | [] => false

/-- The pathlib parse of one string segment: split at slashes, drop empty
and single-dot components, record whether the segment was absolute. -/
def parseP (s : String) : PPath :=
  ⟨isAbs s, (splitSlash s).filter (fun c => !(c == ("")) && !(c == (".")))⟩

/-- The pathlib join p / s: an absolute right segment discards p, otherwise
the parsed components of s are appended to p. -/
def joinP (p : PPath) (s : String) : PPath :=
  let q := parseP s
  if q.abs then q else ⟨p.abs, p.parts ++ q.parts⟩

/-- The pathlib join p / name for a plain directory-entry name, as returned
by iterdir: such a name is a single component. -/
def pChild (p : PPath) (n : String) : PPath := ⟨p.abs, p.parts ++ [n]⟩

/-- Joining a list of strings with a separator, as sep.join(list) does. -/
def joinWith (sep : String) : List String → String
  | [] => ("")
  | [x] => x
  | x :: xs => x ++ sep ++ joinWith sep xs

/-- special://home. -/
def HOME : PPath := ⟨false, []⟩

/-- special://home/addons. -/
def ADDONS : PPath := ⟨false, [("addons")]⟩

/-- special://userdata (special://home/userdata in a standard install). -/
def USERDATA : PPath := ⟨false, [("userdata")]⟩

/-- special://temp (special://home/temp in a standard install). -/
def TEMP : PPath := ⟨false, [("temp")]⟩

/-- special://thumbnails (special://userdata/Thumbnails). -/
def THUMBNAILS : PPath := ⟨false, [("userdata"), ("Thumbnails")]⟩

/-- special://home/addons/packages. -/
def PACKAGES : PPath := ⟨false, [("addons"), ("packages")]⟩

/-- special://home/media. -/
def MEDIA : PPath := ⟨false, [("media")]⟩

/-- The restore staging directory TEMP / restore_staging. -/
def STAGING : PPath := joinP TEMP ("restore_staging")

/-- The local downloaded archive TEMP / restore_temp.zip. -/
def LOCALZIP : PPath := joinP TEMP ("restore_temp.zip")

/-- Extraction target through the media branch of restore:
staging_dir / media / member[6:], taken when member starts with media/. -/
def mediaBranchTarget (member : String) : PPath :=
  joinP (joinP STAGING ("media")) (pyDrop member 6)

/-- Extraction target through the other branch: staging_dir / member. -/
def plainBranchTarget (member : String) : PPath := joinP STAGING member

/-- The extraction target restore computes for an archive member name. -/
def extractTarget (member : String) : PPath :=
  if pyStartsWith member ("media/") then mediaBranchTarget member
  else plainBranchTarget member

lemma mk_data (s : String) : String.mk s.data = s := by cases s; rfl

lemma splitSlashAux_media (z : List Char) :
    splitSlashAux ('m' :: 'e' :: 'd' :: 'i' :: 'a' :: '/' :: z) [] =
      ("media") :: splitSlashAux z [] := by
  simp [splitSlashAux]

lemma pyStartsWith_media (m : String) (h : pyStartsWith m ("media/") = true) :
    m.data = 'm' :: 'e' :: 'd' :: 'i' :: 'a' :: '/' :: (pyDrop m 6).data := by
  have hp : ("media/").data <+: m.data := (List.isPrefixOf_iff_prefix).1 h
  obtain ⟨t, ht⟩ := hp
  have hdrop : (pyDrop m 6).data = t := by
    have h6 : ("media/").data.length = 6 := by decide
    have := List.drop_left (("media/").data) t
    rw [h6] at this
    simp [pyDrop, ← ht, this]
  rw [hdrop, ← ht]
  rfl

/-- C10 counterexample input: a member name that starts with media/ but
whose remainder after the first six characters is an absolute path. -/
def c10member : String := ("media//x")

/-- C10 counterexample: for the member name media//x the media branch and
the plain branch of the restore extraction-target computation disagree, so
the two computations are not the same function of the member name. -/
theorem claim_C10_counterexample :
    pyStartsWith c10member ("media/") = true ∧
      mediaBranchTarget c10member ≠ plainBranchTarget c10member := by
  constructor
  · decide
  · decide

/-- C10 (amended): for every member name that starts with media/ and whose
remainder after the first six characters is not an absolute path (that is,
the name does not continue with a second slash right after the media/
prefix), the media branch target staging/media/member[6:] equals the plain
branch target staging/member; only such doubly-slashed names distinguish
the branches. -/
theorem claim_C10 (member : String)
    (h1 : pyStartsWith member ("media/") = true)
    (h2 : isAbs (pyDrop member 6) = false) :
    mediaBranchTarget member = plainBranchTarget member := by
  have hdata := pyStartsWith_media member h1
  have hsplit : splitSlash member = ("media") :: splitSlash (pyDrop member 6) := by
    unfold splitSlash
    rw [hdata]
    simp [splitSlashAux_media, pyDrop]
  have habs : isAbs member = false := by
    unfold isAbs
    rw [hdata]
    rfl
  unfold mediaBranchTarget plainBranchTarget
  unfold joinP parseP
  rw [hsplit, habs, h2]
  simp [STAGING, TEMP, joinP, parseP, splitSlash, splitSlashAux, isAbs]

/-- Witness for C10: the branches agree on the ordinary member media/x. -/
theorem claim_C10_witness :
    pyStartsWith ("media/x") ("media/") = true ∧
      isAbs (pyDrop ("media/x") 6) = false ∧
      mediaBranchTarget ("media/x") = plainBranchTarget ("media/x") :=
  ⟨by decide, by decide, claim_C10 ("media/x") (by decide) (by decide)⟩

/-- A file: its path, its byte content, and its modification time. -/
structure FileEntry where
  path : PPath
  content : List Nat
  mtime : Nat
deriving DecidableEq, Repr

/-- A filesystem is a flat list of files; directories are implicit. -/
abbrev FS := List FileEntry

/-- Boolean list-prefix test on path components. -/
def isPre : List String → List String → Bool
  | [], _ => true
  | _ :: _, [] => false
  | a :: as, b :: bs => a == b && isPre as bs

/-- p lies at or below root (same absoluteness, root components lead). -/
def pUnder (root p : PPath) : Bool := root.abs == p.abs && isPre root.parts p.parts

/-- The files of the tree rooted at root, in filesystem order. -/
def filesUnder (fs : FS) (root : PPath) : FS := fs.filter (fun e => pUnder root e.path)

/-- os.path.getsize of a file: the length of its content. -/
def fsize (e : FileEntry) : Nat := e.content.length

/-- get_folder_size: recursive sum of file sizes under a root. -/
def get_folder_size (fs : FS) (root : PPath) : Nat := ((filesUnder fs root).map fsize).sum

/-- The final component of a path (Path.name for a file). -/
def baseName (p : PPath) : String := (p.parts.getLast?).getD ("")

/-- Components of p below root. -/
def relParts (root p : PPath) : List String := p.parts.drop root.parts.length

/-- Which files survive safe_wipe_folder: everything outside the root
survives; a file below the root survives when its direct-child ancestor is
in the exclude list, or the file is locked (safe_delete_item swallows the
failure and skips it). -/
def wipeKeeps (locked : PPath → Bool) (root : PPath) (excl : List String)
    (e : FileEntry) : Bool :=
  if pUnder root e.path then
    match relParts root e.path with
    | [] => true
    | c :: _ => excl.contains c || locked e.path
  else true

/-- safe_wipe_folder: delete every direct child of root except excluded
names, one by one, skipping locked items. -/
def safe_wipe_folder (locked : PPath → Bool) (fs : FS) (root : PPath)
    (excl : List String) : FS :=
  fs.filter (wipeKeeps locked root excl)

/-- clear_folder: safe wipe with the kodi.log exclusion list. -/
def clear_folder (locked : PPath → Bool) (fs : FS) (root : PPath) : FS :=
  safe_wipe_folder locked fs root [("kodi.log")]

/-- The files trim_folder collects as deletion candidates: everything under
the root except files named kodi.log. -/
def trimCandidates (fs : FS) (root : PPath) : FS :=
  (filesUnder fs root).filter (fun e => !(baseName e.path == ("kodi.log")))

/-- Comparison used by file_list.sort: ascending modification time. -/
def mtimeLE (a b : FileEntry) : Prop := a.mtime ≤ b.mtime

instance : DecidableRel mtimeLE := fun a b => Nat.decLe a.mtime b.mtime

instance : IsTotal FileEntry mtimeLE := ⟨fun a b => Nat.le_total a.mtime b.mtime⟩

instance : IsTrans FileEntry mtimeLE := ⟨fun _ _ _ h1 h2 => Nat.le_trans h1 h2⟩

/-- The deletion loop of trim_folder: delete files in list order, keeping a
running size that drops by each deleted size, and stop as soon as the
running size reaches the budget.  A per-file unlink failure (a locked
file, from the oracle) is swallowed by the try/except around fp.unlink:
the file is skipped, the running size is not debited, no budget check
runs, and the loop continues with the next file.  Returns the files
actually deleted. -/
def trimDeleted (locked : PPath → Bool) (maxB : Nat) :
    Nat → List FileEntry → List FileEntry
  | _, [] => []
  | cur, f :: rest =>
    if locked f.path then trimDeleted locked maxB cur rest
    else f :: (if cur - fsize f ≤ maxB then []
      else trimDeleted locked maxB (cur - fsize f) rest)

/-- trim_folder: if the tree is within budget do nothing, otherwise sort
the candidate files by ascending modification time (stable, as list.sort)
and delete oldest-first until the running size is within budget, skipping
files whose deletion fails.  A file whose stat fails during candidate
collection is likewise never deleted and never debited, so the same
oracle at the deletion site covers that swallowed failure too.  The final
removal of now-empty directories is invisible in the file-level model. -/
def trim_folder (locked : PPath → Bool) (fs : FS) (root : PPath)
    (max_size_mb : Nat) : FS :=
  let maxB := max_size_mb * 1024 * 1024
  let cur := get_folder_size fs root
  if cur ≤ maxB then fs
  else
    let del := trimDeleted locked maxB cur
      (List.insertionSort mtimeLE (trimCandidates fs root))
    fs.filter (fun e => !(del.any (fun d => d.path == e.path)))

/-- clean: parse the auto_clean_size setting (50 on parse failure), clear
Temp and Packages, and trim Thumbnails when the limit is positive. -/
def clean (fs : FS) (setting : Option Int) (locked : PPath → Bool) : FS :=
  let auto_limit : Int := setting.getD 50
  let fs1 := clear_folder locked fs TEMP
  let fs2 := clear_folder locked fs1 PACKAGES
  if 0 < auto_limit then trim_folder locked fs2 THUMBNAILS auto_limit.toNat else fs2

/-- Paths are pairwise distinct: a well-formed directory tree. -/
def pathsNodup (fs : FS) : Prop := (fs.map FileEntry.path).Nodup

instance (fs : FS) : Decidable (pathsNodup fs) :=
  inferInstanceAs (Decidable ((fs.map FileEntry.path).Nodup))

/-- The sorted candidate list used by trim_folder. -/
def trimSorted (fs : FS) (root : PPath) : List FileEntry :=
  List.insertionSort mtimeLE (trimCandidates fs root)

/-- The files the trim_folder deletion loop removes. -/
def trimDel (locked : PPath → Bool) (fs : FS) (root : PPath) (M : Nat) :
    List FileEntry :=
  trimDeleted locked (M * 1024 * 1024) (get_folder_size fs root) (trimSorted fs root)

lemma sum_map_partition (g : FileEntry → Nat) (p : FileEntry → Bool)
    (l : List FileEntry) :
    ((l.filter p).map g).sum + ((l.filter (fun e => !(p e))).map g).sum =
      (l.map g).sum := by
  induction l with
  | nil => rfl
  | cons a t ih => cases h : p a <;> simp [List.filter_cons, h, ← ih] <;> omega

lemma trimDeleted_cons (locked : PPath → Bool) (maxB cur : Nat) (f : FileEntry)
    (rest : List FileEntry) :
    trimDeleted locked maxB cur (f :: rest) =
      if locked f.path then trimDeleted locked maxB cur rest
      else f :: (if cur - fsize f ≤ maxB then []
        else trimDeleted locked maxB (cur - fsize f) rest) := rfl

lemma trimDeleted_unlocked {locked : PPath → Bool} (hl : ∀ p, locked p = false)
    (maxB : Nat) : ∀ (l : List FileEntry) (cur : Nat),
      trimDeleted locked maxB cur l = trimDeleted (fun _ => false) maxB cur l := by
  intro l
  induction l with
  | nil => intro cur; rfl
  | cons f rest ih =>
    intro cur
    rw [trimDeleted_cons, trimDeleted_cons, hl f.path]
    simp only [Bool.false_eq_true, if_false, ih]

lemma trimDeleted_subl (locked : PPath → Bool) (maxB : Nat) :
    ∀ (l : List FileEntry) (cur : Nat),
      (trimDeleted locked maxB cur l).Sublist l := by
  intro l
  induction l with
  | nil => intro cur; exact List.nil_sublist _
  | cons f rest ih =>
    intro cur
    rw [trimDeleted_cons]
    by_cases hlf : locked f.path = true
    · rw [if_pos hlf]
      exact List.Sublist.cons f (ih cur)
    · rw [if_neg hlf]
      by_cases h : cur - fsize f ≤ maxB
      · rw [if_pos h]
        exact List.cons_sublist_cons.2 (List.nil_sublist rest)
      · rw [if_neg h]
        exact List.cons_sublist_cons.2 (ih (cur - fsize f))

lemma trimDeleted_leads (maxB : Nat) :
    ∀ (l : List FileEntry) (cur : Nat),
      trimDeleted (fun _ => false) maxB cur l <+: l := by
  intro l
  induction l with
  | nil => intro cur; exact List.prefix_refl _
  | cons f rest ih =>
    intro cur
    rw [trimDeleted_cons, if_neg (by simp)]
    by_cases h : cur - fsize f ≤ maxB
    · refine ⟨rest, ?_⟩
      rw [if_pos h]
      rfl
    · obtain ⟨t, ht⟩ := ih (cur - fsize f)
      refine ⟨t, ?_⟩
      rw [if_neg h, List.cons_append, ht]

lemma trimDeleted_spec (maxB : Nat) :
    ∀ (l : List FileEntry) (cur : Nat),
      cur - (((trimDeleted (fun _ => false) maxB cur l).map fsize).sum) ≤ maxB ∨
        trimDeleted (fun _ => false) maxB cur l = l := by
  intro l
  induction l with
  | nil => intro cur; right; rfl
  | cons f rest ih =>
    intro cur
    rw [trimDeleted_cons, if_neg (by simp)]
    by_cases h : cur - fsize f ≤ maxB
    · left
      rw [if_pos h]
      simpa using h
    · rcases ih (cur - fsize f) with h1 | h1
      · left
        rw [if_neg h]
        simp only [List.map_cons, List.sum_cons]
        omega
      · right
        rw [if_neg h, h1]

lemma trim_folder_else (locked : PPath → Bool) (fs : FS) (root : PPath) (M : Nat)
    (h : ¬ get_folder_size fs root ≤ M * 1024 * 1024) :
    trim_folder locked fs root M =
      fs.filter (fun e =>
        !((trimDel locked fs root M).any (fun d => d.path == e.path))) := by
  simp [trim_folder, trimDel, trimSorted, h]

lemma trim_untouched (locked : PPath → Bool) (fs : FS) (root : PPath) (M : Nat)
    (h : get_folder_size fs root ≤ M * 1024 * 1024) :
    trim_folder locked fs root M = fs := by
  simp [trim_folder, h]

lemma mem_trimSorted_iff (fs : FS) (root : PPath) (e : FileEntry) :
    e ∈ trimSorted fs root ↔ e ∈ trimCandidates fs root :=
  (List.perm_insertionSort mtimeLE _).mem_iff

lemma mem_cands_iff (fs : FS) (root : PPath) (e : FileEntry) :
    e ∈ trimCandidates fs root ↔
      e ∈ fs ∧ pUnder root e.path = true ∧ ¬ baseName e.path = ("kodi.log") := by
  simp only [trimCandidates, filesUnder, List.mem_filter, Bool.not_eq_true',
    beq_eq_false_iff_ne, ne_eq, and_assoc]

lemma mem_trimDel_cands (locked : PPath → Bool) (fs : FS) (root : PPath) (M : Nat)
    (e : FileEntry) (he : e ∈ trimDel locked fs root M) :
    e ∈ trimCandidates fs root := by
  have hp := trimDeleted_subl locked (M * 1024 * 1024) (trimSorted fs root)
    (get_folder_size fs root)
  exact (mem_trimSorted_iff fs root e).1 (List.Sublist.mem he hp)

lemma entries_nodup {fs : FS} (hnd : pathsNodup fs) : fs.Nodup :=
  List.Nodup.of_map _ hnd

lemma path_inj {fs : FS} (hnd : pathsNodup fs) {a b : FileEntry}
    (ha : a ∈ fs) (hb : b ∈ fs) (hp : a.path = b.path) : a = b :=
  List.inj_on_of_nodup_map hnd ha hb hp

lemma cands_sublist (fs : FS) (root : PPath) : (trimCandidates fs root).Sublist fs :=
  ((List.filter_sublist _).trans (List.filter_sublist _))

lemma trimDel_nodup (locked : PPath → Bool) {fs : FS} (root : PPath) (M : Nat)
    (hnd : pathsNodup fs) : (trimDel locked fs root M).Nodup := by
  have h1 : (trimCandidates fs root).Nodup :=
    List.Nodup.sublist (cands_sublist fs root) (entries_nodup hnd)
  have h2 : (trimSorted fs root).Nodup :=
    ((List.perm_insertionSort mtimeLE _).nodup_iff).2 h1
  exact List.Nodup.sublist (trimDeleted_subl _ _ _ _) h2

lemma mem_trimDel_marked {locked : PPath → Bool} {fs : FS} {root : PPath} {M : Nat}
    (hnd : pathsNodup fs) {x : FileEntry} (hx : x ∈ fs) :
    ((trimDel locked fs root M).any (fun d => d.path == x.path) = true) ↔
      x ∈ trimDel locked fs root M := by
  constructor
  · intro h
    obtain ⟨d, hd, hdp⟩ := List.any_eq_true.1 h
    have hdp2 : d.path = x.path := by simpa using hdp
    have hdfs : d ∈ fs :=
      ((mem_cands_iff fs root d).1 (mem_trimDel_cands locked fs root M d hd)).1
    have : d = x := path_inj hnd hdfs hx hdp2
    rwa [this] at hd
  · intro h
    exact List.any_eq_true.2 ⟨x, h, by simp⟩

lemma not_mem_trim_iff {locked : PPath → Bool} {fs : FS} {root : PPath} {M : Nat}
    (hnd : pathsNodup fs)
    (h : ¬ get_folder_size fs root ≤ M * 1024 * 1024) {e : FileEntry}
    (he : e ∈ fs) :
    e ∉ trim_folder locked fs root M ↔ e ∈ trimDel locked fs root M := by
  rw [trim_folder_else locked fs root M h]
  rw [List.mem_filter]
  constructor
  · intro hne
    by_contra hnd2
    apply hne
    refine ⟨he, ?_⟩
    simp only [Bool.not_eq_true']
    by_contra h3
    exact hnd2 ((mem_trimDel_marked hnd he).1 (by
      revert h3
      cases (trimDel locked fs root M).any (fun d => d.path == e.path) <;> simp))
  · intro hd hmem
    have := hmem.2
    rw [Bool.not_eq_true'] at this
    rw [(mem_trimDel_marked hnd he).2 hd] at this
    cases this

lemma filesUnder_filter_comm (fs : FS) (root : PPath) (q : FileEntry → Bool) :
    filesUnder (fs.filter q) root = (filesUnder fs root).filter q := by
  simp only [filesUnder, List.filter_filter]
  exact List.filter_congr (fun x _ => by rw [Bool.and_comm])

lemma trim_size_eq (locked : PPath → Bool) {fs : FS} {root : PPath} {M : Nat}
    (hnd : pathsNodup fs)
    (h : ¬ get_folder_size fs root ≤ M * 1024 * 1024) :
    get_folder_size (trim_folder locked fs root M) root +
        (((trimDel locked fs root M).map fsize)).sum = get_folder_size fs root := by
  rw [trim_folder_else locked fs root M h]
  unfold get_folder_size
  rw [filesUnder_filter_comm]
  have hpart := sum_map_partition fsize
    (fun e => !((trimDel locked fs root M).any (fun d => d.path == e.path)))
    (filesUnder fs root)
  have hperm : ((filesUnder fs root).filter
      (fun e =>
        !(!((trimDel locked fs root M).any (fun d => d.path == e.path))))).Perm
      (trimDel locked fs root M) := by
    apply (List.perm_ext_iff_of_nodup ?_ (trimDel_nodup locked root M hnd)).2
    · intro x
      rw [List.mem_filter]
      constructor
      · intro ⟨hx1, hx2⟩
        have hxfs : x ∈ fs := List.Sublist.mem hx1 (List.filter_sublist _)
        rw [Bool.not_not] at hx2
        exact (mem_trimDel_marked hnd hxfs).1 hx2
      · intro hx
        have hxc := mem_trimDel_cands locked fs root M x hx
        have hxc2 := (mem_cands_iff fs root x).1 hxc
        refine ⟨?_, ?_⟩
        · exact List.mem_filter.2 ⟨hxc2.1, hxc2.2.1⟩
        · rw [Bool.not_not]
          exact (mem_trimDel_marked hnd hxc2.1).2 hx
    · exact List.Nodup.sublist (List.filter_sublist _)
        (List.Nodup.sublist (List.filter_sublist _) (entries_nodup hnd))
  have hsum : (((filesUnder fs root).filter
      (fun e =>
        !(!((trimDel locked fs root M).any (fun d => d.path == e.path))))).map
        fsize).sum = ((trimDel locked fs root M).map fsize).sum :=
    (hperm.map fsize).sum_eq
  omega

lemma trim_sublist (locked : PPath → Bool) (fs : FS) (root : PPath) (M : Nat) :
    (trim_folder locked fs root M).Sublist fs := by
  by_cases h : get_folder_size fs root ≤ M * 1024 * 1024
  · rw [trim_untouched locked fs root M h]
  · rw [trim_folder_else locked fs root M h]
    exact List.filter_sublist _

lemma trim_keeps_outside (locked : PPath → Bool) (fs : FS) (root : PPath) (M : Nat)
    (e : FileEntry) (he : e ∈ fs) (hu : pUnder root e.path = false) :
    e ∈ trim_folder locked fs root M := by
  by_cases h : get_folder_size fs root ≤ M * 1024 * 1024
  · rw [trim_untouched locked fs root M h]
    exact he
  · rw [trim_folder_else locked fs root M h]
    refine List.mem_filter.2 ⟨he, ?_⟩
    simp only [Bool.not_eq_true']
    apply List.any_eq_false.2
    intro d hd
    have hdc := (mem_cands_iff fs root d).1 (mem_trimDel_cands locked fs root M d hd)
    by_contra h2
    have hdp : d.path = e.path := by
      have hb : (d.path == e.path) = true := by
        revert h2
        cases hx : (d.path == e.path) <;> simp
      exact eq_of_beq hb
    rw [hdp] at hdc
    rw [hdc.2.1] at hu
    cases hu

lemma trim_oldest {locked : PPath → Bool} (hl : ∀ p, locked p = false)
    {fs : FS} {root : PPath} {M : Nat}
    {e f : FileEntry} (he : e ∈ trimDel locked fs root M)
    (hf : f ∈ trimCandidates fs root) (hfn : f ∉ trimDel locked fs root M) :
    e.mtime ≤ f.mtime := by
  have hdd : trimDel locked fs root M =
      trimDeleted (fun _ => false) (M * 1024 * 1024) (get_folder_size fs root)
        (trimSorted fs root) := by
    unfold trimDel
    exact trimDeleted_unlocked hl _ _ _
  obtain ⟨suf, hsuf⟩ := trimDeleted_leads (M * 1024 * 1024) (trimSorted fs root)
    (get_folder_size fs root)
  rw [← hdd] at hsuf
  have hsorted : List.Sorted mtimeLE (trimSorted fs root) :=
    List.sorted_insertionSort mtimeLE _
  rw [← hsuf] at hsorted
  rw [List.Sorted, List.pairwise_append] at hsorted
  have hfmem : f ∈ trimDel locked fs root M ++ suf := by
    rw [hsuf]
    exact (mem_trimSorted_iff fs root f).2 hf
  rcases List.mem_append.1 hfmem with h1 | h1
  · exact absurd h1 hfn
  · exact hsorted.2.2 e he f h1

lemma trim_budget_or_exhausted {locked : PPath → Bool} (hl : ∀ p, locked p = false)
    {fs : FS} {root : PPath} {M : Nat}
    (hnd : pathsNodup fs) (h : ¬ get_folder_size fs root ≤ M * 1024 * 1024) :
    get_folder_size (trim_folder locked fs root M) root ≤ M * 1024 * 1024 ∨
      trimCandidates (trim_folder locked fs root M) root = [] := by
  have hdd : trimDel locked fs root M =
      trimDeleted (fun _ => false) (M * 1024 * 1024) (get_folder_size fs root)
        (trimSorted fs root) := by
    unfold trimDel
    exact trimDeleted_unlocked hl _ _ _
  rcases trimDeleted_spec (M * 1024 * 1024) (trimSorted fs root)
    (get_folder_size fs root) with hs | hs
  · left
    have heq := trim_size_eq locked hnd h
    rw [← hdd] at hs
    omega
  · right
    apply List.eq_nil_iff_forall_not_mem.2
    intro f hf
    have hf2 := (mem_cands_iff _ root f).1 hf
    have hffs : f ∈ fs := List.Sublist.mem hf2.1 (trim_sublist locked fs root M)
    have hfc : f ∈ trimCandidates fs root :=
      (mem_cands_iff fs root f).2 ⟨hffs, hf2.2.1, hf2.2.2⟩
    have hfdel : f ∈ trimDel locked fs root M := by
      rw [hdd, hs]
      exact (mem_trimSorted_iff fs root f).2 hfc
    exact ((not_mem_trim_iff hnd h hffs).2 hfdel) hf2.1

/-- C7 counterexample tree: a 2-byte kodi.log, an empty old file a, and a
3-byte file b, trimmed to budget 0. -/
def c7root : PPath := ⟨false, [("t")]⟩

/-- C7 counterexample filesystem. -/
def c7fs : FS :=
  [⟨⟨false, [("t"), ("kodi.log")]⟩, [0, 0], 10⟩,
   ⟨⟨false, [("t"), ("a")]⟩, [], 1⟩,
   ⟨⟨false, [("t"), ("b")]⟩, [0, 0, 0], 2⟩]

/-- C7 counterexample: even with no locked files the tree is over the
0 MiB budget, yet after trim_folder the tree is still over budget, because
the active log file is excluded from deletion but counted in the size; so
it is not true that the tree either was already within budget or ends
within budget.  The same run also deletes the empty file a without any
strict size decrease. -/
theorem claim_C7_counterexample :
    ¬ (get_folder_size c7fs c7root ≤ 0 * 1024 * 1024 ∨
        get_folder_size (trim_folder (fun _ => false) c7fs c7root 0) c7root ≤
          0 * 1024 * 1024) := by
  decide

/-- C7 (amended): for a tree with distinct file paths and no locked files
(each per-file deletion failure is swallowed by the try/except around
fp.unlink, skipping the file without debiting the tracked size, so the
guarantees below need every unlink to succeed), trim_folder leaves a tree
already within budget untouched; otherwise it deletes a subset of the
non-kodi.log files under the root such that the deleted files are the
globally oldest candidates (every deleted file is no younger than every
surviving candidate), the deleted files form an ascending-modification-time
sequence whose sizes are debited exactly from the total (so the total is
non-increasing per deletion, decreasing by each deleted size), and
afterwards either the tree is within budget or every candidate except the
active log file has been deleted. -/
theorem claim_C7 (locked : PPath → Bool) (hl : ∀ p, locked p = false)
    (fs : FS) (root : PPath) (M : Nat) (hnd : pathsNodup fs) :
    (get_folder_size fs root ≤ M * 1024 * 1024 →
        trim_folder locked fs root M = fs) ∧
    (trim_folder locked fs root M).Sublist fs ∧
    (∀ e ∈ fs, e ∉ trim_folder locked fs root M →
        pUnder root e.path = true ∧ ¬ baseName e.path = ("kodi.log")) ∧
    (∀ e ∈ fs, e ∉ trim_folder locked fs root M →
        ∀ f ∈ trimCandidates (trim_folder locked fs root M) root,
          e.mtime ≤ f.mtime) ∧
    (¬ get_folder_size fs root ≤ M * 1024 * 1024 →
        (get_folder_size (trim_folder locked fs root M) root ≤ M * 1024 * 1024 ∨
          trimCandidates (trim_folder locked fs root M) root = []) ∧
        ∃ dl : List FileEntry,
          List.Pairwise (fun a b => a.mtime ≤ b.mtime) dl ∧
          (∀ e, e ∈ dl ↔ e ∈ fs ∧ e ∉ trim_folder locked fs root M) ∧
          get_folder_size (trim_folder locked fs root M) root +
              (dl.map fsize).sum = get_folder_size fs root) := by
  refine ⟨trim_untouched locked fs root M, trim_sublist locked fs root M, ?_, ?_, ?_⟩
  · intro e he hne
    by_cases h : get_folder_size fs root ≤ M * 1024 * 1024
    · rw [trim_untouched locked fs root M h] at hne
      exact absurd he hne
    · have hdel := (not_mem_trim_iff hnd h he).1 hne
      have hc := (mem_cands_iff fs root e).1 (mem_trimDel_cands locked fs root M e hdel)
      exact ⟨hc.2.1, hc.2.2⟩
  · intro e he hne f hf
    by_cases h : get_folder_size fs root ≤ M * 1024 * 1024
    · rw [trim_untouched locked fs root M h] at hne
      exact absurd he hne
    · have hdel := (not_mem_trim_iff hnd h he).1 hne
      have hf2 := (mem_cands_iff _ root f).1 hf
      have hffs : f ∈ fs := List.Sublist.mem hf2.1 (trim_sublist locked fs root M)
      have hfc : f ∈ trimCandidates fs root :=
        (mem_cands_iff fs root f).2 ⟨hffs, hf2.2.1, hf2.2.2⟩
      have hfn : f ∉ trimDel locked fs root M := by
        intro hcon
        exact ((not_mem_trim_iff hnd h hffs).2 hcon) hf2.1
      exact trim_oldest hl hdel hfc hfn
  · intro h
    refine ⟨trim_budget_or_exhausted hl hnd h, trimDel locked fs root M, ?_, ?_,
      trim_size_eq locked hnd h⟩
    · have hdd : trimDel locked fs root M =
          trimDeleted (fun _ => false) (M * 1024 * 1024) (get_folder_size fs root)
            (trimSorted fs root) := by
        unfold trimDel
        exact trimDeleted_unlocked hl _ _ _
      obtain ⟨suf, hsuf⟩ := trimDeleted_leads (M * 1024 * 1024) (trimSorted fs root)
        (get_folder_size fs root)
      rw [← hdd] at hsuf
      have hsorted : List.Sorted mtimeLE (trimSorted fs root) :=
        List.sorted_insertionSort mtimeLE _
      rw [← hsuf] at hsorted
      rw [List.Sorted, List.pairwise_append] at hsorted
      exact hsorted.1
    · intro e
      constructor
      · intro he
        have hc := (mem_cands_iff fs root e).1 (mem_trimDel_cands locked fs root M e he)
        exact ⟨hc.1, (not_mem_trim_iff hnd h hc.1).2 he⟩
      · intro ⟨he, hne⟩
        exact (not_mem_trim_iff hnd h he).1 hne

/-- C7 witness filesystem: one small file, within a 1 MiB budget. -/
def c7wfs : FS := [⟨⟨false, [("t"), ("x")]⟩, [0], 5⟩]

/-- Witness for C7: applying the theorem with no locked files at a concrete
in-budget tree shows trim_folder leaves it untouched. -/
theorem claim_C7_witness : trim_folder (fun _ => false) c7wfs c7root 1 = c7wfs :=
  (claim_C7 (fun _ => false) (fun _ => rfl) c7wfs c7root 1 (by decide)).1 (by decide)

lemma pathsNodup_filter {fs : FS} (p : FileEntry → Bool) (hnd : pathsNodup fs) :
    pathsNodup (fs.filter p) :=
  List.Nodup.sublist (List.Sublist.map FileEntry.path (List.filter_sublist fs)) hnd

lemma pUnder_head {a : String} {t : List String} {p : PPath}
    (h : pUnder ⟨false, a :: t⟩ p = true) :
    p.abs = false ∧ ∃ rest, p.parts = a :: rest := by
  unfold pUnder at h
  rw [Bool.and_eq_true] at h
  obtain ⟨h1, h2⟩ := h
  refine ⟨by simpa using h1.symm, ?_⟩
  cases hp : p.parts with
  | nil => rw [hp] at h2; cases h2
  | cons c cs =>
    rw [hp] at h2
    rw [show isPre (a :: t) (c :: cs) = ((a == c) && isPre t cs) from rfl,
      Bool.and_eq_true] at h2
    exact ⟨cs, by rw [eq_of_beq h2.1]⟩

lemma pUnder_disjoint {a b : String} {t1 t2 : List String} (hne : a ≠ b)
    {p : PPath} (h : pUnder ⟨false, a :: t1⟩ p = true) :
    pUnder ⟨false, b :: t2⟩ p = false := by
  obtain ⟨habs, rest, hparts⟩ := pUnder_head h
  have hba : (b == a) = false := beq_eq_false_iff_ne.2 (Ne.symm hne)
  unfold pUnder
  rw [hparts]
  simp [isPre, hba]

lemma temp_not_packages {p : PPath} (h : pUnder TEMP p = true) :
    pUnder PACKAGES p = false :=
  pUnder_disjoint (by decide) h

lemma temp_not_thumbs {p : PPath} (h : pUnder TEMP p = true) :
    pUnder THUMBNAILS p = false :=
  pUnder_disjoint (by decide) h

/-- C9 counterexample filesystem: Temp contains a direct child kodi.log. -/
def c9fs : FS := [⟨⟨false, [("temp"), ("kodi.log")]⟩, [0], 0⟩]

/-- C9 counterexample: clean does not delete every direct child of Temp;
a direct child named kodi.log survives, because clear_folder wipes with
the exclusion list [kodi.log], not an empty exclusion set. -/
theorem claim_C9_counterexample :
    ¬ (filesUnder (clean c9fs (some 50) (fun _ => false)) TEMP = []) := by
  decide

/-- C9 (amended): with no locked files, clean deletes every direct child
of Temp and of Packages except children named kodi.log (the wipe runs with
exclusion list [kodi.log], not an empty set): every surviving file below
Temp or Packages sits under a direct child named kodi.log, and a Temp file
under a kodi.log child is kept; and when the configured budget is
positive, afterwards the Thumbnails tree is within the configured MiB
budget or has no remaining trim candidates. -/
theorem claim_C9 (fs : FS) (setting : Option Int) (locked : PPath → Bool)
    (hl : ∀ p, locked p = false) (hnd : pathsNodup fs) :
    (∀ e ∈ clean fs setting locked, pUnder TEMP e.path = true →
        relParts TEMP e.path ≠ [] →
        (relParts TEMP e.path).head? = some (("kodi.log"))) ∧
    (∀ e ∈ clean fs setting locked, pUnder PACKAGES e.path = true →
        relParts PACKAGES e.path ≠ [] →
        (relParts PACKAGES e.path).head? = some (("kodi.log"))) ∧
    (∀ e ∈ fs, pUnder TEMP e.path = true →
        (relParts TEMP e.path).head? = some (("kodi.log")) →
        e ∈ clean fs setting locked) ∧
    (0 < setting.getD 50 →
        get_folder_size (clean fs setting locked) THUMBNAILS ≤
            (setting.getD 50).toNat * 1024 * 1024 ∨
          trimCandidates (clean fs setting locked) THUMBNAILS = []) := by
  have hclean : clean fs setting locked =
      if 0 < setting.getD 50 then
        trim_folder locked
          (clear_folder locked (clear_folder locked fs TEMP) PACKAGES)
          THUMBNAILS (setting.getD 50).toNat
      else clear_folder locked (clear_folder locked fs TEMP) PACKAGES := by
    simp [clean]
  have hstep2 : ∀ e, e ∈ clean fs setting locked →
      e ∈ clear_folder locked (clear_folder locked fs TEMP) PACKAGES := by
    intro e he
    rw [hclean] at he
    by_cases h0 : 0 < setting.getD 50
    · rw [if_pos h0] at he
      exact List.Sublist.mem he (trim_sublist _ _ _ _)
    · rw [if_neg h0] at he
      exact he
  have hstep1 : ∀ e, e ∈ clear_folder locked (clear_folder locked fs TEMP) PACKAGES →
      e ∈ clear_folder locked fs TEMP := by
    intro e he
    exact List.Sublist.mem he (List.filter_sublist _)
  refine ⟨?_, ?_, ?_, ?_⟩
  · intro e he hU hrelne
    have h1 : e ∈ clear_folder locked fs TEMP := hstep1 e (hstep2 e he)
    have hk := (List.mem_filter.1 h1).2
    cases hrel : relParts TEMP e.path with
    | nil => exact absurd hrel hrelne
    | cons c cs =>
      simp only [wipeKeeps, hU, if_true, hrel, hl, Bool.or_false] at hk
      have hc : c = ("kodi.log") := by
        simpa [List.contains] using hk
      rw [hc]
      rfl
  · intro e he hU hrelne
    have h2 : e ∈ clear_folder locked (clear_folder locked fs TEMP) PACKAGES :=
      hstep2 e he
    have hk := (List.mem_filter.1 h2).2
    cases hrel : relParts PACKAGES e.path with
    | nil => exact absurd hrel hrelne
    | cons c cs =>
      simp only [wipeKeeps, hU, if_true, hrel, hl, Bool.or_false] at hk
      have hc : c = ("kodi.log") := by
        simpa [List.contains] using hk
      rw [hc]
      rfl
  · intro e he hU hhead
    obtain ⟨c, cs, hrel, hc⟩ : ∃ c cs, relParts TEMP e.path = c :: cs ∧ c = ("kodi.log") := by
      cases hrel : relParts TEMP e.path with
      | nil => rw [hrel] at hhead; cases hhead
      | cons c cs =>
        rw [hrel] at hhead
        exact ⟨c, cs, rfl, by simpa using hhead⟩
    have h1 : e ∈ clear_folder locked fs TEMP := by
      refine List.mem_filter.2 ⟨he, ?_⟩
      simp [wipeKeeps, hU, hrel, hc, List.contains]
    have h2 : e ∈ clear_folder locked (clear_folder locked fs TEMP) PACKAGES := by
      refine List.mem_filter.2 ⟨h1, ?_⟩
      simp [wipeKeeps, temp_not_packages hU]
    rw [hclean]
    by_cases h0 : 0 < setting.getD 50
    · rw [if_pos h0]
      exact trim_keeps_outside _ _ THUMBNAILS _ e h2 (temp_not_thumbs hU)
    · rw [if_neg h0]
      exact h2
  · intro h0
    rw [hclean, if_pos h0]
    have hnd2 : pathsNodup (clear_folder locked (clear_folder locked fs TEMP) PACKAGES) :=
      pathsNodup_filter _ (pathsNodup_filter _ hnd)
    by_cases hb : get_folder_size
        (clear_folder locked (clear_folder locked fs TEMP) PACKAGES) THUMBNAILS ≤
        (setting.getD 50).toNat * 1024 * 1024
    · left
      rw [trim_untouched _ _ _ _ hb]
      exact hb
    · exact trim_budget_or_exhausted hl hnd2 hb

/-- C9 witness filesystem: Temp holds a plain file and a kodi.log. -/
def c9wfs : FS :=
  [⟨⟨false, [("temp"), ("a.tmp")]⟩, [0], 0⟩,
   ⟨⟨false, [("temp"), ("kodi.log")]⟩, [0], 1⟩]

/-- Witness for C9: applying the amended claim at a concrete filesystem,
the kodi.log child of Temp is kept by clean. -/
theorem claim_C9_witness :
    (⟨⟨false, [("temp"), ("kodi.log")]⟩, [0], 1⟩ : FileEntry) ∈
      clean c9wfs (some 50) (fun _ => false) :=
  (claim_C9 c9wfs (some 50) (fun _ => false) (fun _ => rfl) (by decide)).2.2.1
    _ (by decide) (by decide) (by decide)

/-- Overwriting create of a file (open for writing). -/
def addFileFS (fs : FS) (p : PPath) (c : List Nat) : FS :=
  fs.filter (fun e => !(e.path == p)) ++ [⟨p, c, 0⟩]

/-- os.remove of a single path. -/
def removeFileFS (fs : FS) (p : PPath) : FS := fs.filter (fun e => !(e.path == p))

/-- shutil.rmtree: removes everything at or below p. -/
def removeTreeFS (fs : FS) (p : PPath) : FS := fs.filter (fun e => !(pUnder p e.path))

lemma filesUnder_filter_of_keep {fs : FS} {r : PPath} {q : FileEntry → Bool}
    (h : ∀ e ∈ fs, pUnder r e.path = true → q e = true) :
    filesUnder (fs.filter q) r = filesUnder fs r := by
  rw [filesUnder_filter_comm]
  apply List.filter_eq_self.2
  intro e he
  exact h e (List.Sublist.mem he (List.filter_sublist fs)) ((List.mem_filter.1 he).2)

lemma filesUnder_append (a b : FS) (r : PPath) :
    filesUnder (a ++ b) r = filesUnder a r ++ filesUnder b r :=
  List.filter_append a b

lemma pUnder_cons_ne {a b : String} (h : (a == b) = false) (t rest : List String) :
    pUnder ⟨false, a :: t⟩ ⟨false, b :: rest⟩ = false := by
  simp [pUnder, isPre, h]

lemma roots_not_tempjoin (z : String) :
    pUnder ADDONS (joinP TEMP z) = false ∧ pUnder USERDATA (joinP TEMP z) = false ∧
      pUnder MEDIA (joinP TEMP z) = false := by
  unfold joinP
  by_cases h : (parseP z).abs
  · simp only [h, if_true]
    refine ⟨?_, ?_, ?_⟩ <;>
      simp [pUnder, ADDONS, USERDATA, MEDIA, show (parseP z).abs = true from h]
  · simp only [h, if_false, Bool.false_eq_true]
    have ha : ((("addons") : String) == ("temp")) = false := rfl
    have hu : ((("userdata") : String) == ("temp")) = false := rfl
    have hm : ((("media") : String) == ("temp")) = false := rfl
    refine ⟨?_, ?_, ?_⟩
    · exact pUnder_cons_ne ha [] _
    · exact pUnder_cons_ne hu [] _
    · exact pUnder_cons_ne hm [] _

lemma filesUnder_addFile_tempjoin (fs : FS) (z : String) (c : List Nat) (r : PPath)
    (hr : pUnder r (joinP TEMP z) = false) :
    filesUnder (addFileFS fs (joinP TEMP z) c) r = filesUnder fs r := by
  unfold addFileFS
  rw [filesUnder_append]
  have h2 : filesUnder [(⟨joinP TEMP z, c, 0⟩ : FileEntry)] r = [] := by
    simp [filesUnder, hr]
  rw [h2, List.append_nil]
  apply filesUnder_filter_of_keep
  intro e _ hu
  simp only [Bool.not_eq_true']
  by_contra hcon
  have : (e.path == joinP TEMP z) = true := by
    revert hcon
    cases hx : (e.path == joinP TEMP z) <;> simp
  rw [eq_of_beq this] at hu
  rw [hu] at hr
  cases hr

lemma filesUnder_removeFile_tempjoin (fs : FS) (z : String) (r : PPath)
    (hr : pUnder r (joinP TEMP z) = false) :
    filesUnder (removeFileFS fs (joinP TEMP z)) r = filesUnder fs r := by
  apply filesUnder_filter_of_keep
  intro e _ hu
  simp only [Bool.not_eq_true']
  by_contra hcon
  have : (e.path == joinP TEMP z) = true := by
    revert hcon
    cases hx : (e.path == joinP TEMP z) <;> simp
  rw [eq_of_beq this] at hu
  rw [hu] at hr
  cases hr

/-- An archive entry: member name and stored bytes.  Directory markers are
entries whose name ends with a slash and whose data is empty. -/
structure ZipEntry where
  name : String
  data : List Nat
deriving DecidableEq, Repr

/-- get_zip_arcname: the path relative to HOME joined with forward
slashes; a path not under HOME (an absolute path in the model) raises
ValueError in relative_to and falls back to the bare file name. -/
def get_zip_arcname (p : PPath) : String :=
  if p.abs then baseName p else joinWith ("/") p.parts

/-- The directory prunings of the counting walk of backup
(_count_backup_files): Thumbnails under the userdata walk, packages and
temp under the addons walk, .git and __pycache__ in every walk; os.walk
applies dirs.remove at every level of the walk. -/
def countWalkPruned (folder : PPath) (d : String) : Bool :=
  (folder == USERDATA && d == ("Thumbnails")) ||
    (folder == ADDONS && d == ("packages")) ||
    (folder == ADDONS && d == ("temp")) ||
    d == (".git") || d == ("__pycache__")

/-- The texture-cache database test: the lowercased name starts with
textures and ends with .db. -/
def isTexturesDb (f : String) : Bool :=
  pyStartsWith f.toLower ("textures") && pyEndsWith f.toLower (".db")

/-- Whether the counting walk visits a file: strictly below the walked
folder, no pruned directory on the way, and with exclude_db no
texture-cache database name. -/
def countEligible (folder : PPath) (exclude_db : Bool) (e : FileEntry) : Bool :=
  pUnder folder e.path &&
    (match (relParts folder e.path).getLast? with
     | none => false
     | some f =>
       ((relParts folder e.path).dropLast.all (fun d => !(countWalkPruned folder d))) &&
         !(exclude_db && isTexturesDb f))

/-- _count_backup_files: how many files the counting walk visits. -/
def _count_backup_files (fs : FS) (folder : PPath) (exclude_db : Bool) : Nat :=
  (fs.filter (countEligible folder exclude_db)).length

/-- The directory prunings of the writing walk (add_folder_to_zip); the
source duplicates the pruning lines of the counting walk verbatim. -/
def writeWalkPruned (folder : PPath) (d : String) : Bool :=
  (folder == USERDATA && d == ("Thumbnails")) ||
    (folder == ADDONS && d == ("packages")) ||
    (folder == ADDONS && d == ("temp")) ||
    d == (".git") || d == ("__pycache__")

/-- Whether the writing walk stores a file (same conditions as counting,
duplicated as in the source). -/
def writeEligible (folder : PPath) (exclude_db : Bool) (e : FileEntry) : Bool :=
  pUnder folder e.path &&
    (match (relParts folder e.path).getLast? with
     | none => false
     | some f =>
       ((relParts folder e.path).dropLast.all (fun d => !(writeWalkPruned folder d))) &&
         !(exclude_db && isTexturesDb f))

/-- add_folder_to_zip: the entries the writing walk stores, named relative
to HOME with forward slashes. -/
def add_folder_to_zip (fs : FS) (folder : PPath) (exclude_db : Bool) : List ZipEntry :=
  (fs.filter (writeEligible folder exclude_db)).map
    (fun e => ⟨get_zip_arcname e.path, e.content⟩)

/-- The file entries backup writes, in walk order, without the markers of
the zip (addons walk, then userdata walk with the database exclusion, then
media walk). -/
def backupFileEntries (fs : FS) : List ZipEntry :=
  add_folder_to_zip fs ADDONS false ++ add_folder_to_zip fs USERDATA true ++
    add_folder_to_zip fs MEDIA false

/-- The full archive backup produces: addons entries, userdata entries,
the two synthetic directory markers, then media entries. -/
def backupArchive (fs : FS) : List ZipEntry :=
  add_folder_to_zip fs ADDONS false ++
    add_folder_to_zip fs USERDATA true ++
    [⟨("userdata/Thumbnails/"), []⟩, ⟨("media/"), []⟩] ++
    add_folder_to_zip fs MEDIA false

/-- The sum of the three counting-walk calls of backup. -/
def backupCountTotal (fs : FS) : Nat :=
  _count_backup_files fs ADDONS false + _count_backup_files fs USERDATA true +
    _count_backup_files fs MEDIA false

lemma countEligible_eq_writeEligible (folder : PPath) (exclude_db : Bool)
    (e : FileEntry) :
    countEligible folder exclude_db e = writeEligible folder exclude_db e := rfl

/-- C8 counterexample: on the empty source tree the counting pre-pass
yields zero, yet the archive receives two written entries (the two
directory markers), so the count does not equal the number of entries
written into the archive. -/
theorem claim_C8_counterexample :
    ¬ (backupCountTotal [] = (backupArchive []).length) := by
  decide

/-- C8 (amended): for every source tree (no file vanishes in the model),
the total computed by the counting pre-pass equals the number of file
entries written by the three archive walks; the archive itself holds
exactly two further written entries, the two synthetic directory markers,
so its total entry count is the pre-pass count plus two. -/
theorem claim_C8 (fs : FS) :
    backupCountTotal fs = (backupFileEntries fs).length ∧
      (backupArchive fs).length = backupCountTotal fs + 2 := by
  have h1 : ∀ (folder : PPath) (exdb : Bool),
      _count_backup_files fs folder exdb = (add_folder_to_zip fs folder exdb).length := by
    intro folder exdb
    unfold _count_backup_files add_folder_to_zip
    rw [List.length_map]
    exact congrArg List.length
      (List.filter_congr (fun e _ => countEligible_eq_writeEligible folder exdb e))
  constructor
  · unfold backupCountTotal backupFileEntries
    simp [h1]
    omega
  · unfold backupArchive backupCountTotal
    simp [h1]
    omega

/-- Events of a backup run visible at the boundary. -/
inductive BEvent where
  | wroteEntry (name : String)
  | wroteMarker (name : String)
  | transferred (ok : Bool)
  | removedTempZip
  | notifyCancelled
deriving DecidableEq, Repr

/-- Outcome of a backup run: final filesystem, event trace, and whether
the run ended through the cancellation path. -/
structure BackupOut where
  fs : FS
  trace : List BEvent
  cancelled : Bool
deriving Repr

/-- The write events of an uncancelled backup run, in source order. -/
def backupWriteEvents (fs : FS) : List BEvent :=
  (add_folder_to_zip fs ADDONS false).map (fun z => BEvent.wroteEntry z.name) ++
    (add_folder_to_zip fs USERDATA true).map (fun z => BEvent.wroteEntry z.name) ++
    [BEvent.wroteMarker ("userdata/Thumbnails/"), BEvent.wroteMarker ("media/")] ++
    (add_folder_to_zip fs MEDIA false).map (fun z => BEvent.wroteEntry z.name)

/-- The write events of a run cancelled at the poll after file k; the two
markers carry no poll and appear once the userdata walk has finished. -/
def backupEventsUpTo (fs : FS) (k : Nat) : List BEvent :=
  let e1 := add_folder_to_zip fs ADDONS false
  let e2 := add_folder_to_zip fs USERDATA true
  let e3 := add_folder_to_zip fs MEDIA false
  if k < e1.length + e2.length then
    ((e1 ++ e2).take (k + 1)).map (fun z => BEvent.wroteEntry z.name)
  else
    (e1 ++ e2).map (fun z => BEvent.wroteEntry z.name) ++
      [BEvent.wroteMarker ("userdata/Thumbnails/"), BEvent.wroteMarker ("media/")] ++
      (e3.take (k + 1 - (e1.length + e2.length))).map (fun z => BEvent.wroteEntry z.name)

/-- One run of backup: the zip grows at TEMP/zip_name with a cancellation
poll after each written file; on cancellation the partial staging zip is
removed and the user notified; otherwise the archive is transferred
(vfs_copy_file outcome from the oracle) and the staging zip removed. -/
def backup (fs : FS) (zip_name : String) (cancel : Nat → Bool)
    (transferOk : Bool) : BackupOut :=
  let tempZip := joinP TEMP zip_name
  match (List.range (backupFileEntries fs).length).find? (fun k => cancel k) with
  | some k =>
    ⟨removeFileFS (addFileFS fs tempZip []) tempZip,
      backupEventsUpTo fs k ++ [BEvent.removedTempZip, BEvent.notifyCancelled], true⟩
  | none =>
    ⟨removeFileFS (addFileFS fs tempZip []) tempZip,
      backupWriteEvents fs ++ [BEvent.transferred transferOk, BEvent.removedTempZip],
      false⟩

lemma backup_fs_frame (fs : FS) (zip_name : String) (cancel : Nat → Bool)
    (transferOk : Bool) (r : PPath) (hr : pUnder r (joinP TEMP zip_name) = false) :
    filesUnder (backup fs zip_name cancel transferOk).fs r = filesUnder fs r := by
  unfold backup
  cases (List.range (backupFileEntries fs).length).find? (fun k => cancel k) <;>
    · simp only []
      rw [show removeFileFS (addFileFS fs (joinP TEMP zip_name) []) (joinP TEMP zip_name) =
        removeFileFS (addFileFS fs (joinP TEMP zip_name) []) (joinP TEMP zip_name) from rfl]
      rw [filesUnder_removeFile_tempjoin _ _ _ hr, filesUnder_addFile_tempjoin _ _ _ _ hr]

/-- C6: backup never modifies the three source trees in any execution, and
if cancellation is signalled at one of the per-file polls the run ends
cancelled, the partial staging zip is removed, the user is notified, and
no transfer to the destination happens. -/
theorem claim_C6 (fs : FS) (zip_name : String) (cancel : Nat → Bool)
    (transferOk : Bool) :
    filesUnder (backup fs zip_name cancel transferOk).fs ADDONS = filesUnder fs ADDONS ∧
    filesUnder (backup fs zip_name cancel transferOk).fs USERDATA = filesUnder fs USERDATA ∧
    filesUnder (backup fs zip_name cancel transferOk).fs MEDIA = filesUnder fs MEDIA ∧
    ((∃ k, k < (backupFileEntries fs).length ∧ cancel k = true) →
      (backup fs zip_name cancel transferOk).cancelled = true ∧
      (∀ ok, BEvent.transferred ok ∉ (backup fs zip_name cancel transferOk).trace) ∧
      (∀ e ∈ (backup fs zip_name cancel transferOk).fs, e.path ≠ joinP TEMP zip_name) ∧
      BEvent.notifyCancelled ∈ (backup fs zip_name cancel transferOk).trace) := by
  obtain ⟨ha, hu, hm⟩ := roots_not_tempjoin zip_name
  refine ⟨backup_fs_frame fs zip_name cancel transferOk ADDONS ha,
    backup_fs_frame fs zip_name cancel transferOk USERDATA hu,
    backup_fs_frame fs zip_name cancel transferOk MEDIA hm, ?_⟩
  intro ⟨k, hk, hck⟩
  have hfind : ((List.range (backupFileEntries fs).length).find? (fun j => cancel j)).isSome := by
    rw [List.find?_isSome]
    exact ⟨k, List.mem_range.2 hk, hck⟩
  obtain ⟨j, hj⟩ := Option.isSome_iff_exists.1 hfind
  unfold backup
  rw [hj]
  refine ⟨rfl, ?_, ?_, ?_⟩
  · intro ok hmem
    simp only [List.mem_append] at hmem
    rcases hmem with h1 | h1
    · unfold backupEventsUpTo at h1
      by_cases hc : j < (add_folder_to_zip fs ADDONS false).length +
          (add_folder_to_zip fs USERDATA true).length
      · simp only [hc, if_true] at h1
        obtain ⟨z, _, hz⟩ := List.mem_map.1 h1
        cases hz
      · simp only [hc, if_false] at h1
        simp only [List.mem_append] at h1
        rcases h1 with (h2 | h2) | h2
        · obtain ⟨z, _, hz⟩ := List.mem_map.1 h2
          cases hz
        · rcases List.mem_cons.1 h2 with h3 | h3
          · cases h3
          · rcases List.mem_cons.1 h3 with h4 | h4
            · cases h4
            · cases h4
        · obtain ⟨z, _, hz⟩ := List.mem_map.1 h2
          cases hz
    · rcases List.mem_cons.1 h1 with h2 | h2
      · cases h2
      · rcases List.mem_cons.1 h2 with h3 | h3
        · cases h3
        · cases h3
  · intro e he
    simp only [removeFileFS, List.mem_filter, Bool.not_eq_true'] at he
    intro hcon
    rw [← hcon] at he
    simp at he
  · simp

/-- Witness for C6: a concrete one-file backup cancelled at the first
poll ends cancelled. -/
def c6fs : FS := [⟨⟨false, [("addons"), ("x.py")]⟩, [1], 0⟩]

/-- Witness for C6: applying the claim at a concrete cancelled run. -/
theorem claim_C6_witness :
    (backup c6fs ("b.zip") (fun _ => true) true).cancelled = true ∧
      filesUnder (backup c6fs ("b.zip") (fun _ => true) true).fs ADDONS =
        filesUnder c6fs ADDONS :=
  ⟨((claim_C6 c6fs ("b.zip") (fun _ => true) true).2.2.2 ⟨0, by decide, rfl⟩).1,
    (claim_C6 c6fs ("b.zip") (fun _ => true) true).1⟩

/-- Events of a restore run visible at the boundary. -/
inductive REvent where
  | downloaded
  | integrityOk
  | reportDownloadFailed
  | reportCorrupt (entry : String)
  | extracted (member : String)
  | reportCancelled
  | wiped (root : PPath)
  | moved (src dst : PPath)
  | moveFailed (msg : String)
  | removedStaging
  | removedZip
  | reportPartial (summary : String)
  | reportComplete
deriving DecidableEq, Repr

/-- Inputs of one restore run: the parsed entries of the selected archive
and the environment oracles: download success, the testzip result, the
cancellation poll per extraction step, per-entry extraction success,
locked files during the wipes, and per-source move failures with their
exception text. -/
structure RestoreIn where
  arch : List ZipEntry
  downloadOk : Bool
  badFile : Option String
  cancel : Nat → Bool
  extractOk : Nat → Bool
  locked : PPath → Bool
  moveFail : PPath → Option String

/-- Result of the extraction loop: cancelled mid-way or completed. -/
inductive ExtractRes where
  | cancelled (fs : FS) (tr : List REvent)
  | done (fs : FS) (tr : List REvent)

/-- Filesystem of an extraction result. -/
def exFS : ExtractRes → FS
  | .cancelled f _ => f
  | .done f _ => f

/-- Trace of an extraction result. -/
def exTrace : ExtractRes → List REvent
  | .cancelled _ t => t
  | .done _ t => t

/-- The extraction loop of restore: before each entry the cancellation
flag is polled; a directory-marker entry only creates directories (no file
in the flat model), a file entry is streamed to its staging target, with
per-entry failures swallowed; the progress update after each processed
entry is the extracted event. -/
def extractLoop (cancel extractOk : Nat → Bool) :
    Nat → List ZipEntry → FS → ExtractRes
  | _, [], fs => .done fs []
  | idx, z :: rest, fs =>
    if cancel idx then .cancelled fs [] else
    let fs2 :=
      if pyEndsWith z.name ("/") then fs
      else if extractOk idx then addFileFS fs (extractTarget z.name) z.data else fs
    match extractLoop cancel extractOk (idx + 1) rest fs2 with
    | .cancelled f t => .cancelled f (REvent.extracted z.name :: t)
    | .done f t => .done f (REvent.extracted z.name :: t)

/-- First-occurrence deduplication, keeping order. -/
def dedup : List String → List String
  | [] => []
  | x :: xs => x :: dedup (xs.filter (fun y => !(y == x)))
termination_by l => l.length
decreasing_by
  simp only [List.length_cons]
  exact Nat.lt_succ_of_le (List.length_filter_le _ _)

/-- The names of the direct children of root holding files, in order of
first appearance: the iterdir snapshot of the flat model. -/
def childNames (fs : FS) (root : PPath) : List String :=
  dedup (fs.filterMap (fun e =>
    if pUnder root e.path then (relParts root e.path).head? else none))

/-- Whether the entry at p is a directory: some file lies strictly below. -/
def isDirIn (fs : FS) (p : PPath) : Bool :=
  fs.any (fun e => pUnder p e.path && decide (p.parts.length < e.path.parts.length))

/-- shutil.move of a file or of a whole subtree: every file at or below
src is rebased onto dst. -/
def moveTreeFS (fs : FS) (src dst : PPath) : FS :=
  fs.map (fun e =>
    if pUnder src e.path then
      ⟨⟨dst.abs, dst.parts ++ e.path.parts.drop src.parts.length⟩, e.content, e.mtime⟩
    else e)

/-- _safe_move: remove any existing destination first (rmtree or unlink,
to avoid the move-into behaviour), then move src onto dst; any failure
(the oracle) is caught, logged, and recorded as src.name: cause. -/
def _safe_move (mf : PPath → Option String) (fs : FS) (src dst : PPath) :
    FS × REvent × Option String :=
  match mf src with
  | some cause =>
    (fs, REvent.moveFailed (baseName src ++ (": ") ++ cause),
      some (baseName src ++ (": ") ++ cause))
  | none => (moveTreeFS (removeTreeFS fs dst) src dst, REvent.moved src dst, none)

/-- The staging_map of restore. -/
def stagingMapLookup (c : String) : Option PPath :=
  if c == ("addons") then some ADDONS
  else if c == ("userdata") then some USERDATA
  else if c == ("media") then some MEDIA
  else none

/-- Accumulated outcome of the move phase: final filesystem, trace,
recorded move errors, and the attempted (source, destination) pairs. -/
structure MoveOut where
  fs : FS
  trace : List REvent
  errors : List String
  attempts : List (PPath × PPath)
deriving Repr

/-- Sequential _safe_move over a list of (source, destination) pairs. -/
def movePairs (mf : PPath → Option String) : FS → List (PPath × PPath) → MoveOut
  | fs, [] => ⟨fs, [], [], []⟩
  | fs, (s, d) :: rest =>
    let m := _safe_move mf fs s d
    let r := movePairs mf m.1 rest
    ⟨r.fs, m.2.1 :: r.trace,
      (match m.2.2 with | some msg => msg :: r.errors | none => r.errors),
      (s, d) :: r.attempts⟩

/-- The move-into-place phase over the snapshot of staging children: a
known top-level name moves its children into the mapped root (directory
case, after mkdir) or itself onto the root path (file case); an unknown
name is moved directly under HOME. -/
def movePhaseGo (mf : PPath → Option String) :
    List String → FS → MoveOut
  | [], fs => ⟨fs, [], [], []⟩
  | c :: cs, fs =>
    let src := pChild STAGING c
    let step : MoveOut :=
      match stagingMapLookup c with
      | none =>
        let m := _safe_move mf fs src (pChild HOME c)
        ⟨m.1, [m.2.1], (match m.2.2 with | some msg => [msg] | none => []),
          [(src, pChild HOME c)]⟩
      | some root =>
        if isDirIn fs src then
          movePairs mf fs ((childNames fs src).map (fun s => (pChild src s, pChild root s)))
        else
          let m := _safe_move mf fs src (pChild root c)
          ⟨m.1, [m.2.1], (match m.2.2 with | some msg => [msg] | none => []),
            [(src, pChild root c)]⟩
    let r := movePhaseGo mf cs step.fs
    ⟨r.fs, step.trace ++ r.trace, step.errors ++ r.errors, step.attempts ++ r.attempts⟩

/-- The partial-failure summary: the first eight recorded errors joined by
newlines, plus an overflow count when more were recorded. -/
def error_summary (errs : List String) : String :=
  let base := joinWith ("\n") (errs.take 8)
  if 8 < errs.length then
    base ++ ("\n...and ") ++ toString (errs.length - 8) ++ (" more (see kodi.log)")
  else base

/-- Outcome of a restore run. -/
structure RestoreOut where
  fs : FS
  trace : List REvent
  moveErrors : List String
  attempts : List (PPath × PPath)
deriving Repr

/-- One run of restore: download the archive to TEMP/restore_temp.zip
(a failed download leaves the partial local file and aborts), reset the
staging directory, integrity-check the archive (a named bad entry aborts
after deleting staging and the local zip), extract every entry into
staging with a per-entry cancellation poll (cancellation deletes staging
and the local zip and aborts), and only then wipe the three live trees,
move the staged children into place collecting per-move errors, delete
staging and the local zip, and report. -/
def restore (fs0 : FS) (inp : RestoreIn) : RestoreOut :=
  if !inp.downloadOk then
    ⟨addFileFS fs0 LOCALZIP [], [REvent.reportDownloadFailed], [], []⟩
  else
    let fs1 := addFileFS fs0 LOCALZIP []
    let fs2 := removeTreeFS fs1 STAGING
    match inp.badFile with
    | some b =>
      ⟨removeFileFS (removeTreeFS fs2 STAGING) LOCALZIP,
        [REvent.downloaded, REvent.reportCorrupt b], [], []⟩
    | none =>
      match extractLoop inp.cancel inp.extractOk 0 inp.arch fs2 with
      | .cancelled f tr =>
        ⟨removeFileFS (removeTreeFS f STAGING) LOCALZIP,
          REvent.downloaded :: REvent.integrityOk :: tr ++ [REvent.reportCancelled],
          [], []⟩
      | .done f tr =>
        let f1 := safe_wipe_folder inp.locked f ADDONS []
        let f2 := safe_wipe_folder inp.locked f1 USERDATA []
        let f3 := safe_wipe_folder inp.locked f2 MEDIA []
        let mo := movePhaseGo inp.moveFail (childNames f3 STAGING) f3
        let f5 := removeFileFS (removeTreeFS mo.fs STAGING) LOCALZIP
        let rep := if mo.errors.isEmpty then REvent.reportComplete
          else REvent.reportPartial (error_summary mo.errors)
        ⟨f5,
          REvent.downloaded :: REvent.integrityOk :: tr ++
            [REvent.wiped ADDONS, REvent.wiped USERDATA, REvent.wiped MEDIA] ++
            mo.trace ++ [REvent.removedStaging, REvent.removedZip, rep],
          mo.errors, mo.attempts⟩

/-- Whether an event is an extraction progress event. -/
def isExtractEv : REvent → Bool
  | .extracted _ => true
  | _ => false

/-- Whether an event mutates the live trees (a wipe or a move). -/
def isMutEv : REvent → Bool
  | .wiped _ => true
  | .moved _ _ => true
  | _ => false

/-- Whether an event reports an aborted restore. -/
def isAbortEv : REvent → Bool
  | .reportDownloadFailed => true
  | .reportCancelled => true
  | .reportCorrupt _ => true
  | _ => false

/-- No extraction event occurs in the trace. -/
def noExtractAfter (tr : List REvent) : Bool := tr.all (fun e => !(isExtractEv e))

/-- Every live-tree mutation event occurs after the last extraction
event: scanning left to right, once a mutation is seen no extraction
event may follow. -/
def extractBeforeMut : List REvent → Bool
  | [] => true
  | e :: rest =>
    if isMutEv e then noExtractAfter rest && extractBeforeMut rest
    else extractBeforeMut rest

/-- The member name of an extraction event. -/
def evName : REvent → Option String
  | REvent.extracted n => some n
  | _ => none

/-- The member names of the extraction events of a trace, in order. -/
def extractedNames (tr : List REvent) : List String := tr.filterMap evName

/-- The trace reports an aborted run. -/
def abortedRun (tr : List REvent) : Bool := tr.any isAbortEv

lemma staging_eq : STAGING = ⟨false, [("temp"), ("restore_staging")]⟩ := by decide

lemma localzip_eq : LOCALZIP = ⟨false, [("temp"), ("restore_temp.zip")]⟩ := by decide

lemma joinP_cases (base : PPath) (s : String) :
    ((parseP s).abs = true ∧ joinP base s = parseP s) ∨
      ((parseP s).abs = false ∧
        joinP base s = ⟨base.abs, base.parts ++ (parseP s).parts⟩) := by
  unfold joinP
  by_cases h : (parseP s).abs = true
  · left; exact ⟨h, by simp [h]⟩
  · right
    have h2 : (parseP s).abs = false := by revert h; cases (parseP s).abs <;> simp
    exact ⟨h2, by simp [h2]⟩

lemma extractTarget_shape (m : String) :
    (extractTarget m).abs = true ∨
      ∃ rest, extractTarget m = ⟨false, ("temp") :: rest⟩ := by
  have hsm : joinP STAGING ("media") =
      ⟨false, [("temp"), ("restore_staging"), ("media")]⟩ := by decide
  unfold extractTarget mediaBranchTarget plainBranchTarget
  by_cases h1 : pyStartsWith m ("media/") = true
  · simp only [h1, if_true]
    rw [hsm]
    rcases joinP_cases ⟨false, [("temp"), ("restore_staging"), ("media")]⟩
        (pyDrop m 6) with ⟨ha, h⟩ | ⟨_, h⟩
    · left; rw [h]; exact ha
    · right
      exact ⟨[("restore_staging"), ("media")] ++ (parseP (pyDrop m 6)).parts,
        by rw [h]; rfl⟩
  · have h1f : pyStartsWith m ("media/") = false := by
      revert h1; cases pyStartsWith m ("media/") <;> simp
    simp only [h1f, Bool.false_eq_true, if_false]
    rw [staging_eq]
    rcases joinP_cases ⟨false, [("temp"), ("restore_staging")]⟩ m with ⟨ha, h⟩ | ⟨_, h⟩
    · left; rw [h]; exact ha
    · right
      exact ⟨[("restore_staging")] ++ (parseP m).parts, by rw [h]; rfl⟩

lemma target_not_under (a : String) (t : List String)
    (ha : (a == ("temp")) = false) (m : String) :
    pUnder ⟨false, a :: t⟩ (extractTarget m) = false := by
  rcases extractTarget_shape m with h | ⟨rest, h⟩
  · simp [pUnder, h]
  · rw [h]; exact pUnder_cons_ne ha t rest

lemma addons_target (m : String) : pUnder ADDONS (extractTarget m) = false :=
  target_not_under ("addons") [] rfl m

lemma userdata_target (m : String) : pUnder USERDATA (extractTarget m) = false :=
  target_not_under ("userdata") [] rfl m

lemma media_target (m : String) : pUnder MEDIA (extractTarget m) = false :=
  target_not_under ("media") [] rfl m

lemma filesUnder_addFile_not_under (fs : FS) (p : PPath) (c : List Nat) (r : PPath)
    (hr : pUnder r p = false) :
    filesUnder (addFileFS fs p c) r = filesUnder fs r := by
  unfold addFileFS
  rw [filesUnder_append]
  have h2 : filesUnder [(⟨p, c, 0⟩ : FileEntry)] r = [] := by
    simp [filesUnder, hr]
  rw [h2, List.append_nil]
  apply filesUnder_filter_of_keep
  intro e _ hu
  simp only [Bool.not_eq_true']
  by_contra hcon
  have : (e.path == p) = true := by
    revert hcon
    cases hx : (e.path == p) <;> simp
  rw [eq_of_beq this] at hu
  rw [hu] at hr
  cases hr

lemma filesUnder_removeFile_not_under (fs : FS) (p : PPath) (r : PPath)
    (hr : pUnder r p = false) :
    filesUnder (removeFileFS fs p) r = filesUnder fs r := by
  apply filesUnder_filter_of_keep
  intro e _ hu
  simp only [Bool.not_eq_true']
  by_contra hcon
  have : (e.path == p) = true := by
    revert hcon
    cases hx : (e.path == p) <;> simp
  rw [eq_of_beq this] at hu
  rw [hu] at hr
  cases hr

lemma filesUnder_removeTree_disjoint (fs : FS) (q r : PPath)
    (hdis : ∀ x, pUnder r x = true → pUnder q x = false) :
    filesUnder (removeTreeFS fs q) r = filesUnder fs r := by
  apply filesUnder_filter_of_keep
  intro e _ hu
  simp [hdis e.path hu]

lemma addons_staging (x : PPath) (h : pUnder ADDONS x = true) :
    pUnder STAGING x = false := by
  rw [staging_eq]
  exact pUnder_disjoint (by decide) h

lemma userdata_staging (x : PPath) (h : pUnder USERDATA x = true) :
    pUnder STAGING x = false := by
  rw [staging_eq]
  exact pUnder_disjoint (by decide) h

lemma media_staging (x : PPath) (h : pUnder MEDIA x = true) :
    pUnder STAGING x = false := by
  rw [staging_eq]
  exact pUnder_disjoint (by decide) h

lemma extractLoop_frame (cancel extractOk : Nat → Bool) (r : PPath)
    (hr : ∀ m, pUnder r (extractTarget m) = false) :
    ∀ (entries : List ZipEntry) (idx : Nat) (fs : FS),
      filesUnder (exFS (extractLoop cancel extractOk idx entries fs)) r =
        filesUnder fs r := by
  intro entries
  induction entries with
  | nil => intro idx fs; rfl
  | cons z rest ih =>
    intro idx fs
    by_cases hc : cancel idx = true
    · simp [extractLoop, hc, exFS]
    · have hc2 : cancel idx = false := by revert hc; cases cancel idx <;> simp
      have hfs2 : filesUnder
          (if pyEndsWith z.name ("/") then fs
           else if extractOk idx then addFileFS fs (extractTarget z.name) z.data
           else fs) r = filesUnder fs r := by
        by_cases h1 : pyEndsWith z.name ("/") = true
        · rw [if_pos h1]
        · rw [if_neg h1]
          by_cases h2 : extractOk idx = true
          · rw [if_pos h2]
            exact filesUnder_addFile_not_under fs _ z.data r (hr z.name)
          · rw [if_neg h2]
      have hmain := ih (idx + 1)
          (if pyEndsWith z.name ("/") then fs
           else if extractOk idx then addFileFS fs (extractTarget z.name) z.data
           else fs)
      rw [hfs2] at hmain
      simp only [extractLoop, hc2, Bool.false_eq_true, if_false]
      cases hrec : extractLoop cancel extractOk (idx + 1) rest
          (if pyEndsWith z.name ("/") then fs
           else if extractOk idx then addFileFS fs (extractTarget z.name) z.data
           else fs) with
      | cancelled f t =>
        rw [hrec] at hmain
        simpa [exFS] using hmain
      | done f t =>
        rw [hrec] at hmain
        simpa [exFS] using hmain

lemma extractLoop_cancels (cancel extractOk : Nat → Bool) :
    ∀ (entries : List ZipEntry) (idx : Nat) (fs : FS),
      (∃ k, k < entries.length ∧ cancel (idx + k) = true) →
      ∃ f t, extractLoop cancel extractOk idx entries fs = .cancelled f t := by
  intro entries
  induction entries with
  | nil =>
    intro idx fs ⟨k, hk, _⟩
    exact absurd hk (Nat.not_lt_zero k)
  | cons z rest ih =>
    intro idx fs ⟨k, hk, hck⟩
    by_cases hc : cancel idx = true
    · exact ⟨fs, [], by simp [extractLoop, hc]⟩
    · have hc2 : cancel idx = false := by revert hc; cases cancel idx <;> simp
      have hk2 : ∃ k2, k2 < rest.length ∧ cancel (idx + 1 + k2) = true := by
        cases k with
        | zero => rw [Nat.add_zero] at hck; rw [hck] at hc2; cases hc2
        | succ j =>
          refine ⟨j, ?_, ?_⟩
          · simpa [Nat.succ_lt_succ_iff] using hk
          · rw [show idx + 1 + j = idx + (j + 1) by omega]
            exact hck
      obtain ⟨f, t, hft⟩ := ih (idx + 1)
        (if pyEndsWith z.name ("/") then fs
         else if extractOk idx then addFileFS fs (extractTarget z.name) z.data
         else fs) hk2
      refine ⟨f, REvent.extracted z.name :: t, ?_⟩
      simp only [extractLoop, hc2, Bool.false_eq_true, if_false, hft]

lemma extractLoop_done_trace (cancel extractOk : Nat → Bool) :
    ∀ (entries : List ZipEntry) (idx : Nat) (fs f : FS) (t : List REvent),
      extractLoop cancel extractOk idx entries fs = .done f t →
      t = entries.map (fun z => REvent.extracted z.name) := by
  intro entries
  induction entries with
  | nil =>
    intro idx fs f t h
    simp only [extractLoop] at h
    cases h
    rfl
  | cons z rest ih =>
    intro idx fs f t h
    by_cases hc : cancel idx = true
    · simp [extractLoop, hc] at h
    · have hc2 : cancel idx = false := by revert hc; cases cancel idx <;> simp
      simp only [extractLoop, hc2, Bool.false_eq_true, if_false] at h
      cases hrec : extractLoop cancel extractOk (idx + 1) rest
          (if pyEndsWith z.name ("/") then fs
           else if extractOk idx then addFileFS fs (extractTarget z.name) z.data
           else fs) with
      | cancelled f2 t2 => rw [hrec] at h; cases h
      | done f2 t2 =>
        rw [hrec] at h
        injection h with hf ht
        rw [← ht, List.map_cons, ih (idx + 1) _ f2 t2 hrec]

lemma extractLoop_trace_extracts (cancel extractOk : Nat → Bool) :
    ∀ (entries : List ZipEntry) (idx : Nat) (fs : FS) (ev : REvent),
      ev ∈ exTrace (extractLoop cancel extractOk idx entries fs) →
      ∃ m, ev = REvent.extracted m := by
  intro entries
  induction entries with
  | nil =>
    intro idx fs ev h
    simp [extractLoop, exTrace] at h
  | cons z rest ih =>
    intro idx fs ev h
    by_cases hc : cancel idx = true
    · simp [extractLoop, hc, exTrace] at h
    · have hc2 : cancel idx = false := by revert hc; cases cancel idx <;> simp
      simp only [extractLoop, hc2, Bool.false_eq_true, if_false] at h
      cases hrec : extractLoop cancel extractOk (idx + 1) rest
          (if pyEndsWith z.name ("/") then fs
           else if extractOk idx then addFileFS fs (extractTarget z.name) z.data
           else fs) with
      | cancelled f2 t2 =>
        rw [hrec] at h
        simp only [exTrace] at h
        rcases List.mem_cons.1 h with h2 | h2
        · exact ⟨z.name, h2⟩
        · have hmem : ev ∈ exTrace (extractLoop cancel extractOk (idx + 1) rest
              (if pyEndsWith z.name ("/") then fs
               else if extractOk idx then addFileFS fs (extractTarget z.name) z.data
               else fs)) := by
            rw [hrec]
            exact h2
          exact ih (idx + 1) _ ev hmem
      | done f2 t2 =>
        rw [hrec] at h
        simp only [exTrace] at h
        rcases List.mem_cons.1 h with h2 | h2
        · exact ⟨z.name, h2⟩
        · have hmem : ev ∈ exTrace (extractLoop cancel extractOk (idx + 1) rest
              (if pyEndsWith z.name ("/") then fs
               else if extractOk idx then addFileFS fs (extractTarget z.name) z.data
               else fs)) := by
            rw [hrec]
            exact h2
          exact ih (idx + 1) _ ev hmem

lemma movePairs_trace_shape (mf : PPath → Option String) :
    ∀ (prs : List (PPath × PPath)) (fs : FS) (ev : REvent),
      ev ∈ (movePairs mf fs prs).trace →
      (∃ s d, ev = REvent.moved s d) ∨ ∃ msg, ev = REvent.moveFailed msg := by
  intro prs
  induction prs with
  | nil =>
    intro fs ev h
    simp [movePairs] at h
  | cons p rest ih =>
    intro fs ev h
    obtain ⟨s, d⟩ := p
    simp only [movePairs] at h
    rcases List.mem_cons.1 h with h2 | h2
    · unfold _safe_move at h2
      cases hm : mf s with
      | some cause => rw [hm] at h2; right; exact ⟨_, h2⟩
      | none => rw [hm] at h2; left; exact ⟨s, d, h2⟩
    · exact ih _ ev h2

lemma movePhaseGo_trace_shape (mf : PPath → Option String) :
    ∀ (cs : List String) (fs : FS) (ev : REvent),
      ev ∈ (movePhaseGo mf cs fs).trace →
      (∃ s d, ev = REvent.moved s d) ∨ ∃ msg, ev = REvent.moveFailed msg := by
  intro cs
  induction cs with
  | nil =>
    intro fs ev h
    simp [movePhaseGo] at h
  | cons c rest ih =>
    intro fs ev h
    cases hsm : stagingMapLookup c with
    | none =>
      simp only [movePhaseGo, hsm, List.mem_append] at h
      rcases h with h2 | h2
      · have hev := List.mem_singleton.1 h2
        unfold _safe_move at hev
        cases hm : mf (pChild STAGING c) with
        | some cause => rw [hm] at hev; right; exact ⟨_, hev⟩
        | none => rw [hm] at hev; left; exact ⟨_, _, hev⟩
      · exact ih _ ev h2
    | some root =>
      by_cases hd : isDirIn fs (pChild STAGING c) = true
      · simp only [movePhaseGo, hsm, hd, if_true, List.mem_append] at h
        rcases h with h2 | h2
        · exact movePairs_trace_shape mf _ fs ev h2
        · exact ih _ ev h2
      · have hd2 : isDirIn fs (pChild STAGING c) = false := by
          revert hd; cases isDirIn fs (pChild STAGING c) <;> simp
        simp only [movePhaseGo, hsm, hd2, Bool.false_eq_true, if_false,
          List.mem_append] at h
        rcases h with h2 | h2
        · have hev := List.mem_singleton.1 h2
          unfold _safe_move at hev
          cases hm : mf (pChild STAGING c) with
          | some cause => rw [hm] at hev; right; exact ⟨_, hev⟩
          | none => rw [hm] at hev; left; exact ⟨_, _, hev⟩
        · exact ih _ ev h2

lemma noExtractAfter_of_all {tr : List REvent}
    (h : ∀ e ∈ tr, isExtractEv e = false) : noExtractAfter tr = true := by
  simp only [noExtractAfter, List.all_eq_true]
  intro e he
  simp [h e he]

lemma extractBeforeMut_of_no_mut {tr : List REvent}
    (h : ∀ e ∈ tr, isMutEv e = false) : extractBeforeMut tr = true := by
  induction tr with
  | nil => rfl
  | cons e rest ih =>
    simp only [extractBeforeMut, h e (List.mem_cons_self e rest), Bool.false_eq_true,
      if_false]
    exact ih (fun x hx => h x (List.mem_cons_of_mem e hx))

lemma extractBeforeMut_of_no_extract {tr : List REvent}
    (h : ∀ e ∈ tr, isExtractEv e = false) : extractBeforeMut tr = true := by
  induction tr with
  | nil => rfl
  | cons e rest ih =>
    have htail : ∀ x ∈ rest, isExtractEv x = false :=
      fun x hx => h x (List.mem_cons_of_mem e hx)
    by_cases hm : isMutEv e = true
    · simp only [extractBeforeMut, hm, if_true]
      rw [noExtractAfter_of_all htail, ih htail]
      rfl
    · have hm2 : isMutEv e = false := by revert hm; cases isMutEv e <;> simp
      simp only [extractBeforeMut, hm2, Bool.false_eq_true, if_false]
      exact ih htail

lemma extractBeforeMut_append_left {a b : List REvent}
    (h : ∀ e ∈ a, isMutEv e = false) :
    extractBeforeMut (a ++ b) = extractBeforeMut b := by
  induction a with
  | nil => rfl
  | cons e a2 ih =>
    rw [List.cons_append]
    simp only [extractBeforeMut, h e (List.mem_cons_self e a2), Bool.false_eq_true,
      if_false]
    exact ih (fun x hx => h x (List.mem_cons_of_mem e hx))

lemma abortedRun_false_of {tr : List REvent}
    (h : ∀ e ∈ tr, isAbortEv e = false) : abortedRun tr = false := by
  simp only [abortedRun]
  exact List.any_eq_false.2 (fun x hx => by simp [h x hx])

lemma extractedNames_nil {l : List REvent} (h : ∀ e ∈ l, isExtractEv e = false) :
    extractedNames l = [] := by
  induction l with
  | nil => rfl
  | cons e rest ih =>
    have he := h e (List.mem_cons_self e rest)
    have hnone : evName e = none := by
      cases e <;> simp [isExtractEv, evName] at he ⊢
    simp only [extractedNames, List.filterMap_cons, hnone]
    exact ih (fun x hx => h x (List.mem_cons_of_mem e hx))

lemma extractedNames_map (names : List ZipEntry) :
    extractedNames (names.map (fun z => REvent.extracted z.name)) =
      names.map ZipEntry.name := by
  induction names with
  | nil => rfl
  | cons z rest ih =>
    simp only [List.map_cons, extractedNames, List.filterMap_cons, evName]
    simpa [extractedNames] using ih

/-- C3: if the whole-archive integrity check of restore names a failing
entry, restore aborts before any live-tree mutation: the trace is exactly
download followed by the corruption report naming that entry, the staging
directory and the local archive copy are gone from the final filesystem,
and the three live trees are unmodified. -/
theorem claim_C3 (fs0 : FS) (inp : RestoreIn) (b : String)
    (hdl : inp.downloadOk = true) (hbad : inp.badFile = some b) :
    (restore fs0 inp).trace = [REvent.downloaded, REvent.reportCorrupt b] ∧
    (∀ e ∈ (restore fs0 inp).fs, pUnder STAGING e.path = false) ∧
    (∀ e ∈ (restore fs0 inp).fs, e.path ≠ LOCALZIP) ∧
    filesUnder (restore fs0 inp).fs ADDONS = filesUnder fs0 ADDONS ∧
    filesUnder (restore fs0 inp).fs USERDATA = filesUnder fs0 USERDATA ∧
    filesUnder (restore fs0 inp).fs MEDIA = filesUnder fs0 MEDIA := by
  have hout : restore fs0 inp =
      ⟨removeFileFS
          (removeTreeFS (removeTreeFS (addFileFS fs0 LOCALZIP []) STAGING) STAGING)
          LOCALZIP,
        [REvent.downloaded, REvent.reportCorrupt b], [], []⟩ := by
    simp [restore, hdl, hbad]
  refine ⟨by rw [hout], ?_, ?_, ?_, ?_, ?_⟩
  · intro e he
    rw [hout] at he
    have h1 : e ∈ removeTreeFS (removeTreeFS (addFileFS fs0 LOCALZIP []) STAGING)
        STAGING := List.Sublist.mem he (List.filter_sublist _)
    have h2 := (List.mem_filter.1 h1).2
    simpa using h2
  · intro e he
    rw [hout] at he
    have h2 := (List.mem_filter.1 he).2
    simp only [Bool.not_eq_true'] at h2
    intro hcon
    rw [hcon] at h2
    simp at h2
  · rw [hout]
    show filesUnder _ ADDONS = filesUnder fs0 ADDONS
    rw [filesUnder_removeFile_not_under _ _ _ (by decide),
      filesUnder_removeTree_disjoint _ _ _ addons_staging,
      filesUnder_removeTree_disjoint _ _ _ addons_staging,
      filesUnder_addFile_not_under _ _ _ _ (by decide)]
  · rw [hout]
    show filesUnder _ USERDATA = filesUnder fs0 USERDATA
    rw [filesUnder_removeFile_not_under _ _ _ (by decide),
      filesUnder_removeTree_disjoint _ _ _ userdata_staging,
      filesUnder_removeTree_disjoint _ _ _ userdata_staging,
      filesUnder_addFile_not_under _ _ _ _ (by decide)]
  · rw [hout]
    show filesUnder _ MEDIA = filesUnder fs0 MEDIA
    rw [filesUnder_removeFile_not_under _ _ _ (by decide),
      filesUnder_removeTree_disjoint _ _ _ media_staging,
      filesUnder_removeTree_disjoint _ _ _ media_staging,
      filesUnder_addFile_not_under _ _ _ _ (by decide)]

/-- C3 witness archive selection: empty archive, corrupt entry bad.png. -/
def c3in : RestoreIn :=
  ⟨[], true, some ("bad.png"), fun _ => false, fun _ => true, fun _ => false,
    fun _ => none⟩

/-- Witness for C3 at a concrete corrupted-archive run. -/
theorem claim_C3_witness :
    (restore [] c3in).trace = [REvent.downloaded, REvent.reportCorrupt ("bad.png")] :=
  (claim_C3 [] c3in ("bad.png") rfl rfl).1

/-- C4: if cancellation is signalled at one of the per-entry polls of the
extraction phase, restore reports the cancellation, performs no live-tree
mutation event, deletes the staging directory and the local archive copy,
and leaves the Addons, UserData and Media trees identical (entries and
contents) to their pre-restore state. -/
theorem claim_C4 (fs0 : FS) (inp : RestoreIn)
    (hdl : inp.downloadOk = true) (hbad : inp.badFile = none)
    (hc : ∃ k, k < inp.arch.length ∧ inp.cancel k = true) :
    REvent.reportCancelled ∈ (restore fs0 inp).trace ∧
    (∀ ev ∈ (restore fs0 inp).trace, isMutEv ev = false) ∧
    (∀ e ∈ (restore fs0 inp).fs, pUnder STAGING e.path = false) ∧
    (∀ e ∈ (restore fs0 inp).fs, e.path ≠ LOCALZIP) ∧
    filesUnder (restore fs0 inp).fs ADDONS = filesUnder fs0 ADDONS ∧
    filesUnder (restore fs0 inp).fs USERDATA = filesUnder fs0 USERDATA ∧
    filesUnder (restore fs0 inp).fs MEDIA = filesUnder fs0 MEDIA := by
  obtain ⟨f, t, hft⟩ := extractLoop_cancels inp.cancel inp.extractOk inp.arch 0
    (removeTreeFS (addFileFS fs0 LOCALZIP []) STAGING)
    (by obtain ⟨k, hk, hck⟩ := hc; exact ⟨k, hk, by simpa using hck⟩)
  have hout : restore fs0 inp =
      ⟨removeFileFS (removeTreeFS f STAGING) LOCALZIP,
        REvent.downloaded :: REvent.integrityOk :: t ++ [REvent.reportCancelled],
        [], []⟩ := by
    simp [restore, hdl, hbad, hft]
  have hframe : ∀ (r : PPath), (∀ m, pUnder r (extractTarget m) = false) →
      filesUnder f r =
        filesUnder (removeTreeFS (addFileFS fs0 LOCALZIP []) STAGING) r := by
    intro r hr
    have := extractLoop_frame inp.cancel inp.extractOk r hr inp.arch 0
      (removeTreeFS (addFileFS fs0 LOCALZIP []) STAGING)
    rw [hft] at this
    exact this
  have htev : ∀ ev ∈ t, ∃ m, ev = REvent.extracted m := by
    intro ev hm
    exact extractLoop_trace_extracts inp.cancel inp.extractOk inp.arch 0 _ ev
      (by rw [hft]; exact hm)
  refine ⟨?_, ?_, ?_, ?_, ?_, ?_, ?_⟩
  · rw [hout]; simp
  · intro ev hev
    rw [hout] at hev
    rcases List.mem_append.1 hev with h2 | h2
    · rcases List.mem_cons.1 h2 with rfl | h3
      · rfl
      rcases List.mem_cons.1 h3 with rfl | h4
      · rfl
      · obtain ⟨m, rfl⟩ := htev ev h4
        rfl
    · rcases List.mem_cons.1 h2 with rfl | h3
      · rfl
      · cases h3
  · intro e he
    rw [hout] at he
    have h1 : e ∈ removeTreeFS f STAGING :=
      List.Sublist.mem he (List.filter_sublist _)
    have h2 := (List.mem_filter.1 h1).2
    simpa using h2
  · intro e he
    rw [hout] at he
    have h2 := (List.mem_filter.1 he).2
    simp only [Bool.not_eq_true'] at h2
    intro hcon
    rw [hcon] at h2
    simp at h2
  · rw [hout]
    show filesUnder _ ADDONS = filesUnder fs0 ADDONS
    rw [filesUnder_removeFile_not_under _ _ _ (by decide),
      filesUnder_removeTree_disjoint _ _ _ addons_staging,
      hframe ADDONS addons_target,
      filesUnder_removeTree_disjoint _ _ _ addons_staging,
      filesUnder_addFile_not_under _ _ _ _ (by decide)]
  · rw [hout]
    show filesUnder _ USERDATA = filesUnder fs0 USERDATA
    rw [filesUnder_removeFile_not_under _ _ _ (by decide),
      filesUnder_removeTree_disjoint _ _ _ userdata_staging,
      hframe USERDATA userdata_target,
      filesUnder_removeTree_disjoint _ _ _ userdata_staging,
      filesUnder_addFile_not_under _ _ _ _ (by decide)]
  · rw [hout]
    show filesUnder _ MEDIA = filesUnder fs0 MEDIA
    rw [filesUnder_removeFile_not_under _ _ _ (by decide),
      filesUnder_removeTree_disjoint _ _ _ media_staging,
      hframe MEDIA media_target,
      filesUnder_removeTree_disjoint _ _ _ media_staging,
      filesUnder_addFile_not_under _ _ _ _ (by decide)]

/-- C4 witness filesystem: one pre-existing addon file. -/
def c4fs : FS := [⟨⟨false, [("addons"), ("old.txt")]⟩, [9], 0⟩]

/-- C4 witness inputs: one-entry archive, cancellation at the first poll. -/
def c4in : RestoreIn :=
  ⟨[⟨("addons/a.txt"), [7]⟩], true, none, fun _ => true, fun _ => true,
    fun _ => false, fun _ => none⟩

/-- Witness for C4 at a concrete cancelled run. -/
theorem claim_C4_witness :
    REvent.reportCancelled ∈ (restore c4fs c4in).trace ∧
      filesUnder (restore c4fs c4in).fs ADDONS = filesUnder c4fs ADDONS :=
  ⟨(claim_C4 c4fs c4in rfl rfl ⟨0, by decide, rfl⟩).1,
    (claim_C4 c4fs c4in rfl rfl ⟨0, by decide, rfl⟩).2.2.2.2.1⟩

lemma restore_done_trace (fs0 : FS) (inp : RestoreIn) (f : FS) (t : List REvent)
    (hdl : inp.downloadOk = true) (hbad : inp.badFile = none)
    (hres : extractLoop inp.cancel inp.extractOk 0 inp.arch
      (removeTreeFS (addFileFS fs0 LOCALZIP []) STAGING) = .done f t) :
    ∃ (mtr tail : List REvent),
      (restore fs0 inp).trace = (REvent.downloaded :: REvent.integrityOk :: t) ++
        ([REvent.wiped ADDONS, REvent.wiped USERDATA, REvent.wiped MEDIA] ++
          mtr ++ tail) ∧
      (∀ ev ∈ mtr, (∃ s d, ev = REvent.moved s d) ∨ ∃ m, ev = REvent.moveFailed m) ∧
      (∀ ev ∈ tail, isExtractEv ev = false ∧ isMutEv ev = false ∧
        isAbortEv ev = false) := by
  refine ⟨(movePhaseGo inp.moveFail
      (childNames (safe_wipe_folder inp.locked (safe_wipe_folder inp.locked
        (safe_wipe_folder inp.locked f ADDONS []) USERDATA []) MEDIA []) STAGING)
      (safe_wipe_folder inp.locked (safe_wipe_folder inp.locked
        (safe_wipe_folder inp.locked f ADDONS []) USERDATA []) MEDIA [])).trace,
    [REvent.removedStaging, REvent.removedZip,
      if (movePhaseGo inp.moveFail
          (childNames (safe_wipe_folder inp.locked (safe_wipe_folder inp.locked
            (safe_wipe_folder inp.locked f ADDONS []) USERDATA []) MEDIA []) STAGING)
          (safe_wipe_folder inp.locked (safe_wipe_folder inp.locked
            (safe_wipe_folder inp.locked f ADDONS []) USERDATA []) MEDIA
            [])).errors.isEmpty then REvent.reportComplete
      else REvent.reportPartial (error_summary (movePhaseGo inp.moveFail
          (childNames (safe_wipe_folder inp.locked (safe_wipe_folder inp.locked
            (safe_wipe_folder inp.locked f ADDONS []) USERDATA []) MEDIA []) STAGING)
          (safe_wipe_folder inp.locked (safe_wipe_folder inp.locked
            (safe_wipe_folder inp.locked f ADDONS []) USERDATA []) MEDIA
            [])).errors)], ?_, ?_, ?_⟩
  · simp [restore, hdl, hbad, hres, List.append_assoc]
  · intro ev hev
    exact movePhaseGo_trace_shape inp.moveFail _ _ ev hev
  · intro ev hev
    rcases List.mem_cons.1 hev with rfl | h2
    · exact ⟨rfl, rfl, rfl⟩
    rcases List.mem_cons.1 h2 with rfl | h3
    · exact ⟨rfl, rfl, rfl⟩
    rcases List.mem_cons.1 h3 with rfl | h4
    · by_cases hie : (movePhaseGo inp.moveFail
          (childNames (safe_wipe_folder inp.locked (safe_wipe_folder inp.locked
            (safe_wipe_folder inp.locked f ADDONS []) USERDATA []) MEDIA []) STAGING)
          (safe_wipe_folder inp.locked (safe_wipe_folder inp.locked
            (safe_wipe_folder inp.locked f ADDONS []) USERDATA []) MEDIA
            [])).errors.isEmpty = true
      · rw [hie]; exact ⟨rfl, rfl, rfl⟩
      · have hie2 : (movePhaseGo inp.moveFail
            (childNames (safe_wipe_folder inp.locked (safe_wipe_folder inp.locked
              (safe_wipe_folder inp.locked f ADDONS []) USERDATA []) MEDIA []) STAGING)
            (safe_wipe_folder inp.locked (safe_wipe_folder inp.locked
              (safe_wipe_folder inp.locked f ADDONS []) USERDATA []) MEDIA
              [])).errors.isEmpty = false := by
          revert hie
          cases (movePhaseGo inp.moveFail
            (childNames (safe_wipe_folder inp.locked (safe_wipe_folder inp.locked
              (safe_wipe_folder inp.locked f ADDONS []) USERDATA []) MEDIA []) STAGING)
            (safe_wipe_folder inp.locked (safe_wipe_folder inp.locked
              (safe_wipe_folder inp.locked f ADDONS []) USERDATA []) MEDIA
              [])).errors.isEmpty <;> simp
        rw [hie2]
        exact ⟨rfl, rfl, rfl⟩
    · cases h4

/-- C1: in every execution of restore, live-tree mutation events (wipes
and moves) occur only after the extraction pass has completed over every
archive entry: scanning any trace, no extraction event follows a mutation
event; if any mutation event occurs at all, the trace holds extraction
events for the whole entry list in order; and whenever the run aborts (a
failed download, a failed integrity check, or cancellation during
extraction) no mutation event occurs and the Addons, UserData and Media
trees are unmodified. -/
theorem claim_C1 (fs0 : FS) (inp : RestoreIn) :
    extractBeforeMut (restore fs0 inp).trace = true ∧
    ((∃ ev ∈ (restore fs0 inp).trace, isMutEv ev = true) →
      extractedNames (restore fs0 inp).trace = inp.arch.map ZipEntry.name) ∧
    ((inp.downloadOk = false ∨ (∃ b, inp.badFile = some b) ∨
        (inp.badFile = none ∧ ∃ k, k < inp.arch.length ∧ inp.cancel k = true)) →
      (∀ ev ∈ (restore fs0 inp).trace, isMutEv ev = false) ∧
      filesUnder (restore fs0 inp).fs ADDONS = filesUnder fs0 ADDONS ∧
      filesUnder (restore fs0 inp).fs USERDATA = filesUnder fs0 USERDATA ∧
      filesUnder (restore fs0 inp).fs MEDIA = filesUnder fs0 MEDIA) := by
  by_cases hdl : inp.downloadOk = true
  · cases hbad : inp.badFile with
    | some b =>
      have hout : restore fs0 inp =
          ⟨removeFileFS (removeTreeFS (removeTreeFS (addFileFS fs0 LOCALZIP [])
            STAGING) STAGING) LOCALZIP,
            [REvent.downloaded, REvent.reportCorrupt b], [], []⟩ := by
        simp [restore, hdl, hbad]
      have hnomut : ∀ ev ∈ (restore fs0 inp).trace, isMutEv ev = false := by
        intro ev hev
        rw [hout] at hev
        rcases List.mem_cons.1 hev with rfl | h2
        · rfl
        rcases List.mem_cons.1 h2 with rfl | h3
        · rfl
        · cases h3
      refine ⟨extractBeforeMut_of_no_mut hnomut, ?_, ?_⟩
      · intro ⟨ev, hev, hm⟩
        rw [hnomut ev hev] at hm
        cases hm
      · intro _
        refine ⟨hnomut, ?_, ?_, ?_⟩
        · rw [hout]
          show filesUnder _ ADDONS = filesUnder fs0 ADDONS
          rw [filesUnder_removeFile_not_under _ _ _ (by decide),
            filesUnder_removeTree_disjoint _ _ _ addons_staging,
            filesUnder_removeTree_disjoint _ _ _ addons_staging,
            filesUnder_addFile_not_under _ _ _ _ (by decide)]
        · rw [hout]
          show filesUnder _ USERDATA = filesUnder fs0 USERDATA
          rw [filesUnder_removeFile_not_under _ _ _ (by decide),
            filesUnder_removeTree_disjoint _ _ _ userdata_staging,
            filesUnder_removeTree_disjoint _ _ _ userdata_staging,
            filesUnder_addFile_not_under _ _ _ _ (by decide)]
        · rw [hout]
          show filesUnder _ MEDIA = filesUnder fs0 MEDIA
          rw [filesUnder_removeFile_not_under _ _ _ (by decide),
            filesUnder_removeTree_disjoint _ _ _ media_staging,
            filesUnder_removeTree_disjoint _ _ _ media_staging,
            filesUnder_addFile_not_under _ _ _ _ (by decide)]
    | none =>
      cases hres : extractLoop inp.cancel inp.extractOk 0 inp.arch
          (removeTreeFS (addFileFS fs0 LOCALZIP []) STAGING) with
      | cancelled f t =>
        have hout : restore fs0 inp =
            ⟨removeFileFS (removeTreeFS f STAGING) LOCALZIP,
              REvent.downloaded :: REvent.integrityOk :: t ++
                [REvent.reportCancelled], [], []⟩ := by
          simp [restore, hdl, hbad, hres]
        have htev : ∀ ev ∈ t, ∃ m, ev = REvent.extracted m := by
          intro ev hm
          exact extractLoop_trace_extracts inp.cancel inp.extractOk inp.arch 0 _ ev
            (by rw [hres]; exact hm)
        have hnomut : ∀ ev ∈ (restore fs0 inp).trace, isMutEv ev = false := by
          intro ev hev
          rw [hout] at hev
          rcases List.mem_append.1 hev with h2 | h2
          · rcases List.mem_cons.1 h2 with rfl | h3
            · rfl
            rcases List.mem_cons.1 h3 with rfl | h4
            · rfl
            · obtain ⟨m, rfl⟩ := htev ev h4
              rfl
          · rcases List.mem_cons.1 h2 with rfl | h3
            · rfl
            · cases h3
        have hframe : ∀ (r : PPath), (∀ m, pUnder r (extractTarget m) = false) →
            filesUnder f r =
              filesUnder (removeTreeFS (addFileFS fs0 LOCALZIP []) STAGING) r := by
          intro r hr
          have := extractLoop_frame inp.cancel inp.extractOk r hr inp.arch 0
            (removeTreeFS (addFileFS fs0 LOCALZIP []) STAGING)
          rw [hres] at this
          exact this
        refine ⟨extractBeforeMut_of_no_mut hnomut, ?_, ?_⟩
        · intro ⟨ev, hev, hm⟩
          rw [hnomut ev hev] at hm
          cases hm
        · intro _
          refine ⟨hnomut, ?_, ?_, ?_⟩
          · rw [hout]
            show filesUnder _ ADDONS = filesUnder fs0 ADDONS
            rw [filesUnder_removeFile_not_under _ _ _ (by decide),
              filesUnder_removeTree_disjoint _ _ _ addons_staging,
              hframe ADDONS addons_target,
              filesUnder_removeTree_disjoint _ _ _ addons_staging,
              filesUnder_addFile_not_under _ _ _ _ (by decide)]
          · rw [hout]
            show filesUnder _ USERDATA = filesUnder fs0 USERDATA
            rw [filesUnder_removeFile_not_under _ _ _ (by decide),
              filesUnder_removeTree_disjoint _ _ _ userdata_staging,
              hframe USERDATA userdata_target,
              filesUnder_removeTree_disjoint _ _ _ userdata_staging,
              filesUnder_addFile_not_under _ _ _ _ (by decide)]
          · rw [hout]
            show filesUnder _ MEDIA = filesUnder fs0 MEDIA
            rw [filesUnder_removeFile_not_under _ _ _ (by decide),
              filesUnder_removeTree_disjoint _ _ _ media_staging,
              hframe MEDIA media_target,
              filesUnder_removeTree_disjoint _ _ _ media_staging,
              filesUnder_addFile_not_under _ _ _ _ (by decide)]
      | done f t =>
        obtain ⟨mtr, tail, htrace, hmtr, htail⟩ :=
          restore_done_trace fs0 inp f t hdl hbad hres
        have htt : t = inp.arch.map (fun z => REvent.extracted z.name) :=
          extractLoop_done_trace inp.cancel inp.extractOk inp.arch 0 _ f t hres
        have hmutfree : ∀ ev ∈ REvent.downloaded :: REvent.integrityOk :: t,
            isMutEv ev = false := by
          intro ev hev
          rcases List.mem_cons.1 hev with rfl | h2
          · rfl
          rcases List.mem_cons.1 h2 with rfl | h3
          · rfl
          · rw [htt] at h3
            obtain ⟨z, _, rfl⟩ := List.mem_map.1 h3
            rfl
        have hexfree : ∀ ev ∈ [REvent.wiped ADDONS, REvent.wiped USERDATA,
            REvent.wiped MEDIA] ++ mtr ++ tail, isExtractEv ev = false := by
          intro ev hev
          rcases List.mem_append.1 hev with h2 | h2
          · rcases List.mem_append.1 h2 with h3 | h3
            · rcases List.mem_cons.1 h3 with rfl | h4
              · rfl
              rcases List.mem_cons.1 h4 with rfl | h5
              · rfl
              rcases List.mem_cons.1 h5 with rfl | h6
              · rfl
              · cases h6
            · rcases hmtr ev h3 with ⟨s, d, rfl⟩ | ⟨m, rfl⟩ <;> rfl
          · exact (htail ev h2).1
        refine ⟨?_, ?_, ?_⟩
        · rw [htrace, extractBeforeMut_append_left hmutfree]
          exact extractBeforeMut_of_no_extract hexfree
        · intro _
          rw [htrace, extractedNames, List.filterMap_append]
          have h1 : extractedNames (REvent.downloaded :: REvent.integrityOk :: t) =
              inp.arch.map ZipEntry.name := by
            simp only [extractedNames, List.filterMap_cons, evName]
            rw [htt]
            exact extractedNames_map inp.arch
          have h2 : extractedNames ([REvent.wiped ADDONS, REvent.wiped USERDATA,
              REvent.wiped MEDIA] ++ mtr ++ tail) = [] :=
            extractedNames_nil hexfree
          rw [show List.filterMap evName (REvent.downloaded :: REvent.integrityOk :: t) =
              extractedNames (REvent.downloaded :: REvent.integrityOk :: t) from rfl,
            show List.filterMap evName ([REvent.wiped ADDONS, REvent.wiped USERDATA,
              REvent.wiped MEDIA] ++ mtr ++ tail) =
              extractedNames ([REvent.wiped ADDONS, REvent.wiped USERDATA,
              REvent.wiped MEDIA] ++ mtr ++ tail) from rfl, h1, h2, List.append_nil]
        · intro habort
          rcases habort with h1 | ⟨b, h1⟩ | ⟨_, k, hk, hck⟩
          · rw [hdl] at h1; cases h1
          · cases h1
          · obtain ⟨f2, t2, heq⟩ := extractLoop_cancels inp.cancel inp.extractOk
              inp.arch 0 (removeTreeFS (addFileFS fs0 LOCALZIP []) STAGING)
              ⟨k, hk, by simpa using hck⟩
            rw [hres] at heq
            exact ExtractRes.noConfusion heq
  · have hdlf : inp.downloadOk = false := by
      revert hdl; cases inp.downloadOk <;> simp
    have hout : restore fs0 inp =
        ⟨addFileFS fs0 LOCALZIP [], [REvent.reportDownloadFailed], [], []⟩ := by
      simp [restore, hdlf]
    have hnomut : ∀ ev ∈ (restore fs0 inp).trace, isMutEv ev = false := by
      intro ev hev
      rw [hout] at hev
      rcases List.mem_cons.1 hev with rfl | h2
      · rfl
      · cases h2
    refine ⟨extractBeforeMut_of_no_mut hnomut, ?_, ?_⟩
    · intro ⟨ev, hev, hm⟩
      rw [hnomut ev hev] at hm
      cases hm
    · intro _
      refine ⟨hnomut, ?_, ?_, ?_⟩
      · rw [hout]
        show filesUnder _ ADDONS = filesUnder fs0 ADDONS
        rw [filesUnder_addFile_not_under _ _ _ _ (by decide)]
      · rw [hout]
        show filesUnder _ USERDATA = filesUnder fs0 USERDATA
        rw [filesUnder_addFile_not_under _ _ _ _ (by decide)]
      · rw [hout]
        show filesUnder _ MEDIA = filesUnder fs0 MEDIA
        rw [filesUnder_addFile_not_under _ _ _ _ (by decide)]

/-- C1 witness inputs: an empty archive whose download fails. -/
def c1in : RestoreIn :=
  ⟨[], false, none, fun _ => false, fun _ => true, fun _ => false, fun _ => none⟩

/-- Witness for C1 at a concrete aborted run: no mutation events and the
live trees unchanged. -/
theorem claim_C1_witness :
    (∀ ev ∈ (restore [] c1in).trace, isMutEv ev = false) ∧
      filesUnder (restore [] c1in).fs ADDONS = filesUnder ([] : FS) ADDONS ∧
      filesUnder (restore [] c1in).fs USERDATA = filesUnder ([] : FS) USERDATA ∧
      filesUnder (restore [] c1in).fs MEDIA = filesUnder ([] : FS) MEDIA :=
  (claim_C1 [] c1in).2.2 (Or.inl rfl)

lemma isPre_iff (a : List String) : ∀ b, isPre a b = true ↔ a <+: b := by
  induction a with
  | nil =>
    intro b
    simp [isPre]
  | cons x xs ih =>
    intro b
    cases b with
    | nil =>
      simp [isPre]
    | cons y ys =>
      simp only [isPre, Bool.and_eq_true, beq_iff_eq]
      constructor
      · intro ⟨h1, h2⟩
        obtain ⟨t, ht⟩ := (ih ys).1 h2
        exact ⟨t, by rw [h1, List.cons_append, ht]⟩
      · intro h
        obtain ⟨t, ht⟩ := h
        injection ht with h1 h2
        exact ⟨h1, (ih ys).2 ⟨t, h2⟩⟩

lemma isPre_self_append (a b : List String) : isPre a (a ++ b) = true := by
  induction a with
  | nil => rfl
  | cons x xs ih => simp [isPre, ih]

lemma isPre_append_cancel (q : List String) :
    ∀ (l1 l2 : List String), isPre (q ++ l1) (q ++ l2) = isPre l1 l2 := by
  induction q with
  | nil => intro l1 l2; rfl
  | cons x xs ih => intro l1 l2; simp [isPre, ih]

lemma pUnder_mono (p : PPath) (s : String) (x : PPath)
    (h : pUnder (pChild p s) x = true) : pUnder p x = true := by
  unfold pUnder pChild at h
  unfold pUnder
  rw [Bool.and_eq_true] at h
  obtain ⟨h1, h2⟩ := h
  rw [Bool.and_eq_true]
  refine ⟨h1, ?_⟩
  have hpre := (isPre_iff _ _).1 h2
  exact (isPre_iff _ _).2 ((List.prefix_append p.parts [s]).trans hpre)

lemma pUnder_pChild_ne (p : PPath) {a b : String} (hne : ¬ a = b) (x : PPath)
    (h : pUnder (pChild p a) x = true) : pUnder (pChild p b) x = false := by
  unfold pUnder pChild at h ⊢
  rw [Bool.and_eq_true] at h
  obtain ⟨h1, h2⟩ := h
  obtain ⟨t, ht⟩ := (isPre_iff _ _).1 h2
  have hfalse : isPre (p.parts ++ [b]) x.parts = false := by
    rw [← ht, show p.parts ++ [a] ++ t = p.parts ++ ([a] ++ t) from by simp,
      isPre_append_cancel p.parts [b] ([a] ++ t)]
    have hba : (b == a) = false := beq_eq_false_iff_ne.2 (fun hba => hne hba.symm)
    simp [isPre, hba]
  rw [hfalse]
  simp

lemma pUnder_self_append (p : PPath) (l : List String) :
    pUnder p ⟨p.abs, p.parts ++ l⟩ = true := by
  unfold pUnder
  simp [isPre_self_append]

lemma dedup_sub : ∀ (n : Nat) (l : List String), l.length ≤ n →
    ((dedup l).Nodup ∧ ∀ x, x ∈ dedup l ↔ x ∈ l) := by
  intro n
  induction n with
  | zero =>
    intro l hl
    have hnil : l = [] := List.eq_nil_of_length_eq_zero (Nat.le_zero.1 hl)
    subst hnil
    have hd0 : dedup ([] : List String) = [] := by rw [dedup]
    exact ⟨by rw [hd0]; exact List.nodup_nil, fun x => by rw [hd0]⟩
  | succ n ih =>
    intro l hl
    cases l with
    | nil =>
      have hd0 : dedup ([] : List String) = [] := by rw [dedup]
      exact ⟨by rw [hd0]; exact List.nodup_nil, fun x => by rw [hd0]⟩
    | cons a as =>
      have hlen : (as.filter (fun y => !(y == a))).length ≤ n :=
        le_trans (List.length_filter_le _ _) (by simpa using hl)
      obtain ⟨hnd, hmem⟩ := ih _ hlen
      rw [show dedup (a :: as) = a :: dedup (as.filter (fun y => !(y == a))) from
        by rw [dedup]]
      constructor
      · rw [List.nodup_cons]
        refine ⟨?_, hnd⟩
        intro hmema
        have h2 := (List.mem_filter.1 ((hmem a).1 hmema)).2
        simp at h2
      · intro x
        rw [List.mem_cons, hmem x]
        constructor
        · rintro (rfl | hx)
          · exact List.mem_cons_self _ _
          · exact List.mem_cons_of_mem _ (List.Sublist.mem hx (List.filter_sublist _))
        · intro hx
          rcases List.mem_cons.1 hx with rfl | hx2
          · left; rfl
          · by_cases hxa : x = a
            · left; exact hxa
            · right
              exact List.mem_filter.2 ⟨hx2, by simp [hxa]⟩

lemma dedup_nodup (l : List String) : (dedup l).Nodup :=
  (dedup_sub l.length l le_rfl).1

lemma mem_dedup {l : List String} {x : String} : x ∈ dedup l ↔ x ∈ l :=
  (dedup_sub l.length l le_rfl).2 x

lemma filterMap_if_filter (q : FileEntry → Bool) (g : FileEntry → Option String) :
    ∀ (fs : FS), fs.filterMap (fun e => if q e then g e else none) =
      (fs.filter q).filterMap g := by
  intro fs
  induction fs with
  | nil => rfl
  | cons e rest ih =>
    by_cases hq : q e = true
    · simp only [List.filterMap_cons, List.filter_cons, hq, if_true]
      cases g e <;> simp [List.filterMap_cons, ih]
    · have hq2 : q e = false := by revert hq; cases q e <;> simp
      simp [List.filterMap_cons, List.filter_cons, hq2, ih]

lemma childNames_view (fs : FS) (root : PPath) :
    childNames fs root =
      dedup ((filesUnder fs root).filterMap (fun e => (relParts root e.path).head?)) := by
  unfold childNames filesUnder
  rw [filterMap_if_filter (fun e => pUnder root e.path)
    (fun e => (relParts root e.path).head?) fs]

lemma childNames_congr {fs1 fs2 : FS} (root : PPath)
    (h : filesUnder fs1 root = filesUnder fs2 root) :
    childNames fs1 root = childNames fs2 root := by
  rw [childNames_view, childNames_view, h]

lemma any_filter (q r : FileEntry → Bool) :
    ∀ (fs : FS), fs.any (fun e => q e && r e) = (fs.filter q).any r := by
  intro fs
  induction fs with
  | nil => rfl
  | cons e rest ih =>
    cases hq : q e with
    | true =>
      simp only [List.any_cons, List.filter_cons, hq, if_true, Bool.true_and, ih]
    | false =>
      simp only [List.any_cons, List.filter_cons, hq, Bool.false_eq_true, if_false,
        Bool.false_and, Bool.false_or, ih]

lemma isDirIn_view (fs : FS) (p : PPath) :
    isDirIn fs p = (filesUnder fs p).any
      (fun e => decide (p.parts.length < e.path.parts.length)) := by
  unfold isDirIn filesUnder
  exact any_filter (fun e => pUnder p e.path)
    (fun e => decide (p.parts.length < e.path.parts.length)) fs

lemma isDirIn_congr {fs1 fs2 : FS} (p : PPath)
    (h : filesUnder fs1 p = filesUnder fs2 p) : isDirIn fs1 p = isDirIn fs2 p := by
  rw [isDirIn_view, isDirIn_view, h]

lemma filter_map_invariant (f : FileEntry → FileEntry) (p : FileEntry → Bool)
    (l : List FileEntry) (hp : ∀ a, p (f a) = p a)
    (hfix : ∀ a, p a = true → f a = a) :
    (l.map f).filter p = l.filter p := by
  induction l with
  | nil => rfl
  | cons a t ih =>
    simp only [List.map_cons, List.filter_cons, hp a]
    cases hpa : p a with
    | false => simpa [hpa] using ih
    | true => rw [hfix a hpa]; simp [hpa, ih]

lemma filesUnder_moveTree_disjoint (fs : FS) (src dst v : PPath)
    (h1 : ∀ x, pUnder v x = true → pUnder src x = false)
    (h2 : ∀ p, pUnder dst p = true → pUnder v p = false) :
    filesUnder (moveTreeFS fs src dst) v = filesUnder fs v := by
  unfold moveTreeFS filesUnder
  apply filter_map_invariant
  · intro a
    by_cases hs : pUnder src a.path = true
    · simp only [hs, if_true]
      have hout : pUnder v
          (⟨dst.abs, dst.parts ++ a.path.parts.drop src.parts.length⟩ : PPath) = false :=
        h2 _ (pUnder_self_append dst _)
      rw [hout]
      cases hv : pUnder v a.path
      · rfl
      · rw [h1 a.path hv] at hs; cases hs
    · have hs2 : pUnder src a.path = false := by revert hs; cases pUnder src a.path <;> simp
      simp [hs2]
  · intro a ha
    rw [h1 a.path ha]
    simp

lemma safe_move_preserves (mf : PPath → Option String) (fs : FS) (s d v : PPath)
    (hs : ∀ x, pUnder v x = true → pUnder s x = false)
    (hd : ∀ p, pUnder d p = true → pUnder v p = false) :
    filesUnder (_safe_move mf fs s d).1 v = filesUnder fs v := by
  unfold _safe_move
  cases hm : mf s with
  | some cause => rfl
  | none =>
    show filesUnder (moveTreeFS (removeTreeFS fs d) s d) v = filesUnder fs v
    rw [filesUnder_moveTree_disjoint _ s d v hs hd]
    apply filesUnder_removeTree_disjoint
    intro x hx
    cases hdx : pUnder d x
    · rfl
    · rw [hd x hdx] at hx; cases hx

lemma movePairs_preserves (mf : PPath → Option String) :
    ∀ (prs : List (PPath × PPath)) (fs : FS) (v : PPath),
      (∀ sd ∈ prs, ∀ x, pUnder v x = true → pUnder sd.1 x = false) →
      (∀ sd ∈ prs, ∀ p, pUnder sd.2 p = true → pUnder v p = false) →
      filesUnder (movePairs mf fs prs).fs v = filesUnder fs v := by
  intro prs
  induction prs with
  | nil => intro fs v _ _; rfl
  | cons sd rest ih =>
    intro fs v hs hd
    obtain ⟨s, d⟩ := sd
    show filesUnder (movePairs mf (_safe_move mf fs s d).1 rest).fs v = filesUnder fs v
    rw [ih (_safe_move mf fs s d).1 v
      (fun x hx => hs x (List.mem_cons_of_mem _ hx))
      (fun x hx => hd x (List.mem_cons_of_mem _ hx))]
    exact safe_move_preserves mf fs s d v
      (hs (s, d) (List.mem_cons_self _ _))
      (hd (s, d) (List.mem_cons_self _ _))

/-- The filesystem effect of an uncancelled extraction pass. -/
def extractFoldFS (extractOk : Nat → Bool) : Nat → List ZipEntry → FS → FS
  | _, [], fs => fs
  | idx, z :: rest, fs =>
    extractFoldFS extractOk (idx + 1) rest
      (if pyEndsWith z.name ("/") then fs
       else if extractOk idx then addFileFS fs (extractTarget z.name) z.data else fs)

lemma extractLoop_no_cancel (cancel extractOk : Nat → Bool)
    (hnc : ∀ k, cancel k = false) :
    ∀ (entries : List ZipEntry) (idx : Nat) (fs : FS),
      extractLoop cancel extractOk idx entries fs =
        .done (extractFoldFS extractOk idx entries fs)
          (entries.map (fun z => REvent.extracted z.name)) := by
  intro entries
  induction entries with
  | nil => intro idx fs; rfl
  | cons z rest ih =>
    intro idx fs
    simp only [extractLoop, hnc idx, Bool.false_eq_true, if_false, extractFoldFS,
      List.map_cons, ih (idx + 1)]

/-- The staging filesystem after download, staging reset, and extraction. -/
def stagedFS (fs0 : FS) (inp : RestoreIn) : FS :=
  extractFoldFS inp.extractOk 0 inp.arch
    (removeTreeFS (addFileFS fs0 LOCALZIP []) STAGING)

/-- The filesystem after the three live-tree wipes of restore. -/
def wipedFS (fs0 : FS) (inp : RestoreIn) : FS :=
  safe_wipe_folder inp.locked (safe_wipe_folder inp.locked
    (safe_wipe_folder inp.locked (stagedFS fs0 inp) ADDONS []) USERDATA []) MEDIA []

/-- The move phase of an uncancelled restore run. -/
def moveOutOf (fs0 : FS) (inp : RestoreIn) : MoveOut :=
  movePhaseGo inp.moveFail (childNames (wipedFS fs0 inp) STAGING) (wipedFS fs0 inp)

lemma restore_success_out (fs0 : FS) (inp : RestoreIn)
    (hdl : inp.downloadOk = true) (hbad : inp.badFile = none)
    (hnc : ∀ k, inp.cancel k = false) :
    restore fs0 inp =
      ⟨removeFileFS (removeTreeFS (moveOutOf fs0 inp).fs STAGING) LOCALZIP,
        REvent.downloaded :: REvent.integrityOk ::
          inp.arch.map (fun z => REvent.extracted z.name) ++
          [REvent.wiped ADDONS, REvent.wiped USERDATA, REvent.wiped MEDIA] ++
          (moveOutOf fs0 inp).trace ++
          [REvent.removedStaging, REvent.removedZip,
            if (moveOutOf fs0 inp).errors.isEmpty then REvent.reportComplete
            else REvent.reportPartial (error_summary (moveOutOf fs0 inp).errors)],
        (moveOutOf fs0 inp).errors, (moveOutOf fs0 inp).attempts⟩ := by
  have hext := extractLoop_no_cancel inp.cancel inp.extractOk hnc inp.arch 0
    (removeTreeFS (addFileFS fs0 LOCALZIP []) STAGING)
  simp [restore, hdl, hbad, hext, stagedFS, wipedFS, moveOutOf]

/-- The staging child name a path sits under, when it is below staging. -/
def stagingChildOf (p : PPath) : Option String :=
  if pUnder STAGING p then (relParts STAGING p).head? else none

lemma mem_addFileFS {fs : FS} {p : PPath} {c : List Nat} {e : FileEntry}
    (he : e ∈ addFileFS fs p c) : e ∈ fs ∨ e = ⟨p, c, 0⟩ := by
  unfold addFileFS at he
  rcases List.mem_append.1 he with h | h
  · exact Or.inl (List.Sublist.mem h (List.filter_sublist _))
  · exact Or.inr (List.mem_singleton.1 h)

lemma extractFold_staging_paths (extractOk : Nat → Bool) :
    ∀ (entries : List ZipEntry) (idx : Nat) (fs : FS) (e : FileEntry),
      e ∈ extractFoldFS extractOk idx entries fs →
      e ∈ fs ∨ ∃ z ∈ entries, e.path = extractTarget z.name := by
  intro entries
  induction entries with
  | nil =>
    intro idx fs e he
    exact Or.inl he
  | cons z rest ih =>
    intro idx fs e he
    rcases ih (idx + 1) _ e he with h2 | ⟨z2, hz2, hp⟩
    · by_cases h1 : pyEndsWith z.name ("/") = true
      · rw [if_pos h1] at h2; exact Or.inl h2
      · rw [if_neg h1] at h2
        by_cases hok : extractOk idx = true
        · rw [if_pos hok] at h2
          rcases mem_addFileFS h2 with h3 | h3
          · exact Or.inl h3
          · exact Or.inr ⟨z, List.mem_cons_self _ _, by rw [h3]⟩
        · rw [if_neg hok] at h2; exact Or.inl h2
    · exact Or.inr ⟨z2, List.mem_cons_of_mem _ hz2, hp⟩

lemma mem_childNames {fs : FS} {root : PPath} {c : String}
    (h : c ∈ childNames fs root) :
    ∃ e ∈ fs, pUnder root e.path = true ∧ (relParts root e.path).head? = some c := by
  unfold childNames at h
  have h2 := mem_dedup.1 h
  obtain ⟨e, he, hfe⟩ := List.mem_filterMap.1 h2
  by_cases hu : pUnder root e.path = true
  · rw [if_pos hu] at hfe
    exact ⟨e, he, hu, hfe⟩
  · rw [if_neg hu] at hfe
    cases hfe

lemma staging_children_not_temp (fs0 : FS) (inp : RestoreIn)
    (hsafe : ∀ z ∈ inp.arch, ¬ stagingChildOf (extractTarget z.name) = some (("temp"))) :
    ∀ c ∈ childNames (wipedFS fs0 inp) STAGING, ¬ c = ("temp") := by
  intro c hc
  obtain ⟨e, he, hu, hhead⟩ := mem_childNames hc
  have he2 : e ∈ stagedFS fs0 inp := by
    unfold wipedFS safe_wipe_folder at he
    exact List.Sublist.mem (List.Sublist.mem (List.Sublist.mem he
      (List.filter_sublist _)) (List.filter_sublist _)) (List.filter_sublist _)
  rcases extractFold_staging_paths inp.extractOk inp.arch 0 _ e he2 with h2 | ⟨z, hz, hp⟩
  · have h3 := (List.mem_filter.1 h2).2
    rw [hu] at h3
    cases h3
  · have h4 : stagingChildOf (extractTarget z.name) = some c := by
      rw [← hp]
      unfold stagingChildOf
      rw [if_pos hu, hhead]
    intro hcc
    rw [hcc] at h4
    exact hsafe z hz h4

/-- The error string a failing move records for an attempted pair. -/
def moveErrMsg (mf : PPath → Option String) (sd : PPath × PPath) : Option String :=
  (mf sd.1).map (fun cause => baseName sd.1 ++ (": ") ++ cause)

lemma movePairs_attempts (mf : PPath → Option String) :
    ∀ (prs : List (PPath × PPath)) (fs : FS),
      (movePairs mf fs prs).attempts = prs := by
  intro prs
  induction prs with
  | nil => intro fs; rfl
  | cons sd rest ih =>
    intro fs
    obtain ⟨s, d⟩ := sd
    simp only [movePairs, ih]

lemma movePairs_errors (mf : PPath → Option String) :
    ∀ (prs : List (PPath × PPath)) (fs : FS),
      (movePairs mf fs prs).errors = prs.filterMap (moveErrMsg mf) := by
  intro prs
  induction prs with
  | nil => intro fs; rfl
  | cons sd rest ih =>
    intro fs
    obtain ⟨s, d⟩ := sd
    simp only [movePairs]
    cases hm : mf s with
    | some cause =>
      have h22 : (_safe_move mf fs s d).2.2 = some (baseName s ++ (": ") ++ cause) := by
        unfold _safe_move; rw [hm]
      simp only [h22, List.filterMap_cons, moveErrMsg, hm, Option.map_some']
      rw [ih]
    | none =>
      have h22 : (_safe_move mf fs s d).2.2 = none := by
        unfold _safe_move; rw [hm]
      simp only [h22, List.filterMap_cons, moveErrMsg, hm, Option.map_none']
      rw [ih]

lemma movePairs_moved (mf : PPath → Option String) :
    ∀ (prs : List (PPath × PPath)) (fs : FS) (sd : PPath × PPath),
      sd ∈ prs → mf sd.1 = none →
      REvent.moved sd.1 sd.2 ∈ (movePairs mf fs prs).trace := by
  intro prs
  induction prs with
  | nil =>
    intro fs sd hsd _
    cases hsd
  | cons p rest ih =>
    intro fs sd hsd hnone
    obtain ⟨s, d⟩ := p
    simp only [movePairs]
    rcases List.mem_cons.1 hsd with rfl | h2
    · have hnone2 : mf s = none := hnone
      have hm21 : (_safe_move mf fs s d).2.1 = REvent.moved s d := by
        unfold _safe_move; rw [hnone2]
      rw [hm21]
      exact List.mem_cons_self _ _
    · exact List.mem_cons_of_mem _ (ih _ sd h2 hnone)

lemma movePhaseGo_errors (mf : PPath → Option String) :
    ∀ (cs : List String) (fs : FS),
      (movePhaseGo mf cs fs).errors =
        (movePhaseGo mf cs fs).attempts.filterMap (moveErrMsg mf) := by
  intro cs
  induction cs with
  | nil => intro fs; rfl
  | cons c rest ih =>
    intro fs
    cases hsm : stagingMapLookup c with
    | none =>
      simp only [movePhaseGo, hsm, List.filterMap_append]
      cases hm : mf (pChild STAGING c) with
      | some cause =>
        have h22 : (_safe_move mf fs (pChild STAGING c) (pChild HOME c)).2.2 =
            some (baseName (pChild STAGING c) ++ (": ") ++ cause) := by
          unfold _safe_move; rw [hm]
        simp only [h22, List.filterMap_cons, List.filterMap_nil, moveErrMsg, hm,
          Option.map_some']
        rw [ih]
      | none =>
        have h22 : (_safe_move mf fs (pChild STAGING c) (pChild HOME c)).2.2 =
            none := by
          unfold _safe_move; rw [hm]
        simp only [h22, List.filterMap_cons, List.filterMap_nil, moveErrMsg, hm,
          Option.map_none']
        rw [ih]
    | some root =>
      by_cases hd : isDirIn fs (pChild STAGING c) = true
      · simp only [movePhaseGo, hsm, hd, if_true, List.filterMap_append]
        rw [movePairs_errors, movePairs_attempts, ih]
      · have hd2 : isDirIn fs (pChild STAGING c) = false := by
          revert hd; cases isDirIn fs (pChild STAGING c) <;> simp
        simp only [movePhaseGo, hsm, hd2, Bool.false_eq_true, if_false,
          List.filterMap_append]
        cases hm : mf (pChild STAGING c) with
        | some cause =>
          have h22 : (_safe_move mf fs (pChild STAGING c) (pChild root c)).2.2 =
              some (baseName (pChild STAGING c) ++ (": ") ++ cause) := by
            unfold _safe_move; rw [hm]
          simp only [h22, List.filterMap_cons, List.filterMap_nil, moveErrMsg, hm,
            Option.map_some']
          rw [ih]
        | none =>
          have h22 : (_safe_move mf fs (pChild STAGING c) (pChild root c)).2.2 =
              none := by
            unfold _safe_move; rw [hm]
          simp only [h22, List.filterMap_cons, List.filterMap_nil, moveErrMsg, hm,
            Option.map_none']
          rw [ih]

lemma movePhaseGo_moved (mf : PPath → Option String) :
    ∀ (cs : List String) (fs : FS) (sd : PPath × PPath),
      sd ∈ (movePhaseGo mf cs fs).attempts → mf sd.1 = none →
      REvent.moved sd.1 sd.2 ∈ (movePhaseGo mf cs fs).trace := by
  intro cs
  induction cs with
  | nil =>
    intro fs sd hsd _
    cases hsd
  | cons c rest ih =>
    intro fs sd hsd hnone
    cases hsm : stagingMapLookup c with
    | none =>
      simp only [movePhaseGo, hsm, List.mem_append] at hsd ⊢
      rcases hsd with h2 | h2
      · left
        have hrfl := List.mem_singleton.1 h2
        subst hrfl
        have hnone2 : mf (pChild STAGING c) = none := hnone
        have hm21 : (_safe_move mf fs (pChild STAGING c) (pChild HOME c)).2.1 =
            REvent.moved (pChild STAGING c) (pChild HOME c) := by
          unfold _safe_move; rw [hnone2]
        rw [hm21]
        exact List.mem_singleton.2 rfl
      · right
        exact ih _ sd h2 hnone
    | some root =>
      by_cases hd : isDirIn fs (pChild STAGING c) = true
      · simp only [movePhaseGo, hsm, hd, if_true, List.mem_append] at hsd ⊢
        rcases hsd with h2 | h2
        · left
          rw [movePairs_attempts] at h2
          exact movePairs_moved mf _ fs sd h2 hnone
        · right
          exact ih _ sd h2 hnone
      · have hd2 : isDirIn fs (pChild STAGING c) = false := by
          revert hd; cases isDirIn fs (pChild STAGING c) <;> simp
        simp only [movePhaseGo, hsm, hd2, Bool.false_eq_true, if_false,
          List.mem_append] at hsd ⊢
        rcases hsd with h2 | h2
        · left
          have hrfl := List.mem_singleton.1 h2
          subst hrfl
          have hnone2 : mf (pChild STAGING c) = none := hnone
          have hm21 : (_safe_move mf fs (pChild STAGING c) (pChild root c)).2.1 =
              REvent.moved (pChild STAGING c) (pChild root c) := by
            unfold _safe_move; rw [hnone2]
          rw [hm21]
          exact List.mem_singleton.2 rfl
        · right
          exact ih _ sd h2 hnone

lemma stagingMapLookup_roots {c : String} {root : PPath}
    (h : stagingMapLookup c = some root) :
    root = ADDONS ∨ root = USERDATA ∨ root = MEDIA := by
  unfold stagingMapLookup at h
  by_cases h1 : (c == ("addons")) = true
  · rw [if_pos h1] at h; injection h with h2; exact Or.inl h2.symm
  · rw [if_neg h1] at h
    by_cases h2 : (c == ("userdata")) = true
    · rw [if_pos h2] at h; injection h with h3; exact Or.inr (Or.inl h3.symm)
    · rw [if_neg h2] at h
      by_cases h3 : (c == ("media")) = true
      · rw [if_pos h3] at h; injection h with h4; exact Or.inr (Or.inr h4.symm)
      · rw [if_neg h3] at h; cases h

lemma root_not_staging {root : PPath}
    (hroot : root = ADDONS ∨ root = USERDATA ∨ root = MEDIA) (p : PPath)
    (h : pUnder root p = true) : pUnder STAGING p = false := by
  rcases hroot with rfl | rfl | rfl
  · exact addons_staging p h
  · exact userdata_staging p h
  · exact media_staging p h

lemma view_src_deep {c c2 : String} (hne : ¬ c2 = c) (s : String) (x : PPath)
    (hx : pUnder (pChild STAGING c2) x = true) :
    pUnder (pChild (pChild STAGING c) s) x = false := by
  cases hq : pUnder (pChild (pChild STAGING c) s) x
  · rfl
  · have h2 := pUnder_mono (pChild STAGING c) s x hq
    rw [pUnder_pChild_ne STAGING hne x hx] at h2
    cases h2

lemma view_dst_home {c c2 : String} (hc : ¬ c = ("temp")) (p : PPath)
    (hp : pUnder (pChild HOME c) p = true) :
    pUnder (pChild STAGING c2) p = false := by
  cases hv : pUnder (pChild STAGING c2) p
  · rfl
  · exfalso
    have h1 : pUnder STAGING p = true := pUnder_mono STAGING c2 p hv
    rw [staging_eq] at h1
    obtain ⟨_, rest, hparts⟩ := pUnder_head h1
    have h3 : pUnder (⟨false, c :: []⟩ : PPath) p = true := hp
    obtain ⟨_, rest2, hparts2⟩ := pUnder_head h3
    rw [hparts] at hparts2
    injection hparts2 with h4 _
    exact hc h4.symm

lemma view_dst_root {root : PPath}
    (hroot : root = ADDONS ∨ root = USERDATA ∨ root = MEDIA) (s c2 : String)
    (p : PPath) (hp : pUnder (pChild root s) p = true) :
    pUnder (pChild STAGING c2) p = false := by
  cases hv : pUnder (pChild STAGING c2) p
  · rfl
  · exfalso
    have h1 := pUnder_mono STAGING c2 p hv
    have h2 := pUnder_mono root s p hp
    rw [root_not_staging hroot p h2] at h1
    cases h1

lemma movePhaseGo_attempts_congr (mf1 mf2 : PPath → Option String) :
    ∀ (cs : List String) (fs1 fs2 : FS),
      cs.Nodup →
      (∀ c ∈ cs, ¬ c = ("temp")) →
      (∀ c ∈ cs, filesUnder fs1 (pChild STAGING c) = filesUnder fs2 (pChild STAGING c)) →
      (movePhaseGo mf1 cs fs1).attempts = (movePhaseGo mf2 cs fs2).attempts := by
  intro cs
  induction cs with
  | nil => intro fs1 fs2 _ _ _; rfl
  | cons c rest ih =>
    intro fs1 fs2 hnd htemp hview
    have hvc := hview c (List.mem_cons_self _ _)
    have hctemp := htemp c (List.mem_cons_self _ _)
    have hndrest := (List.nodup_cons.1 hnd).2
    have hne : ∀ c2 ∈ rest, ¬ c2 = c := by
      intro c2 hc2 heq
      exact (List.nodup_cons.1 hnd).1 (heq ▸ hc2)
    cases hsm : stagingMapLookup c with
    | none =>
      simp only [movePhaseGo, hsm]
      congr 1
      apply ih
      · exact hndrest
      · exact fun c2 h => htemp c2 (List.mem_cons_of_mem _ h)
      · intro c2 hc2
        have hp1 : filesUnder
            (_safe_move mf1 fs1 (pChild STAGING c) (pChild HOME c)).1
            (pChild STAGING c2) = filesUnder fs1 (pChild STAGING c2) :=
          safe_move_preserves _ _ _ _ _
            (fun x hx => pUnder_pChild_ne STAGING (hne c2 hc2) x hx)
            (fun p hp => view_dst_home hctemp p hp)
        have hp2 : filesUnder
            (_safe_move mf2 fs2 (pChild STAGING c) (pChild HOME c)).1
            (pChild STAGING c2) = filesUnder fs2 (pChild STAGING c2) :=
          safe_move_preserves _ _ _ _ _
            (fun x hx => pUnder_pChild_ne STAGING (hne c2 hc2) x hx)
            (fun p hp => view_dst_home hctemp p hp)
        rw [hp1, hp2, hview c2 (List.mem_cons_of_mem _ hc2)]
    | some root =>
      have hroot := stagingMapLookup_roots hsm
      have hcn : childNames fs1 (pChild STAGING c) = childNames fs2 (pChild STAGING c) :=
        childNames_congr _ hvc
      by_cases hd : isDirIn fs1 (pChild STAGING c) = true
      · have hd2 : isDirIn fs2 (pChild STAGING c) = true := by
          rw [← isDirIn_congr _ hvc]; exact hd
        simp only [movePhaseGo, hsm, hd, hd2, if_true]
        have hpairsafe : ∀ (fsx : FS) (mfx : PPath → Option String) (c2 : String),
            c2 ∈ rest →
            filesUnder (movePairs mfx fsx ((childNames fsx (pChild STAGING c)).map
              (fun s => (pChild (pChild STAGING c) s, pChild root s)))).fs
              (pChild STAGING c2) = filesUnder fsx (pChild STAGING c2) := by
          intro fsx mfx c2 hc2
          apply movePairs_preserves
          · intro sd hsd x hx
            obtain ⟨s, _, hsd2⟩ := List.mem_map.1 hsd
            rw [← hsd2]
            exact view_src_deep (hne c2 hc2) s x hx
          · intro sd hsd p hp
            obtain ⟨s, _, hsd2⟩ := List.mem_map.1 hsd
            rw [← hsd2] at hp
            exact view_dst_root hroot s c2 p hp
        congr 1
        · rw [movePairs_attempts, movePairs_attempts, hcn]
        · apply ih
          · exact hndrest
          · exact fun c2 h => htemp c2 (List.mem_cons_of_mem _ h)
          · intro c2 hc2
            rw [hpairsafe fs1 mf1 c2 hc2, hpairsafe fs2 mf2 c2 hc2,
              hview c2 (List.mem_cons_of_mem _ hc2)]
      · have hdf1 : isDirIn fs1 (pChild STAGING c) = false := by
          revert hd; cases isDirIn fs1 (pChild STAGING c) <;> simp
        have hdf2 : isDirIn fs2 (pChild STAGING c) = false := by
          rw [← isDirIn_congr _ hvc]; exact hdf1
        simp only [movePhaseGo, hsm, hdf1, hdf2, Bool.false_eq_true, if_false]
        congr 1
        apply ih
        · exact hndrest
        · exact fun c2 h => htemp c2 (List.mem_cons_of_mem _ h)
        · intro c2 hc2
          have hp1 : filesUnder
              (_safe_move mf1 fs1 (pChild STAGING c) (pChild root c)).1
              (pChild STAGING c2) = filesUnder fs1 (pChild STAGING c2) :=
            safe_move_preserves _ _ _ _ _
              (fun x hx => pUnder_pChild_ne STAGING (hne c2 hc2) x hx)
              (fun p hp => view_dst_root hroot c c2 p hp)
          have hp2 : filesUnder
              (_safe_move mf2 fs2 (pChild STAGING c) (pChild root c)).1
              (pChild STAGING c2) = filesUnder fs2 (pChild STAGING c2) :=
            safe_move_preserves _ _ _ _ _
              (fun x hx => pUnder_pChild_ne STAGING (hne c2 hc2) x hx)
              (fun p hp => view_dst_root hroot c c2 p hp)
          rw [hp1, hp2, hview c2 (List.mem_cons_of_mem _ hc2)]

/-- C5: in the move-into-place phase of an uncancelled restore (with no
top-level staged item named temp, which would make a move delete the
staging area itself), every move failure is recorded individually as the
string src.name: cause without stopping the phase: the recorded errors are
exactly the failing attempts in order, every attempted move whose oracle
does not fail produces its move event, the attempted (source, destination)
list does not depend on which moves fail, a non-empty error list is
surfaced through the partial-failure report built by error_summary, and
when more than eight errors were recorded that summary is the first eight
joined by newlines plus the count of the remaining ones. -/
theorem claim_C5 (fs0 : FS) (inp : RestoreIn)
    (hdl : inp.downloadOk = true) (hbad : inp.badFile = none)
    (hnc : ∀ k, inp.cancel k = false)
    (hsafe : ∀ z ∈ inp.arch, ¬ stagingChildOf (extractTarget z.name) = some (("temp"))) :
    (restore fs0 inp).moveErrors =
      (restore fs0 inp).attempts.filterMap (moveErrMsg inp.moveFail) ∧
    (∀ sd ∈ (restore fs0 inp).attempts, inp.moveFail sd.1 = none →
      REvent.moved sd.1 sd.2 ∈ (restore fs0 inp).trace) ∧
    (restore fs0 inp).attempts =
      (restore fs0 { inp with moveFail := fun _ => none }).attempts ∧
    ((restore fs0 inp).moveErrors ≠ [] →
      REvent.reportPartial (error_summary (restore fs0 inp).moveErrors) ∈
        (restore fs0 inp).trace) ∧
    (8 < (restore fs0 inp).moveErrors.length →
      error_summary (restore fs0 inp).moveErrors =
        joinWith ("\n") ((restore fs0 inp).moveErrors.take 8) ++ ("\n...and ") ++
          toString ((restore fs0 inp).moveErrors.length - 8) ++
          (" more (see kodi.log)")) := by
  have hout := restore_success_out fs0 inp hdl hbad hnc
  refine ⟨?_, ?_, ?_, ?_, ?_⟩
  · rw [hout]
    exact movePhaseGo_errors inp.moveFail _ _
  · intro sd hsd hnone
    rw [hout] at hsd ⊢
    have hmv := movePhaseGo_moved inp.moveFail _ _ sd hsd hnone
    apply List.mem_append.2
    left
    apply List.mem_append.2
    right
    exact hmv
  · rw [hout, restore_success_out fs0 { inp with moveFail := fun _ => none } hdl hbad hnc]
    show (moveOutOf fs0 inp).attempts =
      (moveOutOf fs0 { inp with moveFail := fun _ => none }).attempts
    have hw : wipedFS fs0 { inp with moveFail := fun _ => none } = wipedFS fs0 inp := rfl
    unfold moveOutOf
    rw [hw]
    apply movePhaseGo_attempts_congr
    · exact dedup_nodup _
    · exact staging_children_not_temp fs0 inp hsafe
    · intro c _
      rfl
  · intro hne
    have hne2 : (moveOutOf fs0 inp).errors ≠ [] := by
      rw [hout] at hne
      exact hne
    have hemp : (moveOutOf fs0 inp).errors.isEmpty = false := by
      cases hl : (moveOutOf fs0 inp).errors with
      | nil => exact absurd hl hne2
      | cons a l => rfl
    rw [hout]
    apply List.mem_append.2
    right
    simp [hemp]
  · intro hlen
    rw [hout] at hlen ⊢
    simp only [error_summary]
    rw [if_pos hlen]

/-- C5 witness archive: two addon files. -/
def c5arch : List ZipEntry := [⟨("addons/a.txt"), [1]⟩, ⟨("addons/b.txt"), [2]⟩]

/-- C5 witness move-failure oracle: moving the staged a.txt fails. -/
def c5mf : PPath → Option String := fun p =>
  if p == (⟨false, [("temp"), ("restore_staging"), ("addons"), ("a.txt")]⟩ : PPath)
  then some ("Permission denied") else none

/-- C5 witness inputs. -/
def c5in : RestoreIn :=
  ⟨c5arch, true, none, fun _ => false, fun _ => true, fun _ => false, c5mf⟩

/-- Witness for C5 at a concrete run with one failing move. -/
theorem claim_C5_witness :
    (restore [] c5in).moveErrors =
      (restore [] c5in).attempts.filterMap (moveErrMsg c5in.moveFail) ∧
    (restore [] c5in).attempts =
      (restore [] { c5in with moveFail := fun _ => none }).attempts :=
  ⟨(claim_C5 [] c5in rfl rfl (fun _ => rfl) (by decide)).1,
    (claim_C5 [] c5in rfl rfl (fun _ => rfl) (by decide)).2.2.1⟩

/-- A directory-entry name that pathlib parsing keeps literally: nonempty,
not the single dot, and free of slashes; ".." is kept literally, since
pathlib pure paths do not resolve it. -/
def validName (s : String) : Bool :=
  !(s == ("")) && !(s == (".")) && noSlash s.data

lemma noSlash_mem : ∀ {l : List Char}, noSlash l = true →
    ∀ c ∈ l, (c == '/') = false := by
  intro l
  induction l with
  | nil =>
    intro _ c hc
    cases hc
  | cons a t ih =>
    intro h c hc
    rw [show noSlash (a :: t) = (!(a == '/') && noSlash t) from rfl,
      Bool.and_eq_true, Bool.not_eq_true'] at h
    rcases List.mem_cons.1 hc with rfl | hc2
    · exact h.1
    · exact ih h.2 c hc2

lemma splitSlashAux_noslash (a : List Char) (ha : noSlash a = true) :
    ∀ acc, splitSlashAux a acc = [String.mk (acc.reverse ++ a)] := by
  induction a with
  | nil =>
    intro acc
    simp [splitSlashAux]
  | cons c cs ih =>
    intro acc
    rw [show noSlash (c :: cs) = (!(c == '/') && noSlash cs) from rfl,
      Bool.and_eq_true, Bool.not_eq_true'] at ha
    rw [show splitSlashAux (c :: cs) acc =
      (if c == '/' then String.mk acc.reverse :: splitSlashAux cs []
       else splitSlashAux cs (c :: acc)) from rfl, ha.1]
    simp only [Bool.false_eq_true, if_false]
    rw [ih ha.2 (c :: acc)]
    have h2 : (c :: acc).reverse ++ cs = acc.reverse ++ c :: cs := by simp
    rw [h2]

lemma splitSlashAux_noslash_append (a : List Char) (ha : noSlash a = true) :
    ∀ (acc r : List Char),
      splitSlashAux (a ++ '/' :: r) acc =
        String.mk (acc.reverse ++ a) :: splitSlashAux r [] := by
  induction a with
  | nil =>
    intro acc r
    simp [splitSlashAux]
  | cons c cs ih =>
    intro acc r
    rw [show noSlash (c :: cs) = (!(c == '/') && noSlash cs) from rfl,
      Bool.and_eq_true, Bool.not_eq_true'] at ha
    rw [show splitSlashAux ((c :: cs) ++ '/' :: r) acc =
      (if c == '/' then String.mk acc.reverse :: splitSlashAux (cs ++ '/' :: r) []
       else splitSlashAux (cs ++ '/' :: r) (c :: acc)) from rfl, ha.1]
    simp only [Bool.false_eq_true, if_false]
    rw [ih ha.2 (c :: acc) r]
    have h2 : (c :: acc).reverse ++ cs = acc.reverse ++ c :: cs := by simp
    rw [h2]

lemma joinWith_data_cons (x y : String) (ys : List String) :
    (joinWith ("/") (x :: y :: ys)).data =
      x.data ++ '/' :: (joinWith ("/") (y :: ys)).data := by
  show (x ++ ("/") ++ joinWith ("/") (y :: ys)).data = _
  have h : (("/") : String).data = ['/'] := rfl
  rw [String.data_append, String.data_append, h, List.append_assoc]
  rfl

lemma validName_parts {s : String} (h : validName s = true) :
    (s == ("")) = false ∧ (s == (".")) = false ∧ noSlash s.data = true := by
  unfold validName at h
  rw [Bool.and_eq_true, Bool.and_eq_true, Bool.not_eq_true', Bool.not_eq_true'] at h
  exact ⟨h.1.1, h.1.2, h.2⟩

lemma splitSlash_joinWith :
    ∀ (l : List String), ¬ l = [] → (∀ s ∈ l, validName s = true) →
      splitSlash (joinWith ("/") l) = l := by
  intro l
  induction l with
  | nil =>
    intro h _
    exact absurd rfl h
  | cons x xs ih =>
    intro _ hv
    have hns := (validName_parts (hv x (List.mem_cons_self _ _))).2.2
    cases xs with
    | nil =>
      show splitSlashAux (joinWith ("/") [x]).data [] = [x]
      rw [show joinWith ("/") [x] = x from rfl, splitSlashAux_noslash x.data hns []]
      have h3 : ([] : List Char).reverse ++ x.data = x.data := by simp
      rw [h3, mk_data]
    | cons y ys =>
      show splitSlashAux (joinWith ("/") (x :: y :: ys)).data [] = x :: y :: ys
      rw [joinWith_data_cons x y ys, splitSlashAux_noslash_append x.data hns [] _]
      have h2 : splitSlashAux (joinWith ("/") (y :: ys)).data [] = y :: ys :=
        ih (by simp) (fun s hs => hv s (List.mem_cons_of_mem _ hs))
      rw [h2]
      have h3 : ([] : List Char).reverse ++ x.data = x.data := by simp
      rw [h3, mk_data]

lemma data_ne_nil {s : String} (h : (s == ("")) = false) : ¬ s.data = [] := by
  intro h0
  have h1 : s = ("") := by
    rw [← mk_data s, h0]
  rw [h1] at h
  simp at h

lemma isAbs_joinWith (l : List String) (hl : ¬ l = [])
    (hv : ∀ s ∈ l, validName s = true) :
    isAbs (joinWith ("/") l) = false := by
  cases l with
  | nil => exact absurd rfl hl
  | cons x xs =>
    obtain ⟨hne, _, hns⟩ := validName_parts (hv x (List.mem_cons_self _ _))
    cases hd : x.data with
    | nil => exact absurd hd (data_ne_nil hne)
    | cons c cr =>
      have hcs : (c == '/') = false :=
        noSlash_mem hns c (by rw [hd]; exact List.mem_cons_self _ _)
      cases xs with
      | nil =>
        show isAbs x = false
        unfold isAbs
        rw [hd]
        exact hcs
      | cons y ys =>
        unfold isAbs
        rw [joinWith_data_cons x y ys, hd]
        exact hcs

lemma parseP_joinWith (l : List String) (hl : ¬ l = [])
    (hv : ∀ s ∈ l, validName s = true) :
    parseP (joinWith ("/") l) = ⟨false, l⟩ := by
  unfold parseP
  rw [splitSlash_joinWith l hl hv, isAbs_joinWith l hl hv]
  congr 1
  apply List.filter_eq_self.2
  intro s hs
  obtain ⟨h1, h2, _⟩ := validName_parts (hv s hs)
  rw [Bool.and_eq_true, Bool.not_eq_true', Bool.not_eq_true']
  exact ⟨h1, h2⟩

lemma splitSlash_media_pre (m : String) (h : pyStartsWith m ("media/") = true) :
    splitSlash m = ("media") :: splitSlash (pyDrop m 6) := by
  have hdata := pyStartsWith_media m h
  unfold splitSlash
  rw [hdata]
  simp [splitSlashAux_media, pyDrop]

lemma not_media_pre (x : String) (xs : List String) (hx : ¬ x = ("media"))
    (hv : ∀ s ∈ x :: xs, validName s = true) :
    pyStartsWith (joinWith ("/") (x :: xs)) ("media/") = false := by
  cases hb : pyStartsWith (joinWith ("/") (x :: xs)) ("media/") with
  | false => rfl
  | true =>
    exfalso
    have hsp := splitSlash_media_pre _ hb
    rw [splitSlash_joinWith (x :: xs) (by simp) hv] at hsp
    injection hsp with h1 _
    exact hx h1

lemma extractTarget_arcname (p : PPath) (habs : p.abs = false)
    (hl : ¬ p.parts = []) (hv : ∀ s ∈ p.parts, validName s = true) :
    extractTarget (get_zip_arcname p) = ⟨false, STAGING.parts ++ p.parts⟩ := by
  have harc : get_zip_arcname p = joinWith ("/") p.parts := by
    unfold get_zip_arcname
    rw [habs]
    simp
  rw [harc]
  cases hpp : p.parts with
  | nil => exact absurd hpp hl
  | cons x xs =>
    rw [hpp] at hv
    by_cases hx : x = ("media")
    · subst hx
      cases xs with
      | nil => decide
      | cons y ys =>
        have hpre : pyStartsWith (joinWith ("/") (("media") :: y :: ys))
            ("media/") = true := by
          unfold pyStartsWith
          rw [List.isPrefixOf_iff_prefix, joinWith_data_cons]
          exact ⟨(joinWith ("/") (y :: ys)).data, rfl⟩
        have hdrop : pyDrop (joinWith ("/") (("media") :: y :: ys)) 6 =
            joinWith ("/") (y :: ys) := by
          unfold pyDrop
          rw [joinWith_data_cons]
          exact mk_data _
        simp only [extractTarget, hpre, if_true, mediaBranchTarget]
        rw [hdrop]
        have hys : parseP (joinWith ("/") (y :: ys)) = ⟨false, y :: ys⟩ :=
          parseP_joinWith _ (by simp) (fun s hs => hv s (List.mem_cons_of_mem _ hs))
        have hsm : joinP STAGING ("media") =
            ⟨false, [("temp"), ("restore_staging"), ("media")]⟩ := by decide
        rw [hsm]
        rcases joinP_cases ⟨false, [("temp"), ("restore_staging"), ("media")]⟩
            (joinWith ("/") (y :: ys)) with ⟨ha, _⟩ | ⟨_, he⟩
        · rw [hys] at ha
          cases ha
        · rw [he, hys, staging_eq]
          simp
    · have hps := not_media_pre x xs hx hv
      simp only [extractTarget, hps, Bool.false_eq_true, if_false, plainBranchTarget]
      rcases joinP_cases STAGING (joinWith ("/") (x :: xs)) with ⟨ha, _⟩ | ⟨_, he⟩
      · rw [parseP_joinWith _ (by simp) hv] at ha
        cases ha
      · rw [he, parseP_joinWith _ (by simp) hv, staging_eq]

lemma joinWith_data_last (l : List String) (hl : ¬ l = [])
    (hv : ∀ s ∈ l, validName s = true) :
    ∃ c cs, (joinWith ("/") l).data = cs ++ [c] ∧ (c == '/') = false := by
  induction l with
  | nil => exact absurd rfl hl
  | cons x xs ih =>
    obtain ⟨hne, _, hns⟩ := validName_parts (hv x (List.mem_cons_self _ _))
    cases xs with
    | nil =>
      rcases List.eq_nil_or_concat x.data with h0 | ⟨cs, c, hcc⟩
      · exact absurd h0 (data_ne_nil hne)
      · rw [List.concat_eq_append] at hcc
        refine ⟨c, cs, hcc, ?_⟩
        exact noSlash_mem hns c (by rw [hcc]; simp)
    | cons y ys =>
      obtain ⟨c, cs, hdata, hc⟩ :=
        ih (by simp) (fun s hs => hv s (List.mem_cons_of_mem _ hs))
      refine ⟨c, x.data ++ '/' :: cs, ?_, hc⟩
      rw [joinWith_data_cons, hdata]
      simp

lemma arcname_no_marker (l : List String) (hl : ¬ l = [])
    (hv : ∀ s ∈ l, validName s = true) :
    pyEndsWith (joinWith ("/") l) ("/") = false := by
  obtain ⟨c, cs, hdata, hc⟩ := joinWith_data_last l hl hv
  cases hb : pyEndsWith (joinWith ("/") l) ("/") with
  | false => rfl
  | true =>
    exfalso
    unfold pyEndsWith at hb
    rw [hdata, List.isSuffixOf_iff_suffix] at hb
    obtain ⟨t, ht⟩ := hb
    have h1 : (t ++ (("/") : String).data).getLast? = some '/' := by
      rw [show (("/") : String).data = ['/'] from rfl]
      exact List.getLast?_concat t
    rw [ht, List.getLast?_concat] at h1
    injection h1 with h2
    rw [← h2] at hc
    simp at hc

/-- The three walks' file test of backup, as one predicate: the file is
stored by the addons walk, the userdata walk (with the database exclusion)
or the media walk. -/
def eligAny (e : FileEntry) : Bool :=
  writeEligible ADDONS false e || writeEligible USERDATA true e ||
    writeEligible MEDIA false e

/-- Two paths lie strictly apart: neither is at or below the other. -/
def sepPaths (p q : PPath) : Bool := !(pUnder p q) && !(pUnder q p)

/-- Wellformed file of a source tree: a relative path with literal
component names that does not sit exactly at a live root. -/
def wfEntry (e : FileEntry) : Bool :=
  (e.path.abs == false) && !(e.path.parts == ([] : List String)) &&
    e.path.parts.all validName && !(e.path == ADDONS) &&
    !(e.path == USERDATA) && !(e.path == MEDIA)

/-- Wellformed source tree: every file wellformed, and no two files equal
or nested (on a real filesystem a file cannot also be a directory). -/
def wfFS (fs : FS) : Prop :=
  (∀ e ∈ fs, wfEntry e = true) ∧
    List.Pairwise (fun e1 e2 => sepPaths e1.path e2.path = true) fs

instance (fs : FS) : Decidable (wfFS fs) :=
  inferInstanceAs (Decidable ((∀ e ∈ fs, wfEntry e = true) ∧
    List.Pairwise (fun (e1 e2 : FileEntry) => sepPaths e1.path e2.path = true) fs))

/-- The tree holds a file at path p with content c. -/
def hasFile (fs : FS) (p : PPath) (c : List Nat) : Bool :=
  fs.any (fun e => e.path == p && e.content == c)

/-- The source files the three backup walks store, in walk order. -/
def eligibleEntries (fs : FS) : FS :=
  fs.filter (writeEligible ADDONS false) ++ fs.filter (writeEligible USERDATA true) ++
    fs.filter (writeEligible MEDIA false)

/-- The staging copies extraction creates for the archive's file entries. -/
def stagedOf (fs : FS) : FS :=
  (backupFileEntries fs).map (fun z => ⟨extractTarget z.name, z.data, 0⟩)

lemma wfEntry_parts {e : FileEntry} (h : wfEntry e = true) :
    e.path.abs = false ∧ ¬ e.path.parts = [] ∧
      (∀ s ∈ e.path.parts, validName s = true) ∧
      ¬ e.path = ADDONS ∧ ¬ e.path = USERDATA ∧ ¬ e.path = MEDIA := by
  unfold wfEntry at h
  simp only [Bool.and_eq_true, Bool.not_eq_true', beq_iff_eq, beq_eq_false_iff_ne,
    List.all_eq_true] at h
  obtain ⟨⟨⟨⟨⟨h1, h2⟩, h3⟩, h4⟩, h5⟩, h6⟩ := h
  exact ⟨h1, h2, h3, h4, h5, h6⟩

lemma isPre_refl (l : List String) : isPre l l = true :=
  (isPre_iff l l).2 (List.prefix_refl l)

lemma pUnder_refl (p : PPath) : pUnder p p = true := by
  unfold pUnder
  simp [isPre_refl]

lemma wf_paths_nodup {fs : FS} (hwf : wfFS fs) :
    (fs.map (fun e => e.path)).Nodup := by
  refine List.Pairwise.map _ ?_ hwf.2
  intro a b hab
  unfold sepPaths at hab
  rw [Bool.and_eq_true, Bool.not_eq_true', Bool.not_eq_true'] at hab
  intro heq
  rw [heq, pUnder_refl] at hab
  exact Bool.noConfusion hab.1

lemma arcname_target {e : FileEntry} (hwf : wfEntry e = true) :
    extractTarget (get_zip_arcname e.path) = ⟨false, STAGING.parts ++ e.path.parts⟩ := by
  obtain ⟨h1, h2, h3, _⟩ := wfEntry_parts hwf
  exact extractTarget_arcname e.path h1 h2 h3

lemma arcname_marker_free {e : FileEntry} (hwf : wfEntry e = true) :
    pyEndsWith (get_zip_arcname e.path) ("/") = false := by
  obtain ⟨h1, h2, h3, _⟩ := wfEntry_parts hwf
  have harc : get_zip_arcname e.path = joinWith ("/") e.path.parts := by
    unfold get_zip_arcname
    rw [h1]
    simp
  rw [harc]
  exact arcname_no_marker _ h2 h3

lemma mem_add_folder {fs : FS} {folder : PPath} {exdb : Bool} {z : ZipEntry}
    (h : z ∈ add_folder_to_zip fs folder exdb) :
    ∃ e ∈ fs, writeEligible folder exdb e = true ∧
      z = ⟨get_zip_arcname e.path, e.content⟩ := by
  unfold add_folder_to_zip at h
  obtain ⟨e, hef, hz⟩ := List.mem_map.1 h
  obtain ⟨he, helig⟩ := List.mem_filter.1 hef
  exact ⟨e, he, helig, hz.symm⟩

lemma mem_backupFileEntries {fs : FS} {z : ZipEntry}
    (h : z ∈ backupFileEntries fs) :
    ∃ e ∈ fs, eligAny e = true ∧ z = ⟨get_zip_arcname e.path, e.content⟩ := by
  unfold backupFileEntries at h
  rcases List.mem_append.1 h with h12 | h3
  · rcases List.mem_append.1 h12 with h1 | h2
    · obtain ⟨e, he, helig, hz⟩ := mem_add_folder h1
      exact ⟨e, he, by simp [eligAny, helig], hz⟩
    · obtain ⟨e, he, helig, hz⟩ := mem_add_folder h2
      exact ⟨e, he, by simp [eligAny, helig], hz⟩
  · obtain ⟨e, he, helig, hz⟩ := mem_add_folder h3
    exact ⟨e, he, by simp [eligAny, helig], hz⟩

lemma backupFileEntries_of_elig {fs : FS} {e : FileEntry} (he : e ∈ fs)
    (helig : eligAny e = true) :
    (⟨get_zip_arcname e.path, e.content⟩ : ZipEntry) ∈ backupFileEntries fs := by
  unfold eligAny at helig
  rw [Bool.or_eq_true, Bool.or_eq_true] at helig
  unfold backupFileEntries
  rcases helig with (h | h) | h
  · refine List.mem_append.2 (Or.inl (List.mem_append.2 (Or.inl ?_)))
    exact List.mem_map.2 ⟨e, List.mem_filter.2 ⟨he, h⟩, rfl⟩
  · refine List.mem_append.2 (Or.inl (List.mem_append.2 (Or.inr ?_)))
    exact List.mem_map.2 ⟨e, List.mem_filter.2 ⟨he, h⟩, rfl⟩
  · refine List.mem_append.2 (Or.inr ?_)
    exact List.mem_map.2 ⟨e, List.mem_filter.2 ⟨he, h⟩, rfl⟩

lemma backupFileEntries_map (fs : FS) :
    backupFileEntries fs =
      (eligibleEntries fs).map (fun e => ⟨get_zip_arcname e.path, e.content⟩) := by
  unfold backupFileEntries eligibleEntries add_folder_to_zip
  rw [List.map_append, List.map_append]

lemma writeEligible_shape {folder : PPath} {exdb : Bool} {e : FileEntry}
    (h : writeEligible folder exdb e = true) :
    pUnder folder e.path = true ∧ ¬ relParts folder e.path = [] := by
  unfold writeEligible at h
  rw [Bool.and_eq_true] at h
  refine ⟨h.1, ?_⟩
  intro h0
  have h2 := h.2
  rw [h0] at h2
  exact Bool.noConfusion h2

lemma elig_head {folder : PPath} {R : String} (hf : folder.parts = [R])
    {exdb : Bool} {e : FileEntry} (h : writeEligible folder exdb e = true) :
    ∃ rest, ¬ rest = [] ∧ e.path.parts = R :: rest := by
  obtain ⟨hu, hrel⟩ := writeEligible_shape h
  unfold pUnder at hu
  rw [Bool.and_eq_true] at hu
  obtain ⟨t, ht⟩ := (isPre_iff _ _).1 hu.2
  rw [hf] at ht
  refine ⟨t, ?_, ht.symm⟩
  intro h0
  apply hrel
  unfold relParts
  rw [hf, ← ht, h0]
  rfl

lemma elig_paths_nodup {fs : FS} (hwf : wfFS fs) :
    ((eligibleEntries fs).map (fun e => e.path)).Nodup := by
  have hnd := wf_paths_nodup hwf
  have hsub : ∀ (q : FileEntry → Bool),
      ((fs.filter q).map (fun e => e.path)).Nodup :=
    fun q => List.Sublist.nodup (List.Sublist.map _ (List.filter_sublist fs)) hnd
  have hdis : ∀ (f1 f2 : PPath) (R1 R2 : String), f1.parts = [R1] → f2.parts = [R2] →
      ¬ R1 = R2 → ∀ (ex1 ex2 : Bool),
      List.Disjoint ((fs.filter (writeEligible f1 ex1)).map (fun e => e.path))
        ((fs.filter (writeEligible f2 ex2)).map (fun e => e.path)) := by
    intro f1 f2 R1 R2 hf1 hf2 hne ex1 ex2 p hp1 hp2
    obtain ⟨e1, he1, hpe1⟩ := List.mem_map.1 hp1
    obtain ⟨e2, he2, hpe2⟩ := List.mem_map.1 hp2
    obtain ⟨r1, _, hh1⟩ := elig_head hf1 (List.mem_filter.1 he1).2
    obtain ⟨r2, _, hh2⟩ := elig_head hf2 (List.mem_filter.1 he2).2
    rw [← hpe2] at hpe1
    have : R1 :: r1 = R2 :: r2 := by
      rw [← hh1, ← hh2, hpe1]
    injection this with hR _
    exact hne hR
  unfold eligibleEntries
  rw [List.map_append, List.map_append, List.nodup_append, List.nodup_append]
  refine ⟨⟨hsub _, hsub _, ?_⟩, hsub _, ?_⟩
  · exact hdis ADDONS USERDATA ("addons") ("userdata") rfl rfl (by decide) false true
  · intro p hp1 hp2
    rcases List.mem_append.1 hp1 with h1 | h1
    · exact hdis ADDONS MEDIA ("addons") ("media") rfl rfl (by decide) false false
        h1 hp2
    · exact hdis USERDATA MEDIA ("userdata") ("media") rfl rfl (by decide) true false
        h1 hp2

lemma archive_filter_markers (fs : FS) (hwf : ∀ e ∈ fs, wfEntry e = true) :
    (backupArchive fs).filter (fun z => !(pyEndsWith z.name ("/"))) =
      backupFileEntries fs := by
  unfold backupArchive
  rw [List.filter_append, List.filter_append, List.filter_append]
  have hm : List.filter (fun z => !(pyEndsWith z.name ("/")))
      [(⟨("userdata/Thumbnails/"), []⟩ : ZipEntry), ⟨("media/"), []⟩] = [] := by
    decide
  have hself : ∀ (folder : PPath) (exdb : Bool),
      List.filter (fun z => !(pyEndsWith z.name ("/")))
        (add_folder_to_zip fs folder exdb) = add_folder_to_zip fs folder exdb := by
    intro folder exdb
    apply List.filter_eq_self.2
    intro z hz
    obtain ⟨e, he, _, hzz⟩ := mem_add_folder hz
    rw [hzz]
    have := arcname_marker_free (hwf e he)
    simp [this]
  rw [hm, hself, hself, hself, List.append_nil]
  rfl

lemma staged_targets_nodup {fs : FS} (hwf : wfFS fs) :
    (((backupArchive fs).filter (fun z => !(pyEndsWith z.name ("/")))).map
      (fun z => extractTarget z.name)).Nodup := by
  have hfe := archive_filter_markers fs hwf.1
  have hwfe : ∀ e ∈ eligibleEntries fs, wfEntry e = true := by
    intro e he
    unfold eligibleEntries at he
    rcases List.mem_append.1 he with h12 | h3
    · rcases List.mem_append.1 h12 with h1 | h2
      · exact hwf.1 e (List.Sublist.mem h1 (List.filter_sublist fs))
      · exact hwf.1 e (List.Sublist.mem h2 (List.filter_sublist fs))
    · exact hwf.1 e (List.Sublist.mem h3 (List.filter_sublist fs))
  rw [hfe, backupFileEntries_map, List.map_map]
  have hmapeq : ((eligibleEntries fs).map
      (fun e => extractTarget (get_zip_arcname e.path))) =
      (eligibleEntries fs).map
        (fun e => (⟨false, STAGING.parts ++ e.path.parts⟩ : PPath)) := by
    apply List.map_congr_left
    intro e he
    exact arcname_target (hwfe e he)
  show ((eligibleEntries fs).map
    (fun e => extractTarget (get_zip_arcname e.path))).Nodup
  rw [hmapeq]
  have hpn2 : List.Pairwise (fun a b : FileEntry => a.path ≠ b.path)
      (eligibleEntries fs) := by
    have hpn := elig_paths_nodup hwf
    rw [show (((eligibleEntries fs).map (fun e => e.path)).Nodup) =
      List.Pairwise (fun a b : PPath => a ≠ b)
        ((eligibleEntries fs).map (fun e => e.path)) from rfl,
      List.pairwise_map] at hpn
    exact hpn
  show List.Pairwise (fun a b : PPath => a ≠ b) ((eligibleEntries fs).map
    (fun e => (⟨false, STAGING.parts ++ e.path.parts⟩ : PPath)))
  rw [List.pairwise_map]
  refine List.Pairwise.imp_of_mem ?_ hpn2
  intro a b ha hb hne heq
  apply hne
  have ha2 := (wfEntry_parts (hwfe a ha)).1
  have hb2 := (wfEntry_parts (hwfe b hb)).1
  injection heq with _ hparts
  have hp2 := List.append_cancel_left hparts
  have h1 : a.path = ⟨a.path.abs, a.path.parts⟩ := rfl
  have h2 : b.path = ⟨b.path.abs, b.path.parts⟩ := rfl
  rw [h1, h2, ha2, hb2, hp2]

lemma extractFold_append (extractOk : Nat → Bool) (hok : ∀ k, extractOk k = true) :
    ∀ (entries : List ZipEntry) (idx : Nat) (fs : FS),
      (∀ z ∈ entries, pyEndsWith z.name ("/") = false →
        ∀ e ∈ fs, (e.path == extractTarget z.name) = false) →
      ((entries.filter (fun z => !(pyEndsWith z.name ("/")))).map
        (fun z => extractTarget z.name)).Nodup →
      extractFoldFS extractOk idx entries fs =
        fs ++ (entries.filter (fun z => !(pyEndsWith z.name ("/")))).map
          (fun z => (⟨extractTarget z.name, z.data, 0⟩ : FileEntry)) := by
  intro entries
  induction entries with
  | nil =>
    intro idx fs _ _
    simp [extractFoldFS]
  | cons z rest ih =>
    intro idx fs hfresh hnd
    rw [show extractFoldFS extractOk idx (z :: rest) fs =
      extractFoldFS extractOk (idx + 1) rest
        (if pyEndsWith z.name ("/") then fs
         else if extractOk idx then addFileFS fs (extractTarget z.name) z.data
         else fs) from rfl]
    by_cases hm : pyEndsWith z.name ("/") = true
    · rw [if_pos hm, List.filter_cons_of_neg (by simp [hm])]
      rw [List.filter_cons_of_neg (by simp [hm])] at hnd
      exact ih (idx + 1) fs
        (fun z2 hz2 => hfresh z2 (List.mem_cons_of_mem _ hz2)) hnd
    · have hm2 : pyEndsWith z.name ("/") = false := by
        revert hm
        cases pyEndsWith z.name ("/") <;> simp
      rw [if_neg hm, if_pos (hok idx)]
      have hadd : addFileFS fs (extractTarget z.name) z.data =
          fs ++ [⟨extractTarget z.name, z.data, 0⟩] := by
        unfold addFileFS
        congr 1
        apply List.filter_eq_self.2
        intro e he
        rw [hfresh z (List.mem_cons_self _ _) hm2 e he]
        rfl
      rw [List.filter_cons_of_pos (by simp [hm2]), List.map_cons] at hnd
      rw [List.filter_cons_of_pos (by simp [hm2]), List.map_cons, hadd]
      obtain ⟨hnotmem, hndrest⟩ := List.nodup_cons.1 hnd
      have hfr : ∀ z2 ∈ rest, pyEndsWith z2.name ("/") = false →
          ∀ e ∈ fs ++ [(⟨extractTarget z.name, z.data, 0⟩ : FileEntry)],
            (e.path == extractTarget z2.name) = false := by
        intro z2 hz2 hm22 e he
        rcases List.mem_append.1 he with h2 | h2
        · exact hfresh z2 (List.mem_cons_of_mem _ hz2) hm22 e h2
        · have he2 := List.mem_singleton.1 h2
          subst he2
          apply beq_eq_false_iff_ne.2
          intro heq
          apply hnotmem
          have heq2 : extractTarget z.name = extractTarget z2.name := heq
          rw [heq2]
          exact List.mem_map.2 ⟨z2, List.mem_filter.2 ⟨hz2, by simp [hm22]⟩, rfl⟩
      rw [ih (idx + 1) _ hfr hndrest, List.append_assoc]
      rfl

/-- The filesystem fed to extraction: the source tree plus the downloaded
archive copy, with the staging area reset. -/
def preStage (fs : FS) : FS := removeTreeFS (addFileFS fs LOCALZIP []) STAGING

/-- What survives the three live-tree wipes of that filesystem. -/
def cleanedBase (fs : FS) : FS :=
  (preStage fs).filter (fun e =>
    !(pUnder ADDONS e.path) && !(pUnder USERDATA e.path) && !(pUnder MEDIA e.path))

lemma target_under_staging (z : ZipEntry) (hz : z ∈ backupFileEntries fs)
    (hwf : ∀ e ∈ fs, wfEntry e = true) :
    pUnder STAGING (extractTarget z.name) = true := by
  obtain ⟨e, he, _, hzz⟩ := mem_backupFileEntries hz
  rw [hzz]
  show pUnder STAGING (extractTarget (get_zip_arcname e.path)) = true
  rw [arcname_target (hwf e he)]
  have h2 := pUnder_self_append STAGING e.path.parts
  have h3 : STAGING.abs = false := by decide
  rw [h3] at h2
  exact h2

lemma staged_eq_append (fs : FS) (inp : RestoreIn) (hwf : wfFS fs)
    (hok : ∀ k, inp.extractOk k = true) (harch : inp.arch = backupArchive fs) :
    stagedFS fs inp = preStage fs ++ stagedOf fs := by
  unfold stagedFS
  rw [harch]
  have hfr : ∀ z ∈ backupArchive fs, pyEndsWith z.name ("/") = false →
      ∀ e ∈ preStage fs, (e.path == extractTarget z.name) = false := by
    intro z hz hm e he
    have hzf : z ∈ backupFileEntries fs := by
      rw [← archive_filter_markers fs hwf.1]
      exact List.mem_filter.2 ⟨hz, by simp [hm]⟩
    have htgt := target_under_staging z hzf hwf.1
    have hout : pUnder STAGING e.path = false := by
      unfold preStage removeTreeFS at he
      have h2 := (List.mem_filter.1 he).2
      revert h2
      cases pUnder STAGING e.path <;> simp
    apply beq_eq_false_iff_ne.2
    intro heq
    rw [heq, htgt] at hout
    exact Bool.noConfusion hout
  have h1 := extractFold_append inp.extractOk hok (backupArchive fs) 0
    (preStage fs) hfr (staged_targets_nodup hwf)
  show extractFoldFS inp.extractOk 0 (backupArchive fs) (preStage fs) =
    preStage fs ++ stagedOf fs
  rw [h1, archive_filter_markers fs hwf.1]
  rfl

lemma wipeKeeps_not_under {locked : PPath → Bool} (root : PPath) (e : FileEntry)
    (h : pUnder root e.path = false) : wipeKeeps locked root [] e = true := by
  unfold wipeKeeps
  rw [h]
  simp

lemma wipeKeeps_deep {locked : PPath → Bool} (hlk : ∀ p, locked p = false)
    (root : PPath) (e : FileEntry) (hrel : ¬ relParts root e.path = [])
    (hu : pUnder root e.path = true) : wipeKeeps locked root [] e = false := by
  unfold wipeKeeps
  rw [hu]
  simp only [if_true]
  cases hr : relParts root e.path with
  | nil => exact absurd hr hrel
  | cons c t => simp [hlk]

lemma wf_rel_ne {e : FileEntry} {root : PPath} {R : String}
    (hr : root.parts = [R]) (hner : ¬ e.path = root)
    (hu : pUnder root e.path = true) : ¬ relParts root e.path = [] := by
  intro h0
  apply hner
  unfold pUnder at hu
  rw [Bool.and_eq_true] at hu
  obtain ⟨t, ht⟩ := (isPre_iff _ _).1 hu.2
  unfold relParts at h0
  rw [← ht, hr, List.drop_left] at h0
  have habs : e.path.abs = root.abs := by
    have h2 := eq_of_beq hu.1
    rw [h2]
  have hparts : e.path.parts = root.parts := by
    rw [← ht, h0, List.append_nil]
  have he1 : e.path = ⟨e.path.abs, e.path.parts⟩ := rfl
  have he2 : root = ⟨root.abs, root.parts⟩ := rfl
  rw [he1, he2, habs, hparts]

lemma wipedFS_eq (fs : FS) (inp : RestoreIn) (hwf : wfFS fs)
    (hok : ∀ k, inp.extractOk k = true) (harch : inp.arch = backupArchive fs)
    (hlk : ∀ p, inp.locked p = false) :
    wipedFS fs inp = cleanedBase fs ++ stagedOf fs := by
  unfold wipedFS safe_wipe_folder
  rw [staged_eq_append fs inp hwf hok harch]
  rw [List.filter_append, List.filter_append, List.filter_append]
  have hstk : ∀ (root : PPath), (∀ m, pUnder root (extractTarget m) = false) →
      ∀ (l : FS), l = stagedOf fs →
      l.filter (wipeKeeps inp.locked root []) = l := by
    intro root hroot l hl
    apply List.filter_eq_self.2
    intro e he
    rw [hl] at he
    obtain ⟨z, _, hz⟩ := List.mem_map.1 he
    apply wipeKeeps_not_under
    rw [← hz]
    exact hroot z.name
  rw [hstk ADDONS addons_target _ rfl, hstk USERDATA userdata_target _ rfl,
    hstk MEDIA media_target _ rfl]
  have hbase : List.filter (wipeKeeps inp.locked MEDIA [])
      (List.filter (wipeKeeps inp.locked USERDATA [])
        (List.filter (wipeKeeps inp.locked ADDONS []) (preStage fs))) =
      cleanedBase fs := by
    rw [List.filter_filter, List.filter_filter]
    unfold cleanedBase
    apply List.filter_congr
    intro e he
    have hsrc : e ∈ fs ∨ e = ⟨LOCALZIP, [], 0⟩ := by
      unfold preStage removeTreeFS at he
      exact mem_addFileFS (List.Sublist.mem he (List.filter_sublist _))
    have hkey : ∀ (root : PPath) (R : String), root.parts = [R] →
        pUnder root LOCALZIP = false → (e ∈ fs → ¬ e.path = root) →
        wipeKeeps inp.locked root [] e = !(pUnder root e.path) := by
      intro root R hr hlz hner
      cases hu : pUnder root e.path with
      | false =>
        rw [wipeKeeps_not_under root e hu]
        rfl
      | true =>
        have hrel : ¬ relParts root e.path = [] := by
          rcases hsrc with h2 | h2
          · exact wf_rel_ne hr (hner h2) hu
          · exfalso
            rw [h2, show (⟨LOCALZIP, [], 0⟩ : FileEntry).path = LOCALZIP from rfl,
              hlz] at hu
            exact Bool.noConfusion hu
        rw [wipeKeeps_deep hlk root e hrel hu]
        rfl
    rw [hkey ADDONS ("addons") rfl (by decide)
        (fun h2 => (wfEntry_parts (hwf.1 e h2)).2.2.2.1),
      hkey USERDATA ("userdata") rfl (by decide)
        (fun h2 => (wfEntry_parts (hwf.1 e h2)).2.2.2.2.1),
      hkey MEDIA ("media") rfl (by decide)
        (fun h2 => (wfEntry_parts (hwf.1 e h2)).2.2.2.2.2)]
    cases pUnder ADDONS e.path <;> cases pUnder USERDATA e.path <;>
      cases pUnder MEDIA e.path <;> rfl
  rw [hbase]

/-- Rebasing a staged file onto its live location: drop the two leading
staging components temp/restore_staging. -/
def stripStaging (e : FileEntry) : FileEntry :=
  ⟨⟨false, e.path.parts.drop 2⟩, e.content, e.mtime⟩

/-- The whole move phase on one entry: staged files are rebased onto their
live locations, everything else is untouched. -/
def rebase (e : FileEntry) : FileEntry :=
  if pUnder STAGING e.path then stripStaging e else e

lemma pChild_staging (c : String) :
    pChild STAGING c = ⟨false, [("temp"), ("restore_staging"), c]⟩ := by
  rw [show pChild STAGING c = ⟨STAGING.abs, STAGING.parts ++ [c]⟩ from rfl, staging_eq]
  rfl

lemma pChild2_staging (c s : String) :
    pChild (pChild STAGING c) s =
      ⟨false, [("temp"), ("restore_staging"), c, s]⟩ := by
  rw [pChild_staging]
  rfl

lemma under_src_shape {c s : String} {p : PPath}
    (h : pUnder (pChild (pChild STAGING c) s) p = true) :
    ∃ t, p = ⟨false, ("temp") :: ("restore_staging") :: c :: s :: t⟩ := by
  rw [pChild2_staging] at h
  unfold pUnder at h
  rw [Bool.and_eq_true] at h
  obtain ⟨t, ht⟩ := (isPre_iff _ _).1 h.2
  refine ⟨t, ?_⟩
  have habs : p.abs = false := (eq_of_beq h.1).symm
  have h1 : p = ⟨p.abs, p.parts⟩ := rfl
  rw [h1, habs, ← ht]
  rfl

lemma moveTree_src_map (c s : String) (fs : FS) :
    moveTreeFS fs (pChild (pChild STAGING c) s) (pChild (⟨false, [c]⟩ : PPath) s) =
      fs.map (fun e => if pUnder (pChild (pChild STAGING c) s) e.path
        then stripStaging e else e) := by
  unfold moveTreeFS
  apply List.map_congr_left
  intro e _
  cases hu : pUnder (pChild (pChild STAGING c) s) e.path with
  | false => simp only [hu, Bool.false_eq_true, if_false]
  | true =>
    simp only [hu, if_true]
    obtain ⟨t, hp⟩ := under_src_shape hu
    unfold stripStaging
    rw [hp, pChild2_staging]
    rfl

lemma movePairs_map (mf : PPath → Option String) (hmf : ∀ p, mf p = none)
    (c : String) (hct : ¬ c = ("temp")) :
    ∀ (subs : List String) (fs : FS),
      subs.Nodup →
      (∀ e ∈ fs, pUnder (pChild STAGING c) e.path = true →
        ∃ s ∈ subs, ∃ rest, e.path =
          ⟨false, ("temp") :: ("restore_staging") :: c :: s :: rest⟩) →
      (∀ e ∈ fs, pUnder (pChild STAGING c) e.path = false →
        ∀ s ∈ subs, pUnder (⟨false, [c, s]⟩ : PPath) e.path = false) →
      (movePairs mf fs (subs.map (fun s => (pChild (pChild STAGING c) s,
          pChild (⟨false, [c]⟩ : PPath) s)))).fs =
        fs.map (fun e => if pUnder (pChild STAGING c) e.path
          then stripStaging e else e) := by
  intro subs
  induction subs with
  | nil =>
    intro fs _ hcov _
    have hpt : ∀ e ∈ fs,
        (if pUnder (pChild STAGING c) e.path then stripStaging e else e) = e := by
      intro e he
      cases hu : pUnder (pChild STAGING c) e.path with
      | false => simp only [hu, Bool.false_eq_true, if_false]
      | true =>
        obtain ⟨s, hs, _⟩ := hcov e he hu
        cases hs
    have h2 : fs.map (fun e => if pUnder (pChild STAGING c) e.path
        then stripStaging e else e) = fs.map (fun e => e) :=
      List.map_congr_left hpt
    show fs = fs.map (fun e => if pUnder (pChild STAGING c) e.path
      then stripStaging e else e)
    rw [h2, List.map_id']
  | cons s srest ih =>
    intro fs hnd hcov hbase
    obtain ⟨hsmem, hnd2⟩ := List.nodup_cons.1 hnd
    have hrt : removeTreeFS fs (pChild (⟨false, [c]⟩ : PPath) s) = fs := by
      unfold removeTreeFS
      apply List.filter_eq_self.2
      intro e he
      have hnu : pUnder (pChild (⟨false, [c]⟩ : PPath) s) e.path = false := by
        cases hsc : pUnder (pChild STAGING c) e.path with
        | true =>
          obtain ⟨s0, _, rest, hp⟩ := hcov e he hsc
          rw [hp, show pChild (⟨false, [c]⟩ : PPath) s = ⟨false, c :: [s]⟩ from rfl]
          exact pUnder_cons_ne (beq_eq_false_iff_ne.2 hct) _ _
        | false => exact hbase e he hsc s (List.mem_cons_self _ _)
      simp [hnu]
    have hstep : (_safe_move mf fs (pChild (pChild STAGING c) s)
        (pChild (⟨false, [c]⟩ : PPath) s)).1 =
        fs.map (fun e => if pUnder (pChild (pChild STAGING c) s) e.path
          then stripStaging e else e) := by
      unfold _safe_move
      rw [hmf (pChild (pChild STAGING c) s)]
      show moveTreeFS (removeTreeFS fs (pChild (⟨false, [c]⟩ : PPath) s))
        (pChild (pChild STAGING c) s) (pChild (⟨false, [c]⟩ : PPath) s) = _
      rw [hrt, moveTree_src_map]
    have hcov2 : ∀ e2 ∈ fs.map (fun e =>
          if pUnder (pChild (pChild STAGING c) s) e.path then stripStaging e else e),
        pUnder (pChild STAGING c) e2.path = true →
        ∃ s2 ∈ srest, ∃ rest, e2.path =
          ⟨false, ("temp") :: ("restore_staging") :: c :: s2 :: rest⟩ := by
      intro e2 he2 hu2
      obtain ⟨e, he, hge⟩ := List.mem_map.1 he2
      cases hu : pUnder (pChild (pChild STAGING c) s) e.path with
      | true =>
        exfalso
        obtain ⟨t, hp⟩ := under_src_shape hu
        rw [← hge] at hu2
        simp only [hu, if_true] at hu2
        unfold stripStaging at hu2
        rw [hp, pChild_staging] at hu2
        have hcn : ((("temp") : String) == c) = false :=
          beq_eq_false_iff_ne.2 (fun h2 => hct h2.symm)
        simp [pUnder, isPre, hcn] at hu2
      | false =>
        simp only [hu, Bool.false_eq_true, if_false] at hge
        rw [← hge] at hu2 ⊢
        obtain ⟨s0, hs0, rest, hp⟩ := hcov e he hu2
        rcases List.mem_cons.1 hs0 with rfl | hs02
        · exfalso
          rw [hp, pChild2_staging] at hu
          simp [pUnder, isPre] at hu
        · exact ⟨s0, hs02, rest, hp⟩
    have hbase2 : ∀ e2 ∈ fs.map (fun e =>
          if pUnder (pChild (pChild STAGING c) s) e.path then stripStaging e else e),
        pUnder (pChild STAGING c) e2.path = false →
        ∀ s2 ∈ srest, pUnder (⟨false, [c, s2]⟩ : PPath) e2.path = false := by
      intro e2 he2 hu2 s2 hs2
      obtain ⟨e, he, hge⟩ := List.mem_map.1 he2
      cases hu : pUnder (pChild (pChild STAGING c) s) e.path with
      | true =>
        obtain ⟨t, hp⟩ := under_src_shape hu
        rw [← hge]
        simp only [hu, if_true]
        unfold stripStaging
        rw [hp]
        have hss : (s2 == s) = false :=
          beq_eq_false_iff_ne.2 (fun h2 => hsmem (h2 ▸ hs2))
        simp [pUnder, isPre, hss]
      | false =>
        simp only [hu, Bool.false_eq_true, if_false] at hge
        rw [← hge] at hu2 ⊢
        cases hsc : pUnder (pChild STAGING c) e.path with
        | true => exact absurd hu2 (by rw [hsc]; exact fun h2 => Bool.noConfusion h2)
        | false => exact hbase e he hsc s2 (List.mem_cons_of_mem _ hs2)
    show (movePairs mf (_safe_move mf fs (pChild (pChild STAGING c) s)
        (pChild (⟨false, [c]⟩ : PPath) s)).1
        (srest.map (fun s2 => (pChild (pChild STAGING c) s2,
          pChild (⟨false, [c]⟩ : PPath) s2)))).fs =
      fs.map (fun e => if pUnder (pChild STAGING c) e.path
        then stripStaging e else e)
    rw [hstep, ih _ hnd2 hcov2 hbase2, List.map_map]
    apply List.map_congr_left
    intro e he
    simp only [Function.comp_apply]
    cases hu : pUnder (pChild (pChild STAGING c) s) e.path with
    | false =>
      simp only [hu, Bool.false_eq_true, if_false]
    | true =>
      obtain ⟨t, hp⟩ := under_src_shape hu
      simp only [hu, if_true]
      have hcn : ((("temp") : String) == c) = false :=
        beq_eq_false_iff_ne.2 (fun h2 => hct h2.symm)
      have h1 : pUnder (pChild STAGING c) (stripStaging e).path = false := by
        unfold stripStaging
        rw [hp, pChild_staging]
        simp [pUnder, isPre, hcn]
      have h2 : pUnder (pChild STAGING c) e.path = true := by
        rw [hp, pChild_staging]
        simp [pUnder, isPre]
      rw [h1, h2]
      simp

lemma stagingMapLookup_not_temp {c : String} {root : PPath}
    (h : stagingMapLookup c = some root) : ¬ c = ("temp") := by
  intro hc
  subst hc
  rw [show stagingMapLookup ("temp") = none from by decide] at h
  cases h

lemma childNames_contains {fs : FS} {root : PPath} {e : FileEntry} (he : e ∈ fs)
    (hu : pUnder root e.path = true) {s : String}
    (hh : (relParts root e.path).head? = some s) : s ∈ childNames fs root := by
  unfold childNames
  rw [mem_dedup]
  refine List.mem_filterMap.2 ⟨e, he, ?_⟩
  rw [if_pos hu]
  exact hh

lemma under_child_shape {c : String} {p : PPath}
    (h : pUnder (pChild STAGING c) p = true) :
    ∃ t, p = ⟨false, ("temp") :: ("restore_staging") :: c :: t⟩ := by
  rw [pChild_staging] at h
  unfold pUnder at h
  rw [Bool.and_eq_true] at h
  obtain ⟨t, ht⟩ := (isPre_iff _ _).1 h.2
  refine ⟨t, ?_⟩
  have habs : p.abs = false := (eq_of_beq h.1).symm
  have h1 : p = ⟨p.abs, p.parts⟩ := rfl
  rw [h1, habs, ← ht]
  rfl

lemma movePhaseGo_map (mf : PPath → Option String) (hmf : ∀ p, mf p = none) :
    ∀ (cs : List String) (fs : FS),
      cs.Nodup →
      (∀ c ∈ cs, stagingMapLookup c = some ⟨false, [c]⟩) →
      (∀ e ∈ fs, pUnder STAGING e.path = true →
        ∃ c ∈ cs, ∃ s rest, e.path =
          ⟨false, ("temp") :: ("restore_staging") :: c :: s :: rest⟩) →
      (∀ e ∈ fs, pUnder STAGING e.path = false →
        ∀ c ∈ cs, pUnder (⟨false, [c]⟩ : PPath) e.path = false) →
      (∀ c ∈ cs, ∃ e ∈ fs, ∃ s rest, e.path =
        ⟨false, ("temp") :: ("restore_staging") :: c :: s :: rest⟩) →
      (movePhaseGo mf cs fs).fs = fs.map rebase := by
  intro cs
  induction cs with
  | nil =>
    intro fs _ _ hcov _ _
    have hpt : ∀ e ∈ fs, rebase e = e := by
      intro e he
      unfold rebase
      cases hu : pUnder STAGING e.path with
      | false => simp only [hu, Bool.false_eq_true, if_false]
      | true =>
        obtain ⟨c, hc, _⟩ := hcov e he hu
        cases hc
    have h2 : fs.map rebase = fs.map (fun e => e) := List.map_congr_left hpt
    show fs = fs.map rebase
    rw [h2, List.map_id']
  | cons c rest ih =>
    intro fs hnd hlook hcov hbase hne
    obtain ⟨hcm, hnd2⟩ := List.nodup_cons.1 hnd
    have hlookc := hlook c (List.mem_cons_self _ _)
    have hct : ¬ c = ("temp") := stagingMapLookup_not_temp hlookc
    have hcn : ((("temp") : String) == c) = false :=
      beq_eq_false_iff_ne.2 (fun h2 => hct h2.symm)
    have hdir : isDirIn fs (pChild STAGING c) = true := by
      obtain ⟨e, he, s, r, hp⟩ := hne c (List.mem_cons_self _ _)
      unfold isDirIn
      apply List.any_eq_true.2
      refine ⟨e, he, ?_⟩
      rw [Bool.and_eq_true]
      constructor
      · rw [hp, pChild_staging]
        simp [pUnder, isPre]
      · rw [hp, pChild_staging]
        simp
    have hcovP : ∀ e ∈ fs, pUnder (pChild STAGING c) e.path = true →
        ∃ s ∈ childNames fs (pChild STAGING c), ∃ r2, e.path =
          ⟨false, ("temp") :: ("restore_staging") :: c :: s :: r2⟩ := by
      intro e he hu
      have hst : pUnder STAGING e.path = true := pUnder_mono STAGING c e.path hu
      obtain ⟨c0, _, s, r, hp⟩ := hcov e he hst
      have hc0 : c0 = c := by
        rw [hp, pChild_staging] at hu
        simp [pUnder, isPre] at hu
        exact hu.symm
      subst hc0
      refine ⟨s, ?_, r, hp⟩
      apply childNames_contains he hu
      rw [hp, pChild_staging]
      rfl
    have hbaseP : ∀ e ∈ fs, pUnder (pChild STAGING c) e.path = false →
        ∀ s ∈ childNames fs (pChild STAGING c),
          pUnder (⟨false, [c, s]⟩ : PPath) e.path = false := by
      intro e he hu s _
      cases hst : pUnder STAGING e.path with
      | true =>
        obtain ⟨c0, _, s0, r, hp⟩ := hcov e he hst
        rw [hp]
        exact pUnder_cons_ne (beq_eq_false_iff_ne.2 hct) _ _
      | false =>
        cases hq : pUnder (⟨false, [c, s]⟩ : PPath) e.path with
        | false => rfl
        | true =>
          have hq2 : pUnder (pChild (⟨false, [c]⟩ : PPath) s) e.path = true := hq
          have := pUnder_mono (⟨false, [c]⟩ : PPath) s e.path hq2
          rw [hbase e he hst c (List.mem_cons_self _ _)] at this
          cases this
    have hpairs := movePairs_map mf hmf c hct (childNames fs (pChild STAGING c)) fs
      (dedup_nodup _) hcovP hbaseP
    have hg : ∀ e ∈ fs, pUnder (pChild STAGING c) e.path = false →
        (if pUnder (pChild STAGING c) e.path then stripStaging e else e) = e := by
      intro e _ hu
      simp only [hu, Bool.false_eq_true, if_false]
    have hcov2 : ∀ e2 ∈ fs.map (fun e => if pUnder (pChild STAGING c) e.path
          then stripStaging e else e),
        pUnder STAGING e2.path = true →
        ∃ c2 ∈ rest, ∃ s rest2, e2.path =
          ⟨false, ("temp") :: ("restore_staging") :: c2 :: s :: rest2⟩ := by
      intro e2 he2 hu2
      obtain ⟨e, he, hge⟩ := List.mem_map.1 he2
      cases hu : pUnder (pChild STAGING c) e.path with
      | true =>
        exfalso
        obtain ⟨t, hp⟩ := under_child_shape hu
        rw [← hge] at hu2
        simp only [hu, if_true] at hu2
        unfold stripStaging at hu2
        rw [hp, staging_eq] at hu2
        simp [pUnder, isPre, hcn] at hu2
      | false =>
        rw [hg e he hu] at hge
        rw [← hge] at hu2 ⊢
        obtain ⟨c0, hc0, s, r, hp⟩ := hcov e he hu2
        rcases List.mem_cons.1 hc0 with rfl | hc02
        · exfalso
          rw [hp, pChild_staging] at hu
          simp [pUnder, isPre] at hu
        · exact ⟨c0, hc02, s, r, hp⟩
    have hbase2 : ∀ e2 ∈ fs.map (fun e => if pUnder (pChild STAGING c) e.path
          then stripStaging e else e),
        pUnder STAGING e2.path = false →
        ∀ c2 ∈ rest, pUnder (⟨false, [c2]⟩ : PPath) e2.path = false := by
      intro e2 he2 hu2 c2 hc2
      obtain ⟨e, he, hge⟩ := List.mem_map.1 he2
      have hc2c : (c2 == c) = false :=
        beq_eq_false_iff_ne.2 (fun h2 => hcm (h2 ▸ hc2))
      cases hu : pUnder (pChild STAGING c) e.path with
      | true =>
        obtain ⟨t, hp⟩ := under_child_shape hu
        rw [← hge]
        simp only [hu, if_true]
        unfold stripStaging
        rw [hp]
        cases ht : t with
        | nil => simp [pUnder, isPre, hc2c]
        | cons a t2 => simp [pUnder, isPre, hc2c]
      | false =>
        rw [hg e he hu] at hge
        rw [← hge] at hu2 ⊢
        cases hst : pUnder STAGING e.path with
        | true =>
          rw [hst] at hu2
          cases hu2
        | false => exact hbase e he hst c2 (List.mem_cons_of_mem _ hc2)
    have hne2 : ∀ c2 ∈ rest, ∃ e2 ∈ fs.map (fun e =>
          if pUnder (pChild STAGING c) e.path then stripStaging e else e),
        ∃ s rest2, e2.path =
          ⟨false, ("temp") :: ("restore_staging") :: c2 :: s :: rest2⟩ := by
      intro c2 hc2
      obtain ⟨e, he, s, r, hp⟩ := hne c2 (List.mem_cons_of_mem _ hc2)
      have hu : pUnder (pChild STAGING c) e.path = false := by
        rw [hp, pChild_staging]
        have hc2c : (c == c2) = false :=
          beq_eq_false_iff_ne.2 (fun h2 => hcm (h2 ▸ hc2))
        simp [pUnder, isPre, hc2c]
      refine ⟨e, ?_, s, r, hp⟩
      refine List.mem_map.2 ⟨e, he, ?_⟩
      exact hg e he hu
    show (movePhaseGo mf (c :: rest) fs).fs = fs.map rebase
    simp only [movePhaseGo, hlookc, hdir, if_true]
    rw [hpairs, ih _ hnd2 (fun c2 h2 => hlook c2 (List.mem_cons_of_mem _ h2))
      hcov2 hbase2 hne2, List.map_map]
    apply List.map_congr_left
    intro e he
    simp only [Function.comp_apply]
    cases hu : pUnder (pChild STAGING c) e.path with
    | false =>
      simp only [hu, Bool.false_eq_true, if_false]
    | true =>
      obtain ⟨t, hp⟩ := under_child_shape hu
      simp only [hu, if_true]
      have h1 : pUnder STAGING (stripStaging e).path = false := by
        unfold stripStaging
        rw [hp, staging_eq]
        exact pUnder_cons_ne hcn _ _
      have h2 : pUnder STAGING e.path = true := pUnder_mono STAGING c e.path hu
      unfold rebase
      rw [h1, h2]
      simp

/-- The path lies under one of the three live roots. -/
def liveAny (p : PPath) : Bool :=
  pUnder ADDONS p || pUnder USERDATA p || pUnder MEDIA p

/-- The restored copies of the backed-up files: same path and bytes, with
the extraction-time modification time. -/
def restoredCopies (fs : FS) : FS :=
  (eligibleEntries fs).map (fun e => ⟨e.path, e.content, 0⟩)

lemma elig_path_shape {e : FileEntry} (helig : eligAny e = true) :
    ∃ R rest, ¬ rest = [] ∧ e.path.parts = R :: rest ∧
      (R = ("addons") ∨ R = ("userdata") ∨ R = ("media")) := by
  unfold eligAny at helig
  rw [Bool.or_eq_true, Bool.or_eq_true] at helig
  rcases helig with (h | h) | h
  · obtain ⟨rest, hr, hp⟩ := elig_head (rfl : ADDONS.parts = [("addons")]) h
    exact ⟨_, rest, hr, hp, Or.inl rfl⟩
  · obtain ⟨rest, hr, hp⟩ := elig_head (rfl : USERDATA.parts = [("userdata")]) h
    exact ⟨_, rest, hr, hp, Or.inr (Or.inl rfl)⟩
  · obtain ⟨rest, hr, hp⟩ := elig_head (rfl : MEDIA.parts = [("media")]) h
    exact ⟨_, rest, hr, hp, Or.inr (Or.inr rfl)⟩

lemma cb_not_staging (fs : FS) {e : FileEntry} (h : e ∈ cleanedBase fs) :
    pUnder STAGING e.path = false := by
  unfold cleanedBase at h
  have h1 := List.Sublist.mem h (List.filter_sublist _)
  unfold preStage removeTreeFS at h1
  have h2 := (List.mem_filter.1 h1).2
  revert h2
  cases pUnder STAGING e.path <;> simp

lemma cb_not_live (fs : FS) {e : FileEntry} (h : e ∈ cleanedBase fs) :
    pUnder ADDONS e.path = false ∧ pUnder USERDATA e.path = false ∧
      pUnder MEDIA e.path = false := by
  unfold cleanedBase at h
  have h2 := (List.mem_filter.1 h).2
  rw [Bool.and_eq_true, Bool.and_eq_true, Bool.not_eq_true', Bool.not_eq_true',
    Bool.not_eq_true'] at h2
  exact ⟨h2.1.1, h2.1.2, h2.2⟩

lemma elig_mem {fs : FS} {e : FileEntry} (he : e ∈ fs) (h : eligAny e = true) :
    e ∈ eligibleEntries fs := by
  unfold eligAny at h
  rw [Bool.or_eq_true, Bool.or_eq_true] at h
  unfold eligibleEntries
  rcases h with (h | h) | h
  · exact List.mem_append.2 (Or.inl (List.mem_append.2
      (Or.inl (List.mem_filter.2 ⟨he, h⟩))))
  · exact List.mem_append.2 (Or.inl (List.mem_append.2
      (Or.inr (List.mem_filter.2 ⟨he, h⟩))))
  · exact List.mem_append.2 (Or.inr (List.mem_filter.2 ⟨he, h⟩))

lemma elig_mem_rev {fs : FS} {e : FileEntry} (he : e ∈ eligibleEntries fs) :
    e ∈ fs ∧ eligAny e = true := by
  unfold eligibleEntries at he
  rcases List.mem_append.1 he with h12 | h3
  · rcases List.mem_append.1 h12 with h1 | h2
    · obtain ⟨hm, hw⟩ := List.mem_filter.1 h1
      exact ⟨hm, by simp [eligAny, hw]⟩
    · obtain ⟨hm, hw⟩ := List.mem_filter.1 h2
      exact ⟨hm, by simp [eligAny, hw]⟩
  · obtain ⟨hm, hw⟩ := List.mem_filter.1 h3
    exact ⟨hm, by simp [eligAny, hw]⟩

lemma elig_entries_wf {fs : FS} (hwf1 : ∀ e ∈ fs, wfEntry e = true) :
    ∀ e ∈ eligibleEntries fs, wfEntry e = true :=
  fun e he => hwf1 e (elig_mem_rev he).1

lemma arcname_inj {e f : FileEntry} (hwe : wfEntry e = true)
    (hwff : wfEntry f = true)
    (h : get_zip_arcname e.path = get_zip_arcname f.path) : e.path = f.path := by
  obtain ⟨ha1, hn1, hv1, _⟩ := wfEntry_parts hwe
  obtain ⟨ha2, hn2, hv2, _⟩ := wfEntry_parts hwff
  have h1 : get_zip_arcname e.path = joinWith ("/") e.path.parts := by
    unfold get_zip_arcname
    rw [ha1]
    simp
  have h2 : get_zip_arcname f.path = joinWith ("/") f.path.parts := by
    unfold get_zip_arcname
    rw [ha2]
    simp
  rw [h1, h2] at h
  have h3 := congrArg parseP h
  rw [parseP_joinWith _ hn1 hv1, parseP_joinWith _ hn2 hv2] at h3
  injection h3 with _ hparts
  have he1 : e.path = ⟨e.path.abs, e.path.parts⟩ := rfl
  have hf1 : f.path = ⟨f.path.abs, f.path.parts⟩ := rfl
  rw [he1, hf1, ha1, ha2, hparts]

lemma mem_stagedOf {fs : FS} (hwf : wfFS fs) {e : FileEntry}
    (he : e ∈ stagedOf fs) :
    ∃ f ∈ fs, eligAny f = true ∧ wfEntry f = true ∧
      e = ⟨⟨false, STAGING.parts ++ f.path.parts⟩, f.content, 0⟩ := by
  unfold stagedOf at he
  obtain ⟨z, hz, hze⟩ := List.mem_map.1 he
  obtain ⟨f, hf, helig, hzz⟩ := mem_backupFileEntries hz
  refine ⟨f, hf, helig, hwf.1 f hf, ?_⟩
  rw [← hze, hzz]
  show (⟨extractTarget (get_zip_arcname f.path), f.content, 0⟩ : FileEntry) = _
  rw [arcname_target (hwf.1 f hf)]

lemma rebase_staged_copy {f : FileEntry} (hfwf : wfEntry f = true) :
    rebase ⟨⟨false, STAGING.parts ++ f.path.parts⟩, f.content, 0⟩ =
      ⟨f.path, f.content, 0⟩ := by
  unfold rebase stripStaging
  have hu : pUnder STAGING
      ((⟨⟨false, STAGING.parts ++ f.path.parts⟩, f.content, 0⟩ : FileEntry).path) =
      true := by
    show pUnder STAGING (⟨false, STAGING.parts ++ f.path.parts⟩ : PPath) = true
    have h2 := pUnder_self_append STAGING f.path.parts
    have h3 : STAGING.abs = false := by decide
    rw [h3] at h2
    exact h2
  simp only [hu, if_true]
  have habs := (wfEntry_parts hfwf).1
  have hfp : f.path = ⟨false, f.path.parts⟩ := by
    have h1 : f.path = ⟨f.path.abs, f.path.parts⟩ := rfl
    rw [h1, habs]
  rw [staging_eq, hfp]
  rfl

/-- The complete filesystem outcome of a benign restore of the archive
produced by backup: the source tree cleaned of everything under the live
roots plus a fresh copy of every backed-up file, with the staging area and
the local archive copy removed. -/
lemma restore_final_fs (fs : FS) (inp : RestoreIn) (hwf : wfFS fs)
    (hdl : inp.downloadOk = true) (hbad : inp.badFile = none)
    (hnc : ∀ k, inp.cancel k = false) (hok : ∀ k, inp.extractOk k = true)
    (hlk : ∀ p, inp.locked p = false) (hmf : ∀ p, inp.moveFail p = none)
    (harch : inp.arch = backupArchive fs) :
    (restore fs inp).fs =
      removeFileFS (removeTreeFS (cleanedBase fs ++ restoredCopies fs) STAGING)
        LOCALZIP := by
  have hout := restore_success_out fs inp hdl hbad hnc
  have hwfs := wipedFS_eq fs inp hwf hok harch hlk
  have hsplit : ∀ e ∈ wipedFS fs inp, e ∈ cleanedBase fs ∨ e ∈ stagedOf fs := by
    intro e he
    rw [hwfs] at he
    exact List.mem_append.1 he
  have hshape : ∀ e ∈ stagedOf fs, ∃ R s r,
      (R = ("addons") ∨ R = ("userdata") ∨ R = ("media")) ∧
      e.path = ⟨false, ("temp") :: ("restore_staging") :: R :: s :: r⟩ := by
    intro e he
    obtain ⟨f, hf, helig, hfwf, hee⟩ := mem_stagedOf hwf he
    obtain ⟨R, rest, hrne, hparts, hR⟩ := elig_path_shape helig
    cases rest with
    | nil => exact absurd rfl hrne
    | cons s r =>
      refine ⟨R, s, r, hR, ?_⟩
      rw [hee]
      show (⟨false, STAGING.parts ++ f.path.parts⟩ : PPath) = _
      rw [staging_eq, hparts]
      rfl
  have hstagedU : ∀ e ∈ stagedOf fs, pUnder STAGING e.path = true := by
    intro e he
    obtain ⟨R, s, r, _, hp⟩ := hshape e he
    rw [hp, staging_eq]
    simp [pUnder, isPre]
  have hcsfact : ∀ c ∈ childNames (wipedFS fs inp) STAGING,
      (c = ("addons") ∨ c = ("userdata") ∨ c = ("media")) := by
    intro c hc
    obtain ⟨e, he, hu, hh⟩ := mem_childNames hc
    rcases hsplit e he with hcb | hst
    · rw [cb_not_staging fs hcb] at hu
      cases hu
    · obtain ⟨R, s, r, hR, hp⟩ := hshape e hst
      rw [hp, staging_eq] at hh
      have hh2 : some R = some c := hh
      injection hh2 with h3
      rw [← h3]
      exact hR
  have hlookF : ∀ c ∈ childNames (wipedFS fs inp) STAGING,
      stagingMapLookup c = some ⟨false, [c]⟩ := by
    intro c hc
    rcases hcsfact c hc with h | h | h <;> rw [h] <;> decide
  have hcovF : ∀ e ∈ wipedFS fs inp, pUnder STAGING e.path = true →
      ∃ c ∈ childNames (wipedFS fs inp) STAGING, ∃ s r, e.path =
        ⟨false, ("temp") :: ("restore_staging") :: c :: s :: r⟩ := by
    intro e he hu
    rcases hsplit e he with hcb | hst
    · rw [cb_not_staging fs hcb] at hu
      cases hu
    · obtain ⟨R, s, r, _, hp⟩ := hshape e hst
      refine ⟨R, ?_, s, r, hp⟩
      apply childNames_contains he hu
      rw [hp, staging_eq]
      rfl
  have hbaseF : ∀ e ∈ wipedFS fs inp, pUnder STAGING e.path = false →
      ∀ c ∈ childNames (wipedFS fs inp) STAGING,
        pUnder (⟨false, [c]⟩ : PPath) e.path = false := by
    intro e he hu c hc
    rcases hsplit e he with hcb | hst
    · obtain ⟨h1, h2, h3⟩ := cb_not_live fs hcb
      rcases hcsfact c hc with h | h | h <;> rw [h]
      · exact h1
      · exact h2
      · exact h3
    · rw [hstagedU e hst] at hu
      cases hu
  have hneF : ∀ c ∈ childNames (wipedFS fs inp) STAGING,
      ∃ e ∈ wipedFS fs inp, ∃ s r, e.path =
        ⟨false, ("temp") :: ("restore_staging") :: c :: s :: r⟩ := by
    intro c hc
    obtain ⟨e, he, hu, hh⟩ := mem_childNames hc
    rcases hsplit e he with hcb | hst
    · rw [cb_not_staging fs hcb] at hu
      cases hu
    · obtain ⟨R, s, r, _, hp⟩ := hshape e hst
      rw [hp, staging_eq] at hh
      have hh2 : some R = some c := hh
      injection hh2 with h3
      subst h3
      exact ⟨e, he, s, r, hp⟩
  have hmo : (moveOutOf fs inp).fs = (wipedFS fs inp).map rebase :=
    movePhaseGo_map inp.moveFail hmf (childNames (wipedFS fs inp) STAGING)
      (wipedFS fs inp) (dedup_nodup _) hlookF hcovF hbaseF hneF
  have hmap : (wipedFS fs inp).map rebase = cleanedBase fs ++ restoredCopies fs := by
    rw [hwfs, List.map_append]
    congr 1
    · have hpt : ∀ e ∈ cleanedBase fs, rebase e = e := by
        intro e he
        unfold rebase
        rw [cb_not_staging fs he]
        simp
      rw [List.map_congr_left hpt, List.map_id']
    · unfold stagedOf restoredCopies
      rw [backupFileEntries_map, List.map_map, List.map_map]
      apply List.map_congr_left
      intro f hf
      have hfwf := elig_entries_wf hwf.1 f hf
      simp only [Function.comp_apply]
      show rebase (⟨extractTarget (get_zip_arcname f.path), f.content, 0⟩ : FileEntry)
        = (⟨f.path, f.content, 0⟩ : FileEntry)
      rw [arcname_target hfwf]
      exact rebase_staged_copy hfwf
  rw [hout]
  show removeFileFS (removeTreeFS (moveOutOf fs inp).fs STAGING) LOCALZIP = _
  rw [hmo, hmap]

/-- C2: on a wellformed source tree (relative literal paths, no file
exactly at a live root, no duplicate or nested file paths), backing up and
then fully restoring the produced archive (successful download, clean
integrity check, no cancellation, successful extraction and moves, no
locked files) reproduces every file stored by the backup walks
byte-for-byte at its original path, and every file under a live root that
the walks exclude (under userdata/Thumbnails, addons/packages, addons/temp,
below a .git or __pycache__ directory, or a texture database under
userdata) is absent from the restored tree and from the archive. -/
theorem claim_C2 (fs : FS) (inp : RestoreIn) (hwf : wfFS fs)
    (hdl : inp.downloadOk = true) (hbad : inp.badFile = none)
    (hnc : ∀ k, inp.cancel k = false) (hok : ∀ k, inp.extractOk k = true)
    (hlk : ∀ p, inp.locked p = false) (hmf : ∀ p, inp.moveFail p = none)
    (harch : inp.arch = backupArchive fs) :
    (∀ e ∈ fs, eligAny e = true →
      hasFile (restore fs inp).fs e.path e.content = true) ∧
    (∀ e ∈ fs, liveAny e.path = true → eligAny e = false →
      (∀ e2 ∈ (restore fs inp).fs, ¬ e2.path = e.path) ∧
      (∀ z ∈ inp.arch, ¬ z.name = get_zip_arcname e.path)) := by
  have hfinal := restore_final_fs fs inp hwf hdl hbad hnc hok hlk hmf harch
  constructor
  · intro e he helig
    obtain ⟨R, rest, hrne, hparts, hR⟩ := elig_path_shape helig
    have hewf := hwf.1 e he
    have habs := (wfEntry_parts hewf).1
    have hpe : e.path = ⟨false, R :: rest⟩ := by
      have h1 : e.path = ⟨e.path.abs, e.path.parts⟩ := rfl
      rw [h1, habs, hparts]
    have hRtemp : ((("temp") : String) == R) = false := by
      rcases hR with h | h | h <;> rw [h] <;> decide
    have hnotst : pUnder STAGING e.path = false := by
      rw [hpe, staging_eq]
      exact pUnder_cons_ne hRtemp _ _
    have hnotlz : (e.path == LOCALZIP) = false := by
      apply beq_eq_false_iff_ne.2
      intro heq
      rw [hpe, localzip_eq] at heq
      injection heq with _ hpp
      injection hpp with hhead _
      rcases hR with h | h | h <;> rw [h] at hhead <;> exact absurd hhead (by decide)
    have hmem : (⟨e.path, e.content, 0⟩ : FileEntry) ∈ (restore fs inp).fs := by
      rw [hfinal]
      unfold removeFileFS removeTreeFS
      apply List.mem_filter.2
      constructor
      · apply List.mem_filter.2
        constructor
        · apply List.mem_append.2
          right
          unfold restoredCopies
          exact List.mem_map.2 ⟨e, elig_mem he helig, rfl⟩
        · simp [hnotst]
      · simp [hnotlz]
    unfold hasFile
    apply List.any_eq_true.2
    refine ⟨⟨e.path, e.content, 0⟩, hmem, ?_⟩
    simp
  · intro e he hlive hexcl
    have hewf := hwf.1 e he
    constructor
    · intro e2 he2 heq
      rw [hfinal] at he2
      unfold removeFileFS removeTreeFS at he2
      have h1 := (List.mem_filter.1 he2).1
      have h2 := (List.mem_filter.1 h1).1
      rcases List.mem_append.1 h2 with hcb | hrc
      · obtain ⟨hA, hU, hM⟩ := cb_not_live fs hcb
        unfold liveAny at hlive
        rw [Bool.or_eq_true, Bool.or_eq_true] at hlive
        rw [heq] at hA hU hM
        rcases hlive with (h | h) | h
        · rw [hA] at h
          cases h
        · rw [hU] at h
          cases h
        · rw [hM] at h
          cases h
      · unfold restoredCopies at hrc
        obtain ⟨f, hf, hfe⟩ := List.mem_map.1 hrc
        obtain ⟨hfm, hfelig⟩ := elig_mem_rev hf
        have hpath : f.path = e.path := by
          rw [← heq, ← hfe]
        have hfeq : f = e :=
          List.inj_on_of_nodup_map (wf_paths_nodup hwf) hfm he hpath
        rw [hfeq, hexcl] at hfelig
        cases hfelig
    · intro z hz heq
      rw [harch] at hz
      unfold backupArchive at hz
      have hfile : ∀ (folder : PPath) (exdb : Bool),
          z ∈ add_folder_to_zip fs folder exdb →
          (∀ g : FileEntry, writeEligible folder exdb g = true →
            eligAny g = true) → False := by
        intro folder exdb hzz himp
        obtain ⟨f, hfm, hfelig, hzf⟩ := mem_add_folder hzz
        rw [hzf] at heq
        have harceq : get_zip_arcname f.path = get_zip_arcname e.path := heq
        have hpp := arcname_inj (hwf.1 f hfm) hewf harceq
        have hfeq : f = e :=
          List.inj_on_of_nodup_map (wf_paths_nodup hwf) hfm he hpp
        have h5 := himp f hfelig
        rw [hfeq, hexcl] at h5
        cases h5
      have hmfree := arcname_marker_free hewf
      rcases List.mem_append.1 hz with h12 | hMm
      · rcases List.mem_append.1 h12 with hAU | hmk
        · rcases List.mem_append.1 hAU with hA | hU
          · exact hfile ADDONS false hA (fun g hg => by simp [eligAny, hg])
          · exact hfile USERDATA true hU (fun g hg => by simp [eligAny, hg])
        · rw [← heq] at hmfree
          rcases List.mem_cons.1 hmk with rfl | hmk2
          · exact absurd hmfree (by decide)
          · rcases List.mem_cons.1 hmk2 with rfl | hmk3
            · exact absurd hmfree (by decide)
            · cases hmk3
      · exact hfile MEDIA false hMm (fun g hg => by simp [eligAny, hg])

/-- C2 witness tree: one file the addons walk stores and one file under
addons/packages that the walks exclude. -/
def c2fs : FS :=
  [⟨⟨false, [("addons"), ("x"), ("a.py")]⟩, [7], 3⟩,
   ⟨⟨false, [("addons"), ("packages"), ("p.zip")]⟩, [8], 4⟩]

/-- C2 witness inputs: the archive backup produces from that tree, with
every oracle benign. -/
def c2in : RestoreIn :=
  ⟨backupArchive c2fs, true, none, fun _ => false, fun _ => true,
   fun _ => false, fun _ => none⟩

/-- Witness for C2 at a concrete round trip: the stored file reappears
byte-for-byte and the excluded file is in neither the restored tree nor
the archive. -/
theorem claim_C2_witness :
    hasFile (restore c2fs c2in).fs
      (⟨false, [("addons"), ("x"), ("a.py")]⟩ : PPath) [7] = true ∧
    (∀ e2 ∈ (restore c2fs c2in).fs,
      ¬ e2.path = (⟨false, [("addons"), ("packages"), ("p.zip")]⟩ : PPath)) ∧
    (∀ z ∈ c2in.arch, ¬ z.name =
      get_zip_arcname (⟨false, [("addons"), ("packages"), ("p.zip")]⟩ : PPath)) := by
  have h := claim_C2 c2fs c2in (by decide) rfl rfl (fun _ => rfl) (fun _ => rfl)
    (fun _ => rfl) (fun _ => rfl) rfl
  refine ⟨?_, ?_, ?_⟩
  · exact h.1 ⟨⟨false, [("addons"), ("x"), ("a.py")]⟩, [7], 3⟩ (by decide) (by decide)
  · exact (h.2 ⟨⟨false, [("addons"), ("packages"), ("p.zip")]⟩, [8], 4⟩ (by decide)
      (by decide) (by decide)).1
  · exact (h.2 ⟨⟨false, [("addons"), ("packages"), ("p.zip")]⟩, [8], 4⟩ (by decide)
      (by decide) (by decide)).2

end LazyMaintenance
